import Mathlib

/-!
# UTF-8 codec of `main.c`: shallow embedding and verification

A C string is modelled by the list of the bytes stored in its array before the
terminating NUL, each byte a natural number below 256.  Reading the array at the
index just past the list gives the terminator `0`.  `unsigned int` values are
natural numbers; no value computed by the validator or the decoder exceeds 24
bits, so no reduction modulo `2^32` is needed there, and the `(char)` casts of
the encoder keep the low 8 bits.

Loops that move by one byte are recursive on the list.  The other loops are
functions with a fuel argument, called with one iteration more than the bytes
of the input; the loop of `my_utf8_strcmp`, which need not end, keeps its fuel
as an argument.  An output array is an `OutBuf`, split at the output pointer;
the string a caller reads from it ends at its first NUL.
-/

namespace Utf8Project

/-! ## Byte classifier (main.c:313-367) -/

/-- Byte `string[i]` of a C string: the `i`-th stored byte, or the terminator. -/
def peek (string : List Nat) (i : Nat) : Nat := string.getD i 0

/-- Source `is_continuation_byte`: `(byte & 0xC0) == 0x80`. -/
def is_continuation_byte (byte : Nat) : Bool := (byte &&& 0xC0) == 0x80

/-- Source `is_start_byte`: `(byte & 0xC0) != 0x80`. -/
def is_start_byte (byte : Nat) : Bool := (byte &&& 0xC0) != 0x80

/-- Source `is_valid_lead_byte`: the high bits expected of the lead byte of a
sequence of `num_bytes` bytes. -/
def is_valid_lead_byte (byte : Nat) (num_bytes : Nat) : Bool :=
  match num_bytes with
  | 2 => (byte &&& 0xE0) == 0xC0
  | 3 => (byte &&& 0xF0) == 0xE0
  | 4 => (byte &&& 0xF8) == 0xF0
  | _ => false

/-- Source `is_surrogate`. -/
def is_surrogate (code_point : Nat) : Bool :=
  decide (code_point ≥ 0xD800) && decide (code_point ≤ 0xDFFF)

/-- Source `is_overlong_encoding`, branch for branch. -/
def is_overlong_encoding (byte : Nat) (code_point : Nat) : Bool :=
  if code_point ≤ 0x7F then
    (byte &&& 0x80) == 0x80
  else if code_point ≤ 0x7FF then
    ((byte &&& 0xE0) == 0xC0) && decide (code_point ≤ 0x7F)
  else if code_point ≤ 0xFFFF then
    ((byte &&& 0xF0) == 0xE0) && decide (code_point ≤ 0x7FF)
  else
    ((byte &&& 0xF8) == 0xF0) && decide (code_point ≤ 0xFFFF)

/-- Source `is_valid_code_point`. -/
def is_valid_code_point (code_point : Nat) : Bool :=
  !is_surrogate code_point && decide (code_point ≤ 0x10FFFF)

/-! ## Validator `my_utf8_check` (main.c:370-420) -/

/-- The `num_bytes` chain of `my_utf8_check` (main.c:376-387); `none` is the
branch that returns `-1`. -/
def check_num_bytes (lead_byte : Nat) : Option Nat :=
  if (lead_byte &&& 0x80) == 0 then some 1
  else if (lead_byte &&& 0xE0) == 0xC0 then some 2
  else if (lead_byte &&& 0xF0) == 0xE0 then some 3
  else if (lead_byte &&& 0xF8) == 0xF0 then some 4
  else none

/-- The continuation loop of `my_utf8_check` (main.c:390-394), started at index
`i` with `k` iterations left: `false` as soon as `string[i]` is not a
continuation byte (the `return -2`), `true` when the loop runs to its end. -/
def check_continuation (string : List Nat) : Nat → Nat → Bool
  | _, 0 => true
  | i, k + 1 =>
    if !is_continuation_byte (peek string i) then false
    else check_continuation string (i + 1) k

/-- The decoding loop of `my_utf8_check` (main.c:397-400), started at index `i`
with `k` iterations left and accumulator `code_point`.  Every byte, the lead
byte included, is masked with `0x3F`. -/
def check_code_point (string : List Nat) : Nat → Nat → Nat → Nat
  | _, 0, code_point => code_point
  | i, k + 1, code_point =>
    check_code_point string (i + 1) k ((code_point <<< 6) ||| (peek string i &&& 0x3F))

/-- The `while` loop of `my_utf8_check` with `fuel` iterations allowed.  The
result pairs the returned code with the number of sequences stepped over
(executions of `string += num_bytes`); `none` means the fuel ran out. -/
def my_utf8_check_run : Nat → List Nat → Option (Int × Nat)
  | 0, _ => none
  | fuel + 1, string =>
    if peek string 0 = 0 then some (0, 0)
    else
      let lead_byte := peek string 0
      if is_start_byte lead_byte then
        match check_num_bytes lead_byte with
        | none => some (-1, 0)
        | some num_bytes =>
          if !check_continuation string 1 (num_bytes - 1) then some (-2, 0)
          else
            let code_point := check_code_point string 0 num_bytes 0
            if is_overlong_encoding lead_byte code_point then some (-3, 0)
            else if !is_valid_code_point code_point then some (-4, 0)
            else
              match my_utf8_check_run fuel (string.drop num_bytes) with
              | some (r, steps) => some (r, steps + 1)
              | none => none
      else some (-5, 0)

/-- Source `my_utf8_check`: the returned code.  Every iteration consumes at
least one byte, so `string.length + 1` iterations are allowed. -/
def my_utf8_check (string : List Nat) : Option Int :=
  (my_utf8_check_run (string.length + 1) string).map Prod.fst

/-- Number of sequences `my_utf8_check` steps over before it returns. -/
def my_utf8_check_steps (string : List Nat) : Option Nat :=
  (my_utf8_check_run (string.length + 1) string).map Prod.snd

/-! ## Length in code points `my_utf8_strlen` (main.c:103-122) -/

/-- The `while` loop of `my_utf8_strlen` with its counter.  The operand is a
`char`; a negative `char` and the byte it stores agree on `& 0xC0`, so the byte
value is used.  The counter is an `int` in the source and unbounded here. -/
def my_utf8_strlen_loop : List Nat → Nat → Nat
  | [], count => count
  | c :: rest, count =>
    if c = 0 then count
    else my_utf8_strlen_loop rest (if (c &&& 0xC0) != 0x80 then count + 1 else count)

/-- Source `my_utf8_strlen`. -/
def my_utf8_strlen (string : List Nat) : Nat := my_utf8_strlen_loop string 0

/-! ## Results of functions that can leave the string -/

/-- Result of running a function whose pointer can move beyond the terminator of
its input.  `undefined` is the C execution whose input pointer has passed the
terminator (every later read is outside the string); `out_of_fuel` is the
model's iteration allowance running out. -/
inductive Outcome (α : Type) where
  | returned : α → Outcome α
  | undefined : Outcome α
  | out_of_fuel : Outcome α
  deriving DecidableEq

/-- Apply a function to a returned value. -/
def Outcome.map {α β : Type} (f : α → β) : Outcome α → Outcome β
  | Outcome.returned a => Outcome.returned (f a)
  | Outcome.undefined => Outcome.undefined
  | Outcome.out_of_fuel => Outcome.out_of_fuel

/-! ## Output buffer -/

/-- The caller's output array seen from the output pointer: `before` holds the
bytes stored below the pointer, `after` the bytes already stored at and above
it (left there by a `sprintf` that wrote more than the pointer then moved). -/
structure OutBuf where
  before : List Nat
  after : List Nat
  deriving DecidableEq

/-- Store `bytes` at the output pointer, over what was there. -/
def OutBuf.store (o : OutBuf) (bytes : List Nat) : OutBuf :=
  { before := o.before, after := bytes ++ o.after.drop bytes.length }

/-- Move the output pointer `n` bytes up. -/
def OutBuf.advance (o : OutBuf) (n : Nat) : OutBuf :=
  { before := o.before ++ o.after.take n, after := o.after.drop n }

/-- The statement `*output++ = byte`. -/
def OutBuf.put (o : OutBuf) (byte : Nat) : OutBuf := (o.store [byte]).advance 1

/-- The statement `*output = '\0'` followed by the caller reading the array as
a C string: the bytes up to the first NUL. -/
def OutBuf.finish (o : OutBuf) : List Nat :=
  ((o.store [0]).before ++ (o.store [0]).after).takeWhile (fun b => b != 0)

/-- The output array on entry: nothing stored yet. -/
def OutBuf.empty : OutBuf := { before := [], after := [] }

/-! ## `printf`/`scanf` conversions used by the codec (C library semantics) -/

/-- Character of one hexadecimal digit under `%X`. -/
def hex_char_upper (d : Nat) : Nat := if d < 10 then 0x30 + d else 0x37 + d

/-- Hexadecimal digits of `n`, most significant first, at most `fuel` of them. -/
def hex_digits : Nat → Nat → List Nat
  | 0, _ => []
  | fuel + 1, n => if n < 16 then [n] else hex_digits fuel (n / 16) ++ [n % 16]

/-- Characters written by `%04X` for an `unsigned int` (at most 8 digits):
upper-case hexadecimal, padded with zeros to at least four digits. -/
def format_04X (n : Nat) : List Nat :=
  (List.replicate (4 - (hex_digits 8 n).length) 0 ++ hex_digits 8 n).map hex_char_upper

/-- C `isspace` in the "C" locale. -/
def is_space (c : Nat) : Bool := c == 0x20 || (decide (9 ≤ c) && decide (c ≤ 13))

/-- Value of a hexadecimal digit character, either case. -/
def hex_value (c : Nat) : Option Nat :=
  if 0x30 ≤ c ∧ c ≤ 0x39 then some (c - 0x30)
  else if 0x41 ≤ c ∧ c ≤ 0x46 then some (c - 0x37)
  else if 0x61 ≤ c ∧ c ≤ 0x66 then some (c - 0x57)
  else none

/-- Read at most `width` hexadecimal digits from the front of `s` onto the
value `acc` read so far (`none`: no digit read yet). -/
def scan_hex : Nat → List Nat → Option Nat → Option Nat
  | 0, _, acc => acc
  | _ + 1, [], acc => acc
  | width + 1, c :: cs, acc =>
    match hex_value c with
    | none => acc
    | some d => scan_hex width cs (some (acc.getD 0 * 16 + d))

/-- The conversion `sscanf(s, "%4x", &codePoint)` on the C string `s`: the value
stored, or `none` when nothing is stored.  White space is skipped; then, within
a field of four characters, an optional sign, an optional `0x`/`0X` and
hexadecimal digits are read as by `strtoul` in base 16, a minus sign negating
the value as an `unsigned int`.  A field that stops right after `0x` is given
the value 0 here; an implementation that reports a matching failure instead
leaves `codePoint` at its initial 0, which is the same for the caller. -/
def sscanf_4x (s : List Nat) : Option Nat :=
  let s1 := s.dropWhile is_space
  let signed := decide (peek s1 0 = 0x2D) || decide (peek s1 0 = 0x2B)
  let negative := decide (peek s1 0 = 0x2D)
  let s2 := if signed then s1.drop 1 else s1
  let width := if signed then 3 else 4
  let value :=
    if peek s2 0 = 0x30 ∧ (peek s2 1 = 0x78 ∨ peek s2 1 = 0x58) then
      scan_hex (width - 2) (s2.drop 2) (some 0)
    else scan_hex width s2 none
  match value with
  | none => none
  | some v => some (if negative then (2 ^ 32 - v) % 2 ^ 32 else v)

/-! ## Escape decoder `my_utf8_encode` (main.c:4-53) -/

/-- The bytes `my_utf8_encode` emits for `codePoint` (main.c:20-43); each
`(char)` cast keeps the low 8 bits. -/
def encode_code_point (codePoint : Nat) (output : OutBuf) : OutBuf :=
  if codePoint ≤ 0x007F then
    output.put (codePoint % 256)
  else if codePoint ≤ 0x07FF then
    (output.put ((0xC0 ||| (codePoint >>> 6)) % 256)).put
      ((0x80 ||| (codePoint &&& 0x3F)) % 256)
  else if codePoint ≤ 0xFFFF then
    ((output.put ((0xE0 ||| (codePoint >>> 12)) % 256)).put
      ((0x80 ||| ((codePoint >>> 6) &&& 0x3F)) % 256)).put
      ((0x80 ||| (codePoint &&& 0x3F)) % 256)
  else
    (((output.put ((0xF0 ||| (codePoint >>> 18)) % 256)).put
      ((0x80 ||| ((codePoint >>> 12) &&& 0x3F)) % 256)).put
      ((0x80 ||| ((codePoint >>> 6) &&& 0x3F)) % 256)).put
      ((0x80 ||| (codePoint &&& 0x3F)) % 256)

/-- The `while` loop of `my_utf8_encode` with `fuel` iterations allowed.
`input += 6` on a string with fewer than six bytes left moves the pointer beyond
the terminator: `undefined`. -/
def my_utf8_encode_run : Nat → List Nat → OutBuf → Outcome OutBuf
  | 0, _, _ => Outcome.out_of_fuel
  | fuel + 1, input, output =>
    if peek input 0 = 0 then Outcome.returned output
    else if peek input 0 = 0x5C ∧ peek input 1 = 0x75 then
      let codePoint := (sscanf_4x ((input.drop 2).takeWhile (fun b => b != 0))).getD 0
      if input.length < 6 then Outcome.undefined
      else my_utf8_encode_run fuel (input.drop 6) (encode_code_point codePoint output)
    else my_utf8_encode_run fuel (input.drop 1) (output.put (peek input 0))

/-- Source `my_utf8_encode`: the C string left in `output`. -/
def my_utf8_encode (input : List Nat) : Outcome (List Nat) :=
  (my_utf8_encode_run (input.length + 1) input OutBuf.empty).map OutBuf.finish

/-! ## Decoder to escape form `my_utf8_decode` (main.c:55-101) -/

/-- Source `appendUnicodeEscape`: `sprintf(*output, "\\u%04X", codePoint)` stores
the token and its terminating NUL, then the pointer moves 6 bytes up. -/
def appendUnicodeEscape (codePoint : Nat) (output : OutBuf) : OutBuf :=
  (output.store ([0x5C, 0x75] ++ format_04X codePoint ++ [0])).advance 6

/-- The `while` loop of `my_utf8_decode` with `fuel` iterations allowed.
`input += n` on a string with fewer than `n` bytes left moves the pointer beyond
the terminator: `undefined`. -/
def my_utf8_decode_run : Nat → List Nat → OutBuf → Outcome OutBuf
  | 0, _, _ => Outcome.out_of_fuel
  | fuel + 1, input, output =>
    if peek input 0 = 0 then Outcome.returned output
    else
      let ch := peek input 0
      if ch < 0x80 then
        my_utf8_decode_run fuel (input.drop 1) (output.put (peek input 0))
      else if (ch &&& 0xE0) == 0xC0 then
        let codePoint := ((ch &&& 0x1F) <<< 6) ||| (peek input 1 &&& 0x3F)
        if input.length < 2 then Outcome.undefined
        else my_utf8_decode_run fuel (input.drop 2) (appendUnicodeEscape codePoint output)
      else if (ch &&& 0xF0) == 0xE0 then
        let codePoint :=
          ((ch &&& 0x0F) <<< 12) ||| ((peek input 1 &&& 0x3F) <<< 6) ||| (peek input 2 &&& 0x3F)
        if input.length < 3 then Outcome.undefined
        else my_utf8_decode_run fuel (input.drop 3) (appendUnicodeEscape codePoint output)
      else if (ch &&& 0xF8) == 0xF0 then
        let codePoint :=
          ((ch &&& 0x07) <<< 18) ||| ((peek input 1 &&& 0x3F) <<< 12)
            ||| ((peek input 2 &&& 0x3F) <<< 6) ||| (peek input 3 &&& 0x3F)
        if input.length < 4 then Outcome.undefined
        else my_utf8_decode_run fuel (input.drop 4) (appendUnicodeEscape codePoint output)
      else
        my_utf8_decode_run fuel (input.drop 1) (output.put (peek input 0))

/-- Source `my_utf8_decode`: the returned value (always 0) and the C string left
in `output`. -/
def my_utf8_decode (input : List Nat) : Outcome (Int × List Nat) :=
  (my_utf8_decode_run (input.length + 1) input OutBuf.empty).map
    (fun o => ((0 : Int), o.finish))

/-! ## Specification-side notions -/

/-- Shortest-form UTF-8 encoding of a code point, as the standard defines it
(the spec's `minimal_utf8_encoding`); written with division and remainder,
independently of the code. -/
def minimal_utf8_encoding (c : Nat) : List Nat :=
  if c ≤ 0x7F then [c]
  else if c ≤ 0x7FF then [0xC0 + c / 64, 0x80 + c % 64]
  else if c ≤ 0xFFFF then [0xE0 + c / 4096, 0x80 + c / 64 % 64, 0x80 + c % 64]
  else [0xF0 + c / 262144, 0x80 + c / 4096 % 64, 0x80 + c / 64 % 64, 0x80 + c % 64]

/-- The buffer is valid UTF-8 within the escape range: the concatenation of the
shortest-form encodings of code points in `1 .. 0xFFFF`, none a surrogate.  The
code point 0 is left out because a C string cannot hold its encoding. -/
def valid_utf8_bmp (b : List Nat) : Prop :=
  ∃ cps : List Nat,
    (∀ c ∈ cps, 1 ≤ c ∧ c ≤ 0xFFFF ∧ ¬ (0xD800 ≤ c ∧ c ≤ 0xDFFF)) ∧
    b = cps.flatMap minimal_utf8_encoding

/-- The buffer holds a backslash immediately followed by `u`. -/
def has_escape_marker : List Nat → Bool
  | [] => false
  | c :: rest => (c == 0x5C && peek rest 0 == 0x75) || has_escape_marker rest

/-- The six characters of the escape token of a value `c ≤ 0xFFFF`: backslash,
`u` and the four upper-case hexadecimal digits of `c`, padded with zeros. -/
def escape_token (c : Nat) : List Nat :=
  [0x5C, 0x75, hex_char_upper (c / 4096 % 16), hex_char_upper (c / 256 % 16),
    hex_char_upper (c / 16 % 16), hex_char_upper (c % 16)]

/-- Escape form of a sequence of code points up to 0xFFFF: ASCII code points as
themselves, the others as their escape tokens. -/
def escape_form (cps : List Nat) : List Nat :=
  cps.flatMap (fun c => if c ≤ 0x7F then [c] else escape_token c)

/-! ## Code point at an index `my_utf8_charat` (main.c:124-150) -/

/-- The `while` loop of `my_utf8_charat`: the string from the pointer on, the
offset of the pointer from the start of the buffer and `index`, at loop exit. -/
def my_utf8_charat_walk : List Nat → Nat → Int → List Nat × Nat × Int
  | [], offset, index => ([], offset, index)
  | ch :: rest, offset, index =>
    if ch ≠ 0 ∧ index > 0 then
      my_utf8_charat_walk rest (offset + 1) (if (ch &&& 0xC0) != 0x80 then index - 1 else index)
    else (ch :: rest, offset, index)

/-- Source `my_utf8_charat`: the offset of the returned pointer from the start of
the buffer; `none` is NULL. -/
def my_utf8_charat (string : List Nat) (index : Int) : Option Nat :=
  if index < 0 then none
  else
    match my_utf8_charat_walk string 0 index with
    | (s, offset, i) => if peek s 0 = 0 ∨ (i > 0 ∧ peek s 0 = 0) then none else some offset

/-! ## Sub-range extraction `my_utf8_substring` (main.c:193-253) -/

/-- The byte-counting loop of `my_utf8_substring` (main.c:198-201). -/
def substring_input_length : List Nat → Nat
  | [] => 0
  | c :: rest => if c = 0 then 0 else substring_input_length rest + 1

/-- The chain that moves `i` past the character whose first byte is `ch`
(main.c:212-223, repeated at 237-248). -/
def substring_next (ch : Nat) (i : Nat) : Nat :=
  if ch < 0x80 then i + 1
  else if (ch &&& 0xE0) == 0xC0 then i + 2
  else if (ch &&& 0xF0) == 0xE0 then i + 3
  else if (ch &&& 0xF8) == 0xF0 then i + 4
  else i + 1

/-- The loop of `my_utf8_substring` that looks for the starting index
(main.c:208-226), from the state `i`, `currentIndex`: the value of `i` at loop
exit, `none` when the fuel runs out. -/
def substring_skip (input : List Nat) (inputLength : Nat) (start : Int) :
    Nat → Nat → Int → Option Nat
  | 0, _, _ => none
  | fuel + 1, i, currentIndex =>
    if i < inputLength ∧ currentIndex < start then
      substring_skip input inputLength start fuel (substring_next (peek input i) i)
        (currentIndex + 1)
    else some i

/-- The extraction loop of `my_utf8_substring` (main.c:230-249), from the state
`i`, `j`; `output[j] = input[i]; j++` stores one byte at the next place of the
output array. -/
def substring_copy (input : List Nat) (inputLength : Nat) (length : Int) :
    Nat → Nat → Int → OutBuf → Option OutBuf
  | 0, _, _, _ => none
  | fuel + 1, i, j, output =>
    if j < length ∧ i < inputLength then
      substring_copy input inputLength length fuel (substring_next (peek input i) i) (j + 1)
        (output.put (peek input i))
    else some output

/-- Source `my_utf8_substring`: the C string left in `output`.  Each loop moves
`i` up by at least one while `i < inputLength`, so `inputLength + 1` iterations
are allowed to each. -/
def my_utf8_substring (input : List Nat) (start length : Int) : Option (List Nat) :=
  match substring_skip input (substring_input_length input) start
      (substring_input_length input + 1) 0 0 with
  | none => none
  | some i =>
    match substring_copy input (substring_input_length input) length
        (substring_input_length input + 1) i 0 OutBuf.empty with
    | none => none
    | some output => some output.finish

/-! ## Comparison `my_utf8_strcmp` (main.c:153-187) -/

/-- The four bytes of an `unsigned int` initialised to 0, as the array that
`my_utf8_decode` is given for its output. -/
def OutBuf.zero_word : OutBuf := { before := [], after := [0, 0, 0, 0] }

/-- Value of a 4-byte `unsigned int` on a little-endian machine. -/
def little_endian (mem : List Nat) : Nat :=
  peek mem 0 + 256 * peek mem 1 + 65536 * peek mem 2 + 16777216 * peek mem 3

/-- Conversion of an `unsigned int` to `int` (two's complement). -/
def int_of_unsigned (u : Nat) : Int := if u < 2 ^ 31 then (u : Int) else (u : Int) - 2 ^ 32

/-- The call `my_utf8_decode(string, &code_point)` of `my_utf8_strcmp`, with
`code_point` an `unsigned int` initialised to 0: the value returned and the
value left in `code_point`.  `my_utf8_decode` stores the escape form of the
whole string and a NUL from the first byte of `code_point` on; `word` reads the
four bytes back as an `unsigned int`.  A store beyond the four bytes of
`code_point` is outside the object: `undefined`. -/
def decode_into_code_point (word : List Nat → Nat) (string : List Nat) : Outcome (Int × Nat) :=
  match my_utf8_decode_run (string.length + 1) string OutBuf.zero_word with
  | Outcome.returned o =>
    if ((o.store [0]).before ++ (o.store [0]).after).length ≤ 4 then
      Outcome.returned ((0 : Int), word ((o.store [0]).before ++ (o.store [0]).after))
    else Outcome.undefined
  | Outcome.undefined => Outcome.undefined
  | Outcome.out_of_fuel => Outcome.out_of_fuel

/-- Source `my_utf8_strcmp` with `fuel` iterations of its `while` loop allowed;
`word` is the byte order of the machine. -/
def my_utf8_strcmp_run (word : List Nat → Nat) : Nat → List Nat → List Nat → Outcome Int
  | 0, _, _ => Outcome.out_of_fuel
  | fuel + 1, string1, string2 =>
    if peek string1 0 ≠ 0 ∧ peek string2 0 ≠ 0 then
      match decode_into_code_point word string1 with
      | Outcome.returned (bytes1, code_point1) =>
        match decode_into_code_point word string2 with
        | Outcome.returned (bytes2, code_point2) =>
          if bytes1 = -1 ∨ bytes2 = -1 then Outcome.returned (-1)
          else if code_point1 ≠ code_point2 then
            Outcome.returned (int_of_unsigned ((code_point1 + 2 ^ 32 - code_point2) % 2 ^ 32))
          else
            my_utf8_strcmp_run word fuel (string1.drop bytes1.toNat) (string2.drop bytes2.toNat)
        | Outcome.undefined => Outcome.undefined
        | Outcome.out_of_fuel => Outcome.out_of_fuel
      | Outcome.undefined => Outcome.undefined
      | Outcome.out_of_fuel => Outcome.out_of_fuel
    else if peek string1 0 ≠ 0 then Outcome.returned 1
    else if peek string2 0 ≠ 0 then Outcome.returned (-1)
    else Outcome.returned 0

/-! ## Specification-side notions for the escape form and the decoder -/

/-- The standard UTF-8 byte sequence of a value up to 0xFFFF by length band,
written with the masks and shifts of the standard. -/
def utf8_bytes_by_band (v : Nat) : List Nat :=
  if v ≤ 0x7F then [v]
  else if v ≤ 0x7FF then [0xC0 ||| (v >>> 6), 0x80 ||| (v &&& 0x3F)]
  else [0xE0 ||| (v >>> 12), 0x80 ||| ((v >>> 6) &&& 0x3F), 0x80 ||| (v &&& 0x3F)]

/-- The buffer is valid UTF-8 in the sense of the spec's data model: the
concatenation of the shortest-form encodings of code points in `0 .. 0x10FFFF`,
none a surrogate. -/
def valid_utf8 (b : List Nat) : Prop :=
  ∃ cps : List Nat,
    (∀ c ∈ cps, c ≤ 0x10FFFF ∧ ¬ (0xD800 ≤ c ∧ c ≤ 0xDFFF)) ∧
    b = cps.flatMap minimal_utf8_encoding

/-- One element of an escape-form text: a literal ASCII byte, or a token made of
backslash, `u` and four characters. -/
inductive EscapeItem where
  | literal : Nat → EscapeItem
  | token : Nat → Nat → Nat → Nat → EscapeItem
  deriving DecidableEq

/-- The characters of an element of an escape-form text. -/
def EscapeItem.text : EscapeItem → List Nat
  | EscapeItem.literal c => [c]
  | EscapeItem.token d1 d2 d3 d4 => [0x5C, 0x75, d1, d2, d3, d4]

/-- The element is a literal byte in 0x01..0x7F or a token whose four characters
are hexadecimal digits, of either case. -/
def EscapeItem.well_formed : EscapeItem → Bool
  | EscapeItem.literal c => decide (1 ≤ c) && decide (c ≤ 0x7F)
  | EscapeItem.token d1 d2 d3 d4 =>
    (hex_value d1).isSome && (hex_value d2).isSome && (hex_value d3).isSome &&
      (hex_value d4).isSome

/-- The code point an element stands for: the literal byte, or the value of the
four hexadecimal digits of the token. -/
def EscapeItem.value : EscapeItem → Nat
  | EscapeItem.literal c => c
  | EscapeItem.token d1 d2 d3 d4 =>
    (((hex_value d1).getD 0 * 16 + (hex_value d2).getD 0) * 16 + (hex_value d3).getD 0) * 16 +
      (hex_value d4).getD 0

/-- No literal backslash is directly followed by a literal `u`: every
backslash-`u` pair of the text starts a token. -/
def no_literal_marker : List EscapeItem → Bool
  | [] => true
  | EscapeItem.literal c :: rest =>
    !(c == 0x5C && (rest.head? == some (EscapeItem.literal 0x75))) && no_literal_marker rest
  | EscapeItem.token _ _ _ _ :: rest => no_literal_marker rest

/-- The bytes the standard gives for an element: the literal byte itself, or the
byte sequence of the token's value by length band. -/
def EscapeItem.bytes : EscapeItem → List Nat
  | EscapeItem.literal c => [c]
  | EscapeItem.token d1 d2 d3 d4 => utf8_bytes_by_band (EscapeItem.value (EscapeItem.token d1 d2 d3 d4))

/-- A piece of a buffer that `my_utf8_decode` can step over without leaving the
string: a byte that starts no multi-byte sequence (0x01..0xBF or 0xF8..0xFF), or
a lead byte of a 2-, 3- or 4-byte pattern followed by one, two or three bytes of
the string. -/
def decode_chunk : List Nat → Bool
  | [x] => (decide (1 ≤ x) && decide (x ≤ 0xBF)) || (decide (0xF8 ≤ x) && decide (x ≤ 0xFF))
  | [l, a] => decide (0xC0 ≤ l) && decide (l ≤ 0xDF) && decide (1 ≤ a) && decide (a ≤ 0xFF)
  | [l, a, b] =>
    decide (0xE0 ≤ l) && decide (l ≤ 0xEF) && decide (1 ≤ a) && decide (a ≤ 0xFF) &&
      decide (1 ≤ b) && decide (b ≤ 0xFF)
  | [l, a, b, c] =>
    decide (0xF0 ≤ l) && decide (l ≤ 0xF7) && decide (1 ≤ a) && decide (a ≤ 0xFF) &&
      decide (1 ≤ b) && decide (b ≤ 0xFF) && decide (1 ≤ c) && decide (c ≤ 0xFF)
  | _ => false

/-- The byte cannot occur in any UTF-8 text: 0xC0, 0xC1 or 0xF5..0xFF. -/
def never_in_utf8 (x : Nat) : Bool :=
  x == 0xC0 || x == 0xC1 || (decide (0xF5 ≤ x) && decide (x ≤ 0xFF))

/-- What one iteration of the loop of `my_utf8_check` finds at the head of a
string that is not empty (main.c:374-416): the error code it returns, or the
number of bytes it steps over. -/
def check_first_sequence (string : List Nat) : Except Int Nat :=
  if is_start_byte (peek string 0) then
    match check_num_bytes (peek string 0) with
    | none => Except.error (-1)
    | some num_bytes =>
      if !check_continuation string 1 (num_bytes - 1) then Except.error (-2)
      else if is_overlong_encoding (peek string 0) (check_code_point string 0 num_bytes 0) then
        Except.error (-3)
      else if !is_valid_code_point (check_code_point string 0 num_bytes 0) then
        Except.error (-4)
      else Except.ok num_bytes
  else Except.error (-5)

/-! ## Specification-side notions for the behaviour claims -/

/-- The value shown by the four most significant hexadecimal digits of `v`, for
`v` below `2^24`: `v` itself up to 0xFFFF, `v` without its last digit up to
0xFFFFF, `v` without its last two digits above. -/
def top_four_hex (v : Nat) : Nat :=
  if v ≤ 0xFFFF then v else if v ≤ 0xFFFFF then v / 16 else v / 256

/-- The value `my_utf8_decode` reconstructs from a piece that starts with a lead
byte of a 2-, 3- or 4-byte pattern (main.c:76, 85, 90). -/
def decode_chunk_value : List Nat → Nat
  | [l, a] => ((l &&& 0x1F) <<< 6) ||| (a &&& 0x3F)
  | [l, a, b] => ((l &&& 0x0F) <<< 12) ||| ((a &&& 0x3F) <<< 6) ||| (b &&& 0x3F)
  | [l, a, b, c] =>
    ((l &&& 0x07) <<< 18) ||| ((a &&& 0x3F) <<< 12) ||| ((b &&& 0x3F) <<< 6) ||| (c &&& 0x3F)
  | _ => 0

/-- What a piece of the buffer contributes to the final output of
`my_utf8_decode`: a single byte itself, a multi-byte piece the six characters
backslash, `u` and the four most significant hexadecimal digits of its value. -/
def decode_chunk_output : List Nat → List Nat
  | [x] => [x]
  | ch => escape_token (top_four_hex (decode_chunk_value ch))

/-- The element is canonical: a literal byte in 0x01..0x7F, or a token of four
upper-case hexadecimal digits whose value is in 0x0080..0xFFFF. -/
def EscapeItem.canonical : EscapeItem → Bool
  | EscapeItem.literal c => decide (1 ≤ c) && decide (c ≤ 0x7F)
  | EscapeItem.token d1 d2 d3 d4 =>
    [d1, d2, d3, d4].all
        (fun d => (decide (0x30 ≤ d) && decide (d ≤ 0x39)) ||
          (decide (0x41 ≤ d) && decide (d ≤ 0x46))) &&
      decide (0x80 ≤ EscapeItem.value (EscapeItem.token d1 d2 d3 d4))

/-- First bytes of the sequences that the walk of `my_utf8_substring` visits
from index `i` on, each sequence as long as `substring_next` makes it; `fuel`
bounds the number of sequences. -/
def sequence_heads (input : List Nat) (inputLength : Nat) : Nat → Nat → List Nat
  | 0, _ => []
  | fuel + 1, i =>
    if i < inputLength then
      peek input i :: sequence_heads input inputLength fuel (substring_next (peek input i) i)
    else []

/-- Value of a run of hexadecimal digit characters, most significant first. -/
def hex_digits_value (ds : List Nat) : Nat :=
  ds.foldl (fun v d => v * 16 + (hex_value d).getD 0) 0

/-- Specification side: the number of bytes of the sequence that a first byte
announces, by the byte ranges of the UTF-8 table: 0xC0..0xDF two, 0xE0..0xEF
three, 0xF0..0xF7 four, every other byte one. -/
def announced_length (first : Nat) : Nat :=
  if 0xC0 ≤ first ∧ first ≤ 0xDF then 2
  else if 0xE0 ≤ first ∧ first ≤ 0xEF then 3
  else if 0xF0 ≤ first ∧ first ≤ 0xF7 then 4
  else 1

/-- Specification side: the first bytes of the sequences of a buffer read from
left to right, each sequence as long as its first byte announces (the last one
may be cut short by the end of the buffer); `skip` bytes at the head still
belong to the sequence in progress. -/
def first_bytes : Nat → List Nat → List Nat
  | _, [] => []
  | 0, x :: rest => x :: first_bytes (announced_length x - 1) rest
  | skip + 1, _ :: rest => first_bytes skip rest

/-! ## Facts about single bytes -/

set_option maxRecDepth 100000 in
theorem byte_continuation_iff :
    ∀ b < 256, (is_continuation_byte b = true ↔ (0x80 ≤ b ∧ b ≤ 0xBF)) := by decide

set_option maxRecDepth 100000 in
theorem byte_start_iff :
    ∀ b < 256, (is_start_byte b = true ↔ ¬ (0x80 ≤ b ∧ b ≤ 0xBF)) := by decide

set_option maxRecDepth 100000 in
theorem byte_num_bytes :
    ∀ b < 256,
      ((b ≤ 0x7F → check_num_bytes b = some 1) ∧
       (0xC0 ≤ b ∧ b ≤ 0xDF → check_num_bytes b = some 2) ∧
       (0xE0 ≤ b ∧ b ≤ 0xEF → check_num_bytes b = some 3) ∧
       (0xF0 ≤ b ∧ b ≤ 0xF7 → check_num_bytes b = some 4) ∧
       (0xF8 ≤ b → check_num_bytes b = none)) := by decide

theorem peek_cons_zero (c : Nat) (rest : List Nat) : peek (c :: rest) 0 = c := rfl

theorem peek_cons_succ (c : Nat) (rest : List Nat) (i : Nat) :
    peek (c :: rest) (i + 1) = peek rest i := rfl

theorem peek_lt_of_bytes (s : List Nat) (hs : ∀ x ∈ s, x < 256) (i : Nat) : peek s i < 256 := by
  unfold peek
  rw [List.getD_eq_getElem?_getD]
  cases h : s[i]? with
  | none => simp
  | some x => exact hs x (List.getElem?_mem h)

/-- The continuation loop succeeds exactly when every index it visits holds a
continuation byte. -/
theorem check_continuation_iff (s : List Nat) (k : Nat) :
    ∀ i, check_continuation s i k = true ↔
      ∀ j, i ≤ j → j < i + k → is_continuation_byte (peek s j) = true := by
  induction k with
  | zero => intro i; simp [check_continuation]; intro j h1 h2; omega
  | succ k ih =>
    intro i
    simp only [check_continuation]
    constructor
    · intro h j h1 h2
      by_cases hc : is_continuation_byte (peek s i) = true
      · simp [hc] at h
        rcases Nat.eq_or_lt_of_le h1 with e | l
        · subst e; exact hc
        · exact (ih (i + 1)).1 h j l (by omega)
      · simp [hc] at h
    · intro h
      have h0 := h i (Nat.le_refl i) (by omega)
      simp [h0]
      exact (ih (i + 1)).2 (fun j h1 h2 => h j (by omega) (by omega))

/-! ## Validator: first sequence of the buffer -/

/-- C8: a buffer whose first byte is a continuation byte (0x80..0xBF) makes
`my_utf8_check` return -5 (UnexpectedContinuationByte), whatever follows. -/
theorem check_unexpected_continuation (c : Nat) (rest : List Nat)
    (hc : 0x80 ≤ c ∧ c ≤ 0xBF) : my_utf8_check (c :: rest) = some (-5) := by
  have hstart : is_start_byte c = false := by
    have := byte_start_iff c (by omega)
    cases h : is_start_byte c with
    | false => rfl
    | true => exact absurd hc (this.1 h)
  have hne : c ≠ 0 := by omega
  simp [my_utf8_check, my_utf8_check_run, peek_cons_zero, hstart, hne]

theorem check_unexpected_continuation_witness :
    (0x80 ≤ 0x80 ∧ 0x80 ≤ 0xBF) ∧ my_utf8_check (0x80 :: [0x41]) = some (-5) :=
  ⟨by decide, check_unexpected_continuation 0x80 [0x41] (by decide)⟩

/-- C7: a buffer whose first byte is in 0xF8..0xFF makes `my_utf8_check` return
-1 (InvalidLeadByte), and the sequence length determined for a first byte in
0x01..0x7F, 0xC0..0xDF, 0xE0..0xEF, 0xF0..0xF7 is 1, 2, 3, 4 respectively. -/
theorem check_invalid_lead_byte (b : Nat) (rest : List Nat) :
    (0xF8 ≤ b ∧ b ≤ 0xFF → my_utf8_check (b :: rest) = some (-1)) ∧
    (0x01 ≤ b ∧ b ≤ 0x7F → check_num_bytes b = some 1) ∧
    (0xC0 ≤ b ∧ b ≤ 0xDF → check_num_bytes b = some 2) ∧
    (0xE0 ≤ b ∧ b ≤ 0xEF → check_num_bytes b = some 3) ∧
    (0xF0 ≤ b ∧ b ≤ 0xF7 → check_num_bytes b = some 4) := by
  refine ⟨?_, ?_, ?_, ?_, ?_⟩
  · intro hb
    have hstart : is_start_byte b = true := (byte_start_iff b (by omega)).2 (by omega)
    have hnum : check_num_bytes b = none := (byte_num_bytes b (by omega)).2.2.2.2 hb.1
    have hne : b ≠ 0 := by omega
    simp [my_utf8_check, my_utf8_check_run, peek_cons_zero, hstart, hnum, hne]
  · intro hb; exact (byte_num_bytes b (by omega)).1 hb.2
  · intro hb; exact (byte_num_bytes b (by omega)).2.1 hb
  · intro hb; exact (byte_num_bytes b (by omega)).2.2.1 hb
  · intro hb; exact (byte_num_bytes b (by omega)).2.2.2.1 hb

theorem check_invalid_lead_byte_witness :
    my_utf8_check (0xFF :: [0x41]) = some (-1) ∧ check_num_bytes 0x41 = some 1 ∧
      check_num_bytes 0xC3 = some 2 ∧ check_num_bytes 0xE2 = some 3 ∧
      check_num_bytes 0xF0 = some 4 :=
  ⟨(check_invalid_lead_byte 0xFF [0x41]).1 (by decide),
   (check_invalid_lead_byte 0x41 []).2.1 (by decide),
   (check_invalid_lead_byte 0xC3 []).2.2.1 (by decide),
   (check_invalid_lead_byte 0xE2 []).2.2.2.1 (by decide),
   (check_invalid_lead_byte 0xF0 []).2.2.2.2 (by decide)⟩

/-- C6: when the first byte is a lead byte declaring a length `n` of 2, 3 or 4
and one of the next `n - 1` positions does not hold a byte of the form 10xxxxxx
(the terminator at the end of a short buffer included), `my_utf8_check` returns
-2 (InvalidContinuationByte). -/
theorem check_invalid_continuation (lead : Nat) (rest : List Nat) (n i : Nat)
    (hbytes : ∀ x ∈ rest, x < 256)
    (hlead : (n = 2 ∧ 0xC0 ≤ lead ∧ lead ≤ 0xDF) ∨ (n = 3 ∧ 0xE0 ≤ lead ∧ lead ≤ 0xEF) ∨
      (n = 4 ∧ 0xF0 ≤ lead ∧ lead ≤ 0xF7))
    (hi : 1 ≤ i ∧ i < n)
    (hbad : ¬ (0x80 ≤ peek (lead :: rest) i ∧ peek (lead :: rest) i ≤ 0xBF)) :
    my_utf8_check (lead :: rest) = some (-2) := by
  have hlt : lead < 256 := by omega
  have hstart : is_start_byte lead = true := (byte_start_iff lead hlt).2 (by omega)
  have hnum : check_num_bytes lead = some n := by
    rcases hlead with ⟨e, h⟩ | ⟨e, h⟩ | ⟨e, h⟩
    · rw [e]; exact (byte_num_bytes lead hlt).2.1 h
    · rw [e]; exact (byte_num_bytes lead hlt).2.2.1 h
    · rw [e]; exact (byte_num_bytes lead hlt).2.2.2.1 h
  have hall : ∀ x ∈ lead :: rest, x < 256 := by
    intro x hx
    rcases List.mem_cons.1 hx with e | m
    · omega
    · exact hbytes x m
  have hcont : check_continuation (lead :: rest) 1 (n - 1) = false := by
    cases h : check_continuation (lead :: rest) 1 (n - 1) with
    | false => rfl
    | true =>
      have := (check_continuation_iff (lead :: rest) (n - 1) 1).1 h i hi.1 (by omega)
      exact absurd ((byte_continuation_iff _ (peek_lt_of_bytes _ hall i)).1 this) hbad
  have hne : lead ≠ 0 := by omega
  simp [my_utf8_check, my_utf8_check_run, peek_cons_zero, hstart, hnum, hne, hcont]

theorem check_invalid_continuation_witness :
    my_utf8_check (0xE2 :: [0x82]) = some (-2) ∧ my_utf8_check (0xE2 :: [0x41, 0x42]) = some (-2) :=
  ⟨check_invalid_continuation 0xE2 [0x82] 3 2 (by decide) (by decide) (by decide) (by decide),
   check_invalid_continuation 0xE2 [0x41, 0x42] 3 1 (by decide) (by decide) (by decide)
     (by decide)⟩

set_option maxRecDepth 100000 in
theorem byte_overlong_two :
    ∀ c < 256,
      (is_overlong_encoding 0xC0 ((((0 <<< 6) ||| (0xC0 &&& 0x3F)) <<< 6) ||| (c &&& 0x3F)) = true ∧
       is_overlong_encoding 0xC1 ((((0 <<< 6) ||| (0xC1 &&& 0x3F)) <<< 6) ||| (c &&& 0x3F)) = true) := by
  decide

/-- C5: a buffer that starts with lead byte 0xC0 or 0xC1 followed by a
continuation byte (a 2-byte sequence for a value up to 0x7F) makes
`my_utf8_check` return -3 (OverlongEncoding), whatever follows. -/
theorem check_overlong_two_byte (lead c : Nat) (rest : List Nat)
    (hlead : lead = 0xC0 ∨ lead = 0xC1) (hc : 0x80 ≤ c ∧ c ≤ 0xBF) :
    my_utf8_check (lead :: c :: rest) = some (-3) := by
  have hclt : c < 256 := by omega
  have hcont : is_continuation_byte c = true := (byte_continuation_iff c hclt).2 hc
  have hov := byte_overlong_two c hclt
  rcases hlead with e | e
  · subst e
    have h1 : is_start_byte 0xC0 = true := by decide
    have h2 : check_num_bytes 0xC0 = some 2 := by decide
    simp only [my_utf8_check, my_utf8_check_run, check_continuation, check_code_point,
      peek_cons_zero, peek_cons_succ, h1, h2, hcont, hov.1]
    simp
  · subst e
    have h1 : is_start_byte 0xC1 = true := by decide
    have h2 : check_num_bytes 0xC1 = some 2 := by decide
    simp only [my_utf8_check, my_utf8_check_run, check_continuation, check_code_point,
      peek_cons_zero, peek_cons_succ, h1, h2, hcont, hov.2]
    simp

theorem check_overlong_two_byte_witness :
    my_utf8_check (0xC1 :: 0x81 :: [0xFF, 0x41]) = some (-3) :=
  check_overlong_two_byte 0xC1 0x81 [0xFF, 0x41] (by decide) (by decide)

/-! ## Validator: whole buffers -/

set_option maxRecDepth 100000 in
theorem byte_ascii_accepted :
    ∀ x < 128, 1 ≤ x →
      (is_start_byte x = true ∧ check_num_bytes x = some 1 ∧
       is_overlong_encoding x ((0 <<< 6) ||| (x &&& 0x3F)) = false ∧
       is_valid_code_point ((0 <<< 6) ||| (x &&& 0x3F)) = true) := by
  decide

/-- On a buffer of ASCII bytes the validator loop returns 0 after stepping over
every byte, given fuel for one iteration more than the bytes. -/
theorem check_run_ascii (b : List Nat) (hb : ∀ x ∈ b, 1 ≤ x ∧ x ≤ 0x7F) :
    ∀ fuel, b.length + 1 ≤ fuel → my_utf8_check_run fuel b = some (0, b.length) := by
  induction b with
  | nil =>
    intro fuel hf
    obtain ⟨f, rfl⟩ : ∃ f, fuel = f + 1 := ⟨fuel - 1, by simp at hf; omega⟩
    simp [my_utf8_check_run, peek]
  | cons x rest ih =>
    intro fuel hf
    obtain ⟨f, rfl⟩ : ∃ f, fuel = f + 1 := ⟨fuel - 1, by simp at hf; omega⟩
    have hx := hb x (List.mem_cons_self x rest)
    have hfacts := byte_ascii_accepted x (by omega) hx.1
    have hrec := ih (fun y hy => hb y (List.mem_cons_of_mem x hy)) f (by simp at hf; omega)
    have hne : x ≠ 0 := by omega
    simp only [my_utf8_check_run, check_continuation, check_code_point, peek_cons_zero,
      hfacts.1, hfacts.2.1, hfacts.2.2.1, hfacts.2.2.2]
    simp [hne, hrec]

/-- C9: on every buffer made only of ASCII bytes 0x01..0x7F, the empty buffer
included, `my_utf8_check` returns 0 (Ok). -/
theorem check_ascii_ok (b : List Nat) (hb : ∀ x ∈ b, 1 ≤ x ∧ x ≤ 0x7F) :
    my_utf8_check b = some 0 := by
  simp [my_utf8_check, check_run_ascii b hb (b.length + 1) (Nat.le_refl _)]

theorem check_ascii_ok_witness :
    my_utf8_check [0x41] = some 0 ∧
      my_utf8_check [0x56, 0x61, 0x6C, 0x69, 0x64, 0x20, 0x73, 0x74, 0x72, 0x69, 0x6E, 0x67]
        = some 0 ∧
      my_utf8_check [] = some 0 :=
  ⟨check_ascii_ok [0x41] (by decide),
   check_ascii_ok [0x56, 0x61, 0x6C, 0x69, 0x64, 0x20, 0x73, 0x74, 0x72, 0x69, 0x6E, 0x67]
     (by decide),
   check_ascii_ok [] (by decide)⟩

/-! ## Length in code points against the validator's steps -/

theorem check_num_bytes_pos (lead n : Nat) (h : check_num_bytes lead = some n) : 1 ≤ n := by
  unfold check_num_bytes at h
  split at h
  · cases h; decide
  · split at h
    · cases h; decide
    · split at h
      · cases h; decide
      · split at h
        · cases h; decide
        · cases h

theorem peek_ne_zero_drop (s : List Nat) (i : Nat) (h : peek s i ≠ 0) :
    s.drop i = peek s i :: s.drop (i + 1) := by
  have hi : i < s.length := by
    by_contra hge
    apply h
    unfold peek
    rw [List.getD_eq_getElem?_getD, List.getElem?_eq_none (by omega)]
    rfl
  have hp : peek s i = s[i] := by
    unfold peek
    rw [List.getD_eq_getElem?_getD, List.getElem?_eq_getElem hi]
    rfl
  rw [hp]
  exact List.drop_eq_getElem_cons hi

theorem continuation_ne_zero (c : Nat) (h : is_continuation_byte c = true) : c ≠ 0 := by
  intro e
  subst e
  exact absurd h (by decide)

/-- The bytes the continuation loop accepts are not counted by `my_utf8_strlen`. -/
theorem strlen_loop_skip_continuation (s : List Nat) (k : Nat) :
    ∀ i count, check_continuation s i k = true →
      my_utf8_strlen_loop (s.drop i) count = my_utf8_strlen_loop (s.drop (i + k)) count := by
  induction k with
  | zero => intro i count _; rfl
  | succ k ih =>
    intro i count h
    have hall := (check_continuation_iff s (k + 1) i).1 h
    have hc : is_continuation_byte (peek s i) = true := hall i (Nat.le_refl i) (by omega)
    have hrest : check_continuation s (i + 1) k = true :=
      (check_continuation_iff s k (i + 1)).2 (fun j h1 h2 => hall j (by omega) (by omega))
    have hne := continuation_ne_zero _ hc
    have hc2 : ((peek s i &&& 0xC0) != 0x80) = false := by
      unfold is_continuation_byte at hc
      simp [bne, hc]
    rw [peek_ne_zero_drop s i hne]
    simp only [my_utf8_strlen_loop, hne, if_false, hc2, Bool.false_eq_true]
    have := ih (i + 1) count hrest
    rw [this]
    congr 2
    omega

/-- Whenever the validator loop returns 0 after `k` steps, the length loop adds
exactly `k` to its counter. -/
theorem strlen_loop_eq_steps :
    ∀ fuel (b : List Nat) (k count : Nat), my_utf8_check_run fuel b = some (0, k) →
      my_utf8_strlen_loop b count = count + k := by
  intro fuel
  induction fuel with
  | zero => intro b k count h; simp [my_utf8_check_run] at h
  | succ fuel ih =>
    intro b k count h
    simp only [my_utf8_check_run] at h
    split at h
    · rename_i hz
      have hk : k = 0 := by
        have := Option.some.inj h
        exact (congrArg Prod.snd this).symm
      subst hk
      cases b with
      | nil => rfl
      | cons c rest =>
        have : c = 0 := hz
        simp [my_utf8_strlen_loop, this]
    · rename_i hnz
      split at h
      · rename_i hstart
        split at h
        · have := congrArg Prod.fst (Option.some.inj h)
          simp at this
        · rename_i n hnum
          split at h
          · have := congrArg Prod.fst (Option.some.inj h)
            simp at this
          · rename_i hcont
            split at h
            · have := congrArg Prod.fst (Option.some.inj h)
              simp at this
            · split at h
              · have := congrArg Prod.fst (Option.some.inj h)
                simp at this
              · split at h
                · rename_i r steps hrec
                  have e := Option.some.inj h
                  have e1 : r = 0 := congrArg Prod.fst e
                  have e2 : steps + 1 = k := congrArg Prod.snd e
                  subst e1
                  have hpos := check_num_bytes_pos _ _ hnum
                  have hc : check_continuation b 1 (n - 1) = true := by
                    cases hcc : check_continuation b 1 (n - 1) with
                    | true => rfl
                    | false => simp [hcc] at hcont
                  have hskip := strlen_loop_skip_continuation b (n - 1) 1 (count + 1) hc
                  have hn : 1 + (n - 1) = n := by omega
                  rw [hn] at hskip
                  have hd := peek_ne_zero_drop b 0 hnz
                  have hs : ((peek b 0 &&& 0xC0) != 0x80) = true := hstart
                  have hb : b = peek b 0 :: b.drop 1 := by simpa using hd
                  rw [hb]
                  simp only [my_utf8_strlen_loop, hnz, if_false, hs, if_true]
                  rw [hskip, ih (b.drop n) steps (count + 1) hrec]
                  omega
                · cases h
      · have := congrArg Prod.fst (Option.some.inj h)
        simp at this

/-- C10: whenever `my_utf8_check` returns 0 on a buffer, `my_utf8_strlen` of the
buffer (its count of bytes that are not continuation bytes) equals the number
of sequences the validator stepped over to exhaust it. -/
theorem strlen_eq_check_steps (b : List Nat) (h : my_utf8_check b = some 0) :
    my_utf8_check_steps b = some (my_utf8_strlen b) := by
  unfold my_utf8_check at h
  unfold my_utf8_check_steps
  cases hr : my_utf8_check_run (b.length + 1) b with
  | none => simp [hr] at h
  | some p =>
    obtain ⟨r, k⟩ := p
    have hr0 : r = 0 := by simpa [hr] using h
    subst hr0
    have := strlen_loop_eq_steps (b.length + 1) b k 0 hr
    simp [my_utf8_strlen, this]

theorem strlen_eq_check_steps_witness :
    my_utf8_check_steps [0x48, 0x65, 0x6C, 0x6C, 0x6F] = some (my_utf8_strlen [0x48, 0x65, 0x6C, 0x6C, 0x6F]) ∧
      my_utf8_strlen [0x48, 0x65, 0x6C, 0x6C, 0x6F] = 5 ∧
      my_utf8_check_steps [] = some (my_utf8_strlen []) ∧ my_utf8_strlen [] = 0 ∧
      my_utf8_check_steps [0x41, 0xC3, 0xA9, 0xE2, 0x82, 0xAC] = some 3 :=
  ⟨strlen_eq_check_steps [0x48, 0x65, 0x6C, 0x6C, 0x6F] (by decide), by decide,
   strlen_eq_check_steps [] (by decide), by decide, by decide⟩

/-! ## Validator: sequences of three and four bytes -/

/-- C2: at the shortest-form encoding F0 90 80 80 of the code point 0x10000,
`my_utf8_check` returns -4 instead of 0, while it accepts the shortest forms of
0x41, 0xE9 and 0x20AC. -/
theorem check_rejects_four_byte_minimal :
    minimal_utf8_encoding 0x10000 = [0xF0, 0x90, 0x80, 0x80] ∧
      my_utf8_check (minimal_utf8_encoding 0x10000) = some (-4) ∧
      check_code_point [0xF0, 0x90, 0x80, 0x80] 0 4 0 = 0xC10000 ∧
      my_utf8_check (minimal_utf8_encoding 0x41) = some 0 ∧
      my_utf8_check (minimal_utf8_encoding 0xE9) = some 0 ∧
      my_utf8_check (minimal_utf8_encoding 0x20AC) = some 0 := by decide

/-- C3: at the sequence ED A0 80, which encodes the surrogate 0xD800,
`my_utf8_check` returns 0 instead of -4: the value it reconstructs is 0x2D800. -/
theorem check_accepts_surrogate :
    my_utf8_check [0xED, 0xA0, 0x80] = some 0 ∧
      check_code_point [0xED, 0xA0, 0x80] 0 3 0 = 0x2D800 ∧
      is_valid_code_point 0xD800 = false := by decide

/-- C4: at the overlong 3-byte sequence E0 80 80 `my_utf8_check` returns 0 and at
the overlong 4-byte sequence F0 80 80 80 it returns -4, neither being -3; and
`is_overlong_encoding` does not flag a 3-byte lead byte with the value 0x400. -/
theorem check_misses_overlong_three_four :
    my_utf8_check [0xE0, 0x80, 0x80] = some 0 ∧
      my_utf8_check [0xF0, 0x80, 0x80, 0x80] = some (-4) ∧
      is_overlong_encoding 0xE0 0x400 = false := by decide

/-! ## Round trip through the escape form -/

theorem and_3F (x : Nat) : x &&& 0x3F = x % 64 := Nat.and_pow_two_sub_one_eq_mod x 6

theorem shl_or (h l n : Nat) (hl : l < 2 ^ n) : (h <<< n) ||| l = h * 2 ^ n + l := by
  rw [Nat.shiftLeft_eq, Nat.mul_comm h, Nat.mul_add_lt_is_or hl]

theorem format_04X_bmp (c : Nat) (hc : c ≤ 0xFFFF) :
    format_04X c = [hex_char_upper (c / 4096 % 16), hex_char_upper (c / 256 % 16),
      hex_char_upper (c / 16 % 16), hex_char_upper (c % 16)] := by
  unfold format_04X
  by_cases h1 : c < 16
  · have e1 : c / 4096 % 16 = 0 := by omega
    have e2 : c / 256 % 16 = 0 := by omega
    have e3 : c / 16 % 16 = 0 := by omega
    have e4 : c % 16 = c := by omega
    simp [hex_digits, h1, e1, e2, e3, e4, List.replicate]
  · by_cases h2 : c / 16 < 16
    · have e1 : c / 4096 % 16 = 0 := by omega
      have e2 : c / 256 % 16 = 0 := by omega
      have e3 : c / 16 % 16 = c / 16 := by omega
      simp [hex_digits, h1, h2, e1, e2, e3, List.replicate]
    · by_cases h3 : c / 16 / 16 < 16
      · have e1 : c / 4096 % 16 = 0 := by omega
        have e2 : c / 256 % 16 = c / 16 / 16 := by omega
        have e3 : c / 16 % 16 = c / 16 % 16 := rfl
        simp [hex_digits, h1, h2, h3, e1, e2, List.replicate]
      · have h4 : c / 16 / 16 / 16 < 16 := by omega
        have e1 : c / 4096 % 16 = c / 16 / 16 / 16 := by omega
        have e2 : c / 256 % 16 = c / 16 / 16 % 16 := by omega
        simp [hex_digits, h1, h2, h3, h4, e1, e2, List.replicate]

theorem put_eq (o : OutBuf) (x : Nat) :
    o.put x = { before := o.before ++ [x], after := o.after.drop 1 } := by
  simp [OutBuf.put, OutBuf.store, OutBuf.advance]

theorem appendUnicodeEscape_bmp (c : Nat) (hc : c ≤ 0xFFFF) (o : OutBuf) :
    appendUnicodeEscape c o =
      { before := o.before ++ escape_token c, after := 0 :: o.after.drop 7 } := by
  simp [appendUnicodeEscape, OutBuf.store, OutBuf.advance, format_04X_bmp c hc, escape_token]

theorem finish_eq (o : OutBuf) (h : ∀ x ∈ o.before, x ≠ 0) : o.finish = o.before := by
  unfold OutBuf.finish OutBuf.store
  simp only [List.singleton_append]
  rw [List.takeWhile_append_of_pos (by simpa using h)]
  simp

set_option maxRecDepth 100000 in
theorem byte_lead2 :
    ∀ h < 32, (¬ (0xC0 + h < 0x80) ∧ ((0xC0 + h) &&& 0xE0) = 0xC0 ∧ ((0xC0 + h) &&& 0x1F) = h ∧
      (0xC0 ||| h) % 256 = 0xC0 + h) := by decide

set_option maxRecDepth 100000 in
theorem byte_lead3 :
    ∀ h < 16, (¬ (0xE0 + h < 0x80) ∧ ((0xE0 + h) &&& 0xE0) ≠ 0xC0 ∧ ((0xE0 + h) &&& 0xF0) = 0xE0 ∧
      ((0xE0 + h) &&& 0x0F) = h ∧ (0xE0 ||| h) % 256 = 0xE0 + h) := by decide

set_option maxRecDepth 100000 in
theorem byte_trail :
    ∀ l < 64, (((0x80 + l) &&& 0x3F) = l ∧ (0x80 ||| l) % 256 = 0x80 + l) := by decide

theorem decode_value2 (c : Nat) (hc : c ≤ 0x7FF) :
    (((0xC0 + c / 64) &&& 0x1F) <<< 6) ||| ((0x80 + c % 64) &&& 0x3F) = c := by
  rw [(byte_lead2 (c / 64) (by omega)).2.2.1, (byte_trail (c % 64) (by omega)).1,
    shl_or _ _ 6 (by omega)]
  omega

theorem decode_value3 (c : Nat) (hc : c ≤ 0xFFFF) :
    (((0xE0 + c / 4096) &&& 0x0F) <<< 12) ||| (((0x80 + c / 64 % 64) &&& 0x3F) <<< 6)
      ||| ((0x80 + c % 64) &&& 0x3F) = c := by
  rw [(byte_lead3 (c / 4096) (by omega)).2.2.2.1, (byte_trail (c / 64 % 64) (by omega)).1,
    (byte_trail (c % 64) (by omega)).1]
  have e1 : (c / 64 % 64) <<< 6 = c / 64 % 64 * 64 := by rw [Nat.shiftLeft_eq]
  rw [e1, shl_or _ _ 12 (by omega)]
  have e2 : c / 4096 * 2 ^ 12 + c / 64 % 64 * 64 = (c / 64) <<< 6 := by
    rw [Nat.shiftLeft_eq]; omega
  rw [e2, shl_or _ _ 6 (by omega)]
  omega

theorem decode_step_ascii (fuel c : Nat) (rest : List Nat) (o : OutBuf)
    (hc : 1 ≤ c ∧ c ≤ 0x7F) :
    my_utf8_decode_run (fuel + 1) (c :: rest) o = my_utf8_decode_run fuel rest (o.put c) := by
  have h0 : c ≠ 0 := by omega
  have h1 : c < 0x80 := by omega
  simp [my_utf8_decode_run, peek_cons_zero, h0, h1]

theorem decode_step2 (fuel c : Nat) (rest : List Nat) (o : OutBuf)
    (hc : 0x80 ≤ c ∧ c ≤ 0x7FF) :
    my_utf8_decode_run (fuel + 1) (minimal_utf8_encoding c ++ rest) o =
      my_utf8_decode_run fuel rest (appendUnicodeEscape c o) := by
  have hb := byte_lead2 (c / 64) (by omega)
  have e : minimal_utf8_encoding c = [0xC0 + c / 64, 0x80 + c % 64] := by
    unfold minimal_utf8_encoding
    rw [if_neg (by omega), if_pos (by omega)]
  have h0 : 0xC0 + c / 64 ≠ 0 := by omega
  rw [e]
  simp only [List.cons_append, List.nil_append, my_utf8_decode_run, peek_cons_zero, peek_cons_succ,
    h0, if_false, hb.1, hb.2.1, decode_value2 c hc.2]
  simp

theorem decode_step3 (fuel c : Nat) (rest : List Nat) (o : OutBuf)
    (hc : 0x800 ≤ c ∧ c ≤ 0xFFFF) :
    my_utf8_decode_run (fuel + 1) (minimal_utf8_encoding c ++ rest) o =
      my_utf8_decode_run fuel rest (appendUnicodeEscape c o) := by
  have hb := byte_lead3 (c / 4096) (by omega)
  have e : minimal_utf8_encoding c = [0xE0 + c / 4096, 0x80 + c / 64 % 64, 0x80 + c % 64] := by
    unfold minimal_utf8_encoding
    rw [if_neg (by omega), if_neg (by omega), if_pos (by omega)]
  have h0 : 0xE0 + c / 4096 ≠ 0 := by omega
  have h2 : ((0xE0 + c / 4096 &&& 0xE0) == 0xC0) = false := by simpa using hb.2.1
  rw [e]
  simp only [List.cons_append, List.nil_append, my_utf8_decode_run, peek_cons_zero, peek_cons_succ,
    h0, if_false, hb.1, h2, hb.2.2.1, decode_value3 c hc.2]
  simp

set_option maxRecDepth 100000 in
theorem hex_char_facts :
    ∀ d < 16, (is_space (hex_char_upper d) = false ∧ hex_char_upper d ≠ 0 ∧
      hex_char_upper d ≠ 0x2D ∧ hex_char_upper d ≠ 0x2B ∧ hex_char_upper d ≠ 0x78 ∧
      hex_char_upper d ≠ 0x58 ∧ hex_value (hex_char_upper d) = some d) := by decide

theorem sscanf_four_digits (d1 d2 d3 d4 : Nat) (tail : List Nat)
    (h1 : d1 < 16) (h2 : d2 < 16) (h3 : d3 < 16) (h4 : d4 < 16) :
    sscanf_4x (hex_char_upper d1 :: hex_char_upper d2 :: hex_char_upper d3 ::
      hex_char_upper d4 :: tail) = some (((d1 * 16 + d2) * 16 + d3) * 16 + d4) := by
  obtain ⟨a1, -, a3, a4, -, -, a7⟩ := hex_char_facts d1 h1
  obtain ⟨-, -, -, -, b5, b6, b7⟩ := hex_char_facts d2 h2
  obtain ⟨-, -, -, -, -, -, c7⟩ := hex_char_facts d3 h3
  obtain ⟨-, -, -, -, -, -, e7⟩ := hex_char_facts d4 h4
  simp [sscanf_4x, List.dropWhile, a1, peek_cons_zero, peek, a3, a4, b5, b6, scan_hex, a7, b7,
    c7, e7]

theorem encode_step_token (fuel c : Nat) (rest : List Nat) (o : OutBuf) (hc : c ≤ 0xFFFF) :
    my_utf8_encode_run (fuel + 1) (escape_token c ++ rest) o =
      my_utf8_encode_run fuel rest (encode_code_point c o) := by
  have f1 := (hex_char_facts (c / 4096 % 16) (by omega)).2.1
  have f2 := (hex_char_facts (c / 256 % 16) (by omega)).2.1
  have f3 := (hex_char_facts (c / 16 % 16) (by omega)).2.1
  have f4 := (hex_char_facts (c % 16) (by omega)).2.1
  have hs := sscanf_four_digits (c / 4096 % 16) (c / 256 % 16) (c / 16 % 16) (c % 16)
    (rest.takeWhile (fun b => b != 0)) (by omega) (by omega) (by omega) (by omega)
  have hv : ((c / 4096 % 16 * 16 + c / 256 % 16) * 16 + c / 16 % 16) * 16 + c % 16 = c := by
    omega
  rw [hv] at hs
  simp only [escape_token, List.cons_append, List.nil_append, my_utf8_encode_run, peek_cons_zero,
    peek_cons_succ]
  have g1 : (hex_char_upper (c / 4096 % 16) != 0) = true := by simpa using f1
  have g2 : (hex_char_upper (c / 256 % 16) != 0) = true := by simpa using f2
  have g3 : (hex_char_upper (c / 16 % 16) != 0) = true := by simpa using f3
  have g4 : (hex_char_upper (c % 16) != 0) = true := by simpa using f4
  have hl : ¬ (rest.length + 1 + 1 + 1 + 1 + 1 + 1 < 6) := by omega
  simp [List.takeWhile, g1, g2, g3, g4, hs, hl]

theorem encode_step_copy (fuel c : Nat) (rest : List Nat) (o : OutBuf) (h0 : c ≠ 0)
    (hm : ¬ (c = 0x5C ∧ peek rest 0 = 0x75)) :
    my_utf8_encode_run (fuel + 1) (c :: rest) o = my_utf8_encode_run fuel rest (o.put c) := by
  simp only [my_utf8_encode_run, peek_cons_zero, peek_cons_succ]
  simp [h0, hm]

theorem encode_code_point2 (c : Nat) (o : OutBuf) (hc : 0x80 ≤ c ∧ c ≤ 0x7FF) :
    encode_code_point c o =
      { before := o.before ++ minimal_utf8_encoding c, after := o.after.drop 2 } := by
  have e1 : (0xC0 ||| (c >>> 6)) % 256 = 0xC0 + c / 64 := by
    rw [Nat.shiftRight_eq_div_pow]; exact (byte_lead2 (c / 64) (by omega)).2.2.2
  have e2 : (0x80 ||| (c &&& 0x3F)) % 256 = 0x80 + c % 64 := by
    rw [and_3F]; exact (byte_trail (c % 64) (by omega)).2
  unfold encode_code_point minimal_utf8_encoding
  rw [if_neg (by omega), if_pos (by omega), if_neg (by omega), if_pos (by omega), e1, e2]
  simp [put_eq]

theorem encode_code_point3 (c : Nat) (o : OutBuf) (hc : 0x800 ≤ c ∧ c ≤ 0xFFFF) :
    encode_code_point c o =
      { before := o.before ++ minimal_utf8_encoding c, after := o.after.drop 3 } := by
  have e1 : (0xE0 ||| (c >>> 12)) % 256 = 0xE0 + c / 4096 := by
    rw [Nat.shiftRight_eq_div_pow]; exact (byte_lead3 (c / 4096) (by omega)).2.2.2.2
  have e2 : (0x80 ||| ((c >>> 6) &&& 0x3F)) % 256 = 0x80 + c / 64 % 64 := by
    rw [and_3F, Nat.shiftRight_eq_div_pow]; exact (byte_trail (c / 64 % 64) (by omega)).2
  have e3 : (0x80 ||| (c &&& 0x3F)) % 256 = 0x80 + c % 64 := by
    rw [and_3F]; exact (byte_trail (c % 64) (by omega)).2
  unfold encode_code_point minimal_utf8_encoding
  rw [if_neg (by omega), if_neg (by omega), if_pos (by omega), if_neg (by omega),
    if_neg (by omega), if_pos (by omega), e1, e2, e3]
  simp [put_eq]

theorem minimal_encoding_ne_zero (c : Nat) (hc : 1 ≤ c) : ∀ x ∈ minimal_utf8_encoding c, x ≠ 0 := by
  intro x hx
  unfold minimal_utf8_encoding at hx
  split at hx
  · simp at hx; omega
  · split at hx
    · simp at hx; omega
    · split at hx
      · simp at hx; omega
      · simp at hx; omega

theorem minimal_encoding_length_pos (c : Nat) : 1 ≤ (minimal_utf8_encoding c).length := by
  unfold minimal_utf8_encoding
  split
  · simp
  · split
    · simp
    · split <;> simp

theorem escape_token_ne_zero (c : Nat) : ∀ x ∈ escape_token c, x ≠ 0 := by
  intro x hx
  have f1 := (hex_char_facts (c / 4096 % 16) (by omega)).2.1
  have f2 := (hex_char_facts (c / 256 % 16) (by omega)).2.1
  have f3 := (hex_char_facts (c / 16 % 16) (by omega)).2.1
  have f4 := (hex_char_facts (c % 16) (by omega)).2.1
  simp only [escape_token, List.mem_cons, List.mem_singleton, List.not_mem_nil, or_false] at hx
  rcases hx with e | e | e | e | e | e <;> rw [e] <;> first | assumption | decide

theorem escape_form_ne_zero (cps : List Nat) (h : ∀ c ∈ cps, 1 ≤ c ∧ c ≤ 0xFFFF) :
    ∀ x ∈ escape_form cps, x ≠ 0 := by
  intro x hx
  unfold escape_form at hx
  obtain ⟨c, hc, hxc⟩ := List.mem_flatMap.1 hx
  split at hxc
  · simp at hxc; have := (h c hc).1; omega
  · exact escape_token_ne_zero c x hxc

theorem encoded_ne_zero (cps : List Nat) (h : ∀ c ∈ cps, 1 ≤ c ∧ c ≤ 0xFFFF) :
    ∀ x ∈ cps.flatMap minimal_utf8_encoding, x ≠ 0 := by
  intro x hx
  obtain ⟨c, hc, hxc⟩ := List.mem_flatMap.1 hx
  exact minimal_encoding_ne_zero c (h c hc).1 x hxc

theorem has_escape_marker_append (l rest : List Nat) (h : has_escape_marker (l ++ rest) = false) :
    has_escape_marker rest = false := by
  induction l with
  | nil => simpa using h
  | cons x l ih =>
    simp only [List.cons_append, has_escape_marker, Bool.or_eq_false_iff] at h
    exact ih h.2

/-- The escape form starts with `u` only where the encoded buffer does. -/
theorem escape_form_head_u (cps : List Nat) (h : peek (escape_form cps) 0 = 0x75) :
    peek (cps.flatMap minimal_utf8_encoding) 0 = 0x75 := by
  cases cps with
  | nil => exact absurd h (by decide)
  | cons c cps =>
    by_cases hc : c ≤ 0x7F
    · simp only [escape_form, List.flatMap_cons, if_pos hc, List.singleton_append,
        peek_cons_zero] at h
      simp [minimal_utf8_encoding, hc, peek_cons_zero, h]
    · simp only [escape_form, List.flatMap_cons, if_neg hc, escape_token, List.cons_append,
        peek_cons_zero] at h
      exact absurd h (by decide)

theorem decode_run_valid (cps : List Nat) (h : ∀ c ∈ cps, 1 ≤ c ∧ c ≤ 0xFFFF) :
    ∀ fuel o, (cps.flatMap minimal_utf8_encoding).length + 1 ≤ fuel →
      ∃ o2, my_utf8_decode_run fuel (cps.flatMap minimal_utf8_encoding) o = Outcome.returned o2 ∧
        o2.before = o.before ++ escape_form cps := by
  induction cps with
  | nil =>
    intro fuel o hf
    obtain ⟨f, rfl⟩ : ∃ f, fuel = f + 1 := ⟨fuel - 1, by omega⟩
    exact ⟨o, by simp [my_utf8_decode_run, peek], by simp [escape_form]⟩
  | cons c cps ih =>
    intro fuel o hf
    obtain ⟨f, rfl⟩ : ∃ f, fuel = f + 1 := ⟨fuel - 1, by omega⟩
    have hc := h c (List.mem_cons_self c cps)
    have ih2 := ih (fun y hy => h y (List.mem_cons_of_mem c hy))
    rw [List.flatMap_cons] at hf ⊢
    rw [List.length_append] at hf
    by_cases h1 : c ≤ 0x7F
    · have e : minimal_utf8_encoding c = [c] := by simp [minimal_utf8_encoding, h1]
      rw [e] at hf ⊢
      rw [List.singleton_append, decode_step_ascii f c _ o ⟨hc.1, h1⟩]
      obtain ⟨o2, hr, hb⟩ := ih2 f (o.put c) (by
        simp only [List.length_singleton] at hf; omega)
      refine ⟨o2, hr, ?_⟩
      rw [hb, put_eq]
      simp [escape_form, h1]
    · have hstep : my_utf8_decode_run (f + 1)
          (minimal_utf8_encoding c ++ cps.flatMap minimal_utf8_encoding) o =
          my_utf8_decode_run f (cps.flatMap minimal_utf8_encoding) (appendUnicodeEscape c o) := by
        by_cases h2 : c ≤ 0x7FF
        · exact decode_step2 f c _ o ⟨by omega, h2⟩
        · exact decode_step3 f c _ o ⟨by omega, hc.2⟩
      rw [hstep]
      have hlen := minimal_encoding_length_pos c
      obtain ⟨o2, hr, hb⟩ := ih2 f (appendUnicodeEscape c o) (by omega)
      refine ⟨o2, hr, ?_⟩
      rw [hb, appendUnicodeEscape_bmp c hc.2]
      simp [escape_form, h1]

theorem encode_run_valid (cps : List Nat) (h : ∀ c ∈ cps, 1 ≤ c ∧ c ≤ 0xFFFF) :
    has_escape_marker (cps.flatMap minimal_utf8_encoding) = false →
    ∀ fuel o, (escape_form cps).length + 1 ≤ fuel →
      ∃ o2, my_utf8_encode_run fuel (escape_form cps) o = Outcome.returned o2 ∧
        o2.before = o.before ++ cps.flatMap minimal_utf8_encoding := by
  induction cps with
  | nil =>
    intro _ fuel o hf
    obtain ⟨f, rfl⟩ : ∃ f, fuel = f + 1 := ⟨fuel - 1, by omega⟩
    exact ⟨o, by simp [my_utf8_encode_run, peek, escape_form], by simp⟩
  | cons c cps ih =>
    intro hm fuel o hf
    obtain ⟨f, rfl⟩ : ∃ f, fuel = f + 1 := ⟨fuel - 1, by omega⟩
    have hc := h c (List.mem_cons_self c cps)
    rw [List.flatMap_cons] at hm
    have ih2 := ih (fun y hy => h y (List.mem_cons_of_mem c hy))
      (has_escape_marker_append _ _ hm)
    by_cases h1 : c ≤ 0x7F
    · have e : minimal_utf8_encoding c = [c] := by simp [minimal_utf8_encoding, h1]
      have ef : escape_form (c :: cps) = c :: escape_form cps := by
        simp [escape_form, h1]
      rw [e, List.singleton_append] at hm
      simp only [has_escape_marker, Bool.or_eq_false_iff, Bool.and_eq_false_iff] at hm
      have hnm : ¬ (c = 0x5C ∧ peek (escape_form cps) 0 = 0x75) := by
        rintro ⟨hc1, hc2⟩
        have := escape_form_head_u cps hc2
        rcases hm.1 with hx | hx
        · simp [hc1] at hx
        · simp [this] at hx
      rw [ef] at hf ⊢
      rw [encode_step_copy f c _ o (by omega) hnm]
      obtain ⟨o2, hr, hb⟩ := ih2 f (o.put c) (by simp at hf; omega)
      refine ⟨o2, hr, ?_⟩
      rw [hb, put_eq, List.flatMap_cons, e]
      simp
    · have ef : escape_form (c :: cps) = escape_token c ++ escape_form cps := by
        simp [escape_form, h1]
      rw [ef] at hf ⊢
      rw [encode_step_token f c _ o hc.2]
      obtain ⟨o2, hr, hb⟩ := ih2 f (encode_code_point c o) (by
        simp [escape_token] at hf; omega)
      refine ⟨o2, hr, ?_⟩
      rw [hb, List.flatMap_cons]
      by_cases h2 : c ≤ 0x7FF
      · rw [encode_code_point2 c o ⟨by omega, h2⟩]; simp
      · rw [encode_code_point3 c o ⟨by omega, hc.2⟩]; simp

/-- C1 (as amended): for every buffer that is valid UTF-8 with all code points
in 1..0xFFFF and that holds no backslash immediately followed by `u`,
`my_utf8_decode` returns 0 with an escape-form text and `my_utf8_encode` of that
text returns the original bytes. -/
theorem escape_round_trip (b : List Nat) (hv : valid_utf8_bmp b)
    (hm : has_escape_marker b = false) :
    ∃ t, my_utf8_decode b = Outcome.returned (0, t) ∧ my_utf8_encode t = Outcome.returned b := by
  obtain ⟨cps, hcps, rfl⟩ := hv
  have h : ∀ c ∈ cps, 1 ≤ c ∧ c ≤ 0xFFFF := fun c hc => ⟨(hcps c hc).1, (hcps c hc).2.1⟩
  obtain ⟨o1, hr1, hb1⟩ := decode_run_valid cps h _ OutBuf.empty (Nat.le_refl _)
  obtain ⟨o2, hr2, hb2⟩ := encode_run_valid cps h hm _ OutBuf.empty (Nat.le_refl _)
  have hb1b : o1.before = escape_form cps := by simpa [OutBuf.empty] using hb1
  have hb2b : o2.before = cps.flatMap minimal_utf8_encoding := by simpa [OutBuf.empty] using hb2
  refine ⟨escape_form cps, ?_, ?_⟩
  · unfold my_utf8_decode
    rw [hr1]
    simp only [Outcome.map]
    rw [finish_eq o1 (by rw [hb1b]; exact escape_form_ne_zero cps h), hb1b]
  · unfold my_utf8_encode
    rw [hr2]
    simp only [Outcome.map]
    rw [finish_eq o2 (by rw [hb2b]; exact encoded_ne_zero cps h), hb2b]

theorem escape_round_trip_witness :
    valid_utf8_bmp [0x41, 0xC3, 0xA9, 0xE2, 0x82, 0xAC] ∧
      has_escape_marker [0x41, 0xC3, 0xA9, 0xE2, 0x82, 0xAC] = false ∧
      ∃ t, my_utf8_decode [0x41, 0xC3, 0xA9, 0xE2, 0x82, 0xAC] = Outcome.returned (0, t) ∧
        my_utf8_encode t = Outcome.returned [0x41, 0xC3, 0xA9, 0xE2, 0x82, 0xAC] :=
  ⟨⟨[0x41, 0xE9, 0x20AC], by decide, by decide⟩, by decide,
   escape_round_trip [0x41, 0xC3, 0xA9, 0xE2, 0x82, 0xAC]
     ⟨[0x41, 0xE9, 0x20AC], by decide, by decide⟩ (by decide)⟩

/-- C1 (as stated) fails: the ASCII buffer made of backslash, `u`, `0041` is
valid UTF-8 with code points up to 0x7F; decoding copies it unchanged and
encoding the result gives the single byte `A`. -/
theorem escape_round_trip_marker_fails :
    valid_utf8_bmp [0x5C, 0x75, 0x30, 0x30, 0x34, 0x31] ∧
      my_utf8_decode [0x5C, 0x75, 0x30, 0x30, 0x34, 0x31] =
        Outcome.returned (0, [0x5C, 0x75, 0x30, 0x30, 0x34, 0x31]) ∧
      my_utf8_encode [0x5C, 0x75, 0x30, 0x30, 0x34, 0x31] = Outcome.returned [0x41] ∧
      ¬ ∃ t, my_utf8_decode [0x5C, 0x75, 0x30, 0x30, 0x34, 0x31] = Outcome.returned (0, t) ∧
        my_utf8_encode t = Outcome.returned [0x5C, 0x75, 0x30, 0x30, 0x34, 0x31] := by
  refine ⟨⟨[0x5C, 0x75, 0x30, 0x30, 0x34, 0x31], by decide, by decide⟩, by decide, by decide, ?_⟩
  rintro ⟨t, h1, h2⟩
  have e : my_utf8_decode [0x5C, 0x75, 0x30, 0x30, 0x34, 0x31] =
      Outcome.returned (0, [0x5C, 0x75, 0x30, 0x30, 0x34, 0x31]) := by decide
  rw [e] at h1
  have ht : t = [0x5C, 0x75, 0x30, 0x30, 0x34, 0x31] := by
    have := Outcome.returned.inj h1
    exact (congrArg Prod.snd this).symm
  subst ht
  exact absurd h2 (by decide)


/-! ## Code point at an index -/

set_option maxRecDepth 100000 in
theorem byte_ascii_start : ∀ c < 128, ((c &&& 0xC0) != 0x80) = true := by decide

/-- On an ASCII buffer the loop of `my_utf8_charat` stops `min n |b|` bytes on. -/
theorem charat_walk_ascii (b : List Nat) (hb : ∀ x ∈ b, 1 ≤ x ∧ x ≤ 0x7F) :
    ∀ (offset n : Nat), my_utf8_charat_walk b offset (n : Int) =
      (b.drop (min n b.length), offset + min n b.length, ((n - min n b.length : Nat) : Int)) := by
  induction b with
  | nil => intro offset n; simp [my_utf8_charat_walk]
  | cons c rest ih =>
    intro offset n
    have hc := hb c (List.mem_cons_self c rest)
    have hne : c ≠ 0 := by omega
    have hs := byte_ascii_start c (by omega)
    cases n with
    | zero => simp [my_utf8_charat_walk]
    | succ m =>
      have hpos : ((m + 1 : Nat) : Int) > 0 := by omega
      have hsub : ((m + 1 : Nat) : Int) - 1 = (m : Int) := by omega
      simp only [my_utf8_charat_walk, hne, ne_eq, not_false_eq_true, hpos, and_self, if_true, hs,
        hsub]
      rw [ih (fun y hy => hb y (List.mem_cons_of_mem c hy)) (offset + 1) m]
      have hmin : min (m + 1) (c :: rest).length = min m rest.length + 1 := by
        simp [Nat.succ_min_succ]
      rw [hmin]
      simp only [List.drop_succ_cons, Prod.mk.injEq, true_and]
      constructor
      · omega
      · congr 1
        omega

theorem ascii_drop_peek (b : List Nat) (hb : ∀ x ∈ b, 1 ≤ x ∧ x ≤ 0x7F) (k : Nat) :
    peek (b.drop k) 0 = 0 ↔ b.length ≤ k := by
  constructor
  · intro h
    by_contra hlt
    have hk : k < b.length := by omega
    have hd : b.drop k = b[k] :: b.drop (k + 1) := List.drop_eq_getElem_cons hk
    rw [hd, peek_cons_zero] at h
    have := hb b[k] (List.getElem_mem hk)
    omega
  · intro h
    rw [List.drop_eq_nil_of_le h]
    rfl

/-- C13: on a buffer of ASCII bytes 0x01..0x7F `my_utf8_charat` returns the byte
position `index` when `0 <= index < |b|` and NULL otherwise (negative index,
index at or beyond the end, empty buffer). -/
theorem charat_ascii (b : List Nat) (index : Int) (hb : ∀ x ∈ b, 1 ≤ x ∧ x ≤ 0x7F) :
    my_utf8_charat b index =
      if 0 ≤ index ∧ index < (b.length : Int) then some index.toNat else none := by
  by_cases hneg : index < 0
  · have h1 : ¬ (0 ≤ index ∧ index < (b.length : Int)) := by omega
    simp [my_utf8_charat, hneg, h1]
  · obtain ⟨n, rfl⟩ : ∃ n : Nat, index = (n : Int) := ⟨index.toNat, by omega⟩
    simp only [my_utf8_charat, hneg, if_false, charat_walk_ascii b hb 0 n]
    by_cases hlt : n < b.length
    · have hmin : min n b.length = n := by omega
      have hp : ¬ peek (b.drop n) 0 = 0 := by
        rw [ascii_drop_peek b hb n]; omega
      have h1 : (0 : Int) ≤ (n : Int) ∧ (n : Int) < (b.length : Int) := by omega
      simp [hmin, hp, h1]
    · have hmin : min n b.length = b.length := by omega
      have h1 : ¬ ((0 : Int) ≤ (n : Int) ∧ (n : Int) < (b.length : Int)) := by omega
      simp [hmin, h1, hlt, peek]

theorem charat_ascii_witness :
    my_utf8_charat [0x48, 0x65, 0x6C, 0x6C, 0x6F] 2 = some 2 ∧
      my_utf8_charat [0x48, 0x65, 0x6C, 0x6C, 0x6F] (-1) = none ∧
      my_utf8_charat [0x48, 0x65, 0x6C, 0x6C, 0x6F] 10 = none ∧
      my_utf8_charat [] 0 = none :=
  ⟨(charat_ascii [0x48, 0x65, 0x6C, 0x6C, 0x6F] 2 (by decide)).trans (by decide),
   (charat_ascii [0x48, 0x65, 0x6C, 0x6C, 0x6F] (-1) (by decide)).trans (by decide),
   (charat_ascii [0x48, 0x65, 0x6C, 0x6C, 0x6F] 10 (by decide)).trans (by decide),
   (charat_ascii [] 0 (by decide)).trans (by decide)⟩

/-- C11: on the valid buffer C3 A9 41 (the code points 0xE9 and 0x41) with index
1, `my_utf8_charat` returns offset 1, the continuation byte A9, and not offset
2, the lead byte of code point number 1; on E4 BD A0 E5 A5 BD with index 1 and 2
it returns offsets 1 and 4, continuation bytes again. -/
theorem charat_lands_on_continuation :
    [0xE9, 0x41].flatMap minimal_utf8_encoding = [0xC3, 0xA9, 0x41] ∧
      my_utf8_strlen [0xC3, 0xA9, 0x41] = 2 ∧
      my_utf8_charat [0xC3, 0xA9, 0x41] 1 = some 1 ∧
      is_continuation_byte (peek [0xC3, 0xA9, 0x41] 1) = true ∧
      (minimal_utf8_encoding 0xE9).length = 2 ∧
      my_utf8_charat [0xE4, 0xBD, 0xA0, 0xE5, 0xA5, 0xBD] 1 = some 1 ∧
      my_utf8_charat [0xE4, 0xBD, 0xA0, 0xE5, 0xA5, 0xBD] 2 = some 4 := by decide

/-- C12: on the valid buffer C3 A9, which has one code point, `my_utf8_charat`
with index 1 returns offset 1 and not NULL. -/
theorem charat_index_at_length_not_null :
    [0xE9].flatMap minimal_utf8_encoding = [0xC3, 0xA9] ∧
      my_utf8_strlen [0xC3, 0xA9] = 1 ∧
      my_utf8_charat [0xC3, 0xA9] 1 = some 1 ∧
      my_utf8_charat [0xC3, 0xA9] 2 = none := by decide

/-! ## Sub-range extraction -/

theorem substring_input_length_nonzero (b : List Nat) (hb : ∀ x ∈ b, x ≠ 0) :
    substring_input_length b = b.length := by
  induction b with
  | nil => rfl
  | cons c rest ih =>
    have hc := hb c (List.mem_cons_self c rest)
    simp [substring_input_length, hc, ih (fun y hy => hb y (List.mem_cons_of_mem c hy))]

theorem peek_mem (b : List Nat) (i : Nat) (hi : i < b.length) : peek b i ∈ b := by
  have hp : peek b i = b[i] := by
    unfold peek
    rw [List.getD_eq_getElem?_getD, List.getElem?_eq_getElem hi]
    rfl
  rw [hp]
  exact List.getElem_mem hi

theorem substring_next_ascii (ch i : Nat) (h : ch ≤ 0x7F) : substring_next ch i = i + 1 := by
  unfold substring_next
  rw [if_pos (by omega)]

/-- On an ASCII buffer the skipping loop stops `start - currentIndex` bytes on,
or at the end of the buffer. -/
theorem substring_skip_ascii (b : List Nat) (hb : ∀ x ∈ b, 1 ≤ x ∧ x ≤ 0x7F) (start : Int) :
    ∀ (fuel i : Nat) (cur : Int), i ≤ b.length → b.length + 1 ≤ fuel + i →
      substring_skip b b.length start fuel i cur =
        some (min (i + (start - cur).toNat) b.length) := by
  intro fuel
  induction fuel with
  | zero => intro i cur h1 h2; omega
  | succ fuel ih =>
    intro i cur h1 h2
    simp only [substring_skip]
    by_cases hcond : i < b.length ∧ cur < start
    · rw [if_pos hcond, substring_next_ascii _ _ (hb _ (peek_mem b i hcond.1)).2,
        ih (i + 1) (cur + 1) (by omega) (by omega)]
      congr 1
      omega
    · rw [if_neg hcond]
      congr 1
      omega

/-- On an ASCII buffer the extraction loop appends the next `length - j` bytes
of the buffer, or those that are left. -/
theorem substring_copy_ascii (b : List Nat) (hb : ∀ x ∈ b, 1 ≤ x ∧ x ≤ 0x7F) (length : Int) :
    ∀ (fuel i : Nat) (j : Int) (before : List Nat), i ≤ b.length → b.length + 1 ≤ fuel + i →
      substring_copy b b.length length fuel i j { before := before, after := [] } =
        some { before := before ++ (b.drop i).take (length - j).toNat, after := [] } := by
  intro fuel
  induction fuel with
  | zero => intro i j before h1 h2; omega
  | succ fuel ih =>
    intro i j before h1 h2
    simp only [substring_copy]
    by_cases hcond : j < length ∧ i < b.length
    · have hm := hb _ (peek_mem b i hcond.2)
      have hd := peek_ne_zero_drop b i (by omega)
      have ht : (length - j).toNat = (length - (j + 1)).toNat + 1 := by omega
      rw [if_pos hcond, substring_next_ascii _ _ hm.2, put_eq]
      simp only [List.drop_nil]
      rw [ih (i + 1) (j + 1) (before ++ [peek b i]) (by omega) (by omega), hd, ht,
        List.take_succ_cons]
      simp
    · rw [if_neg hcond]
      by_cases hj : j < length
      · have hi : b.length ≤ i := by
          by_contra hlt
          exact hcond ⟨hj, by omega⟩
        rw [List.drop_eq_nil_of_le hi]
        simp
      · have ht : (length - j).toNat = 0 := by omega
        rw [ht]
        simp

/-- C16: on a buffer of ASCII bytes 0x01..0x7F with `start >= 0` and
`length >= 0`, `my_utf8_substring` outputs the bytes of the buffer at positions
`start .. min(start+length, |b|) - 1`, nothing when `start >= |b|`. -/
theorem substring_ascii (b : List Nat) (start length : Int) (hb : ∀ x ∈ b, 1 ≤ x ∧ x ≤ 0x7F)
    (_hstart : 0 ≤ start) (_hlength : 0 ≤ length) :
    my_utf8_substring b start length = some ((b.drop start.toNat).take length.toNat) := by
  have hnz : ∀ x ∈ b, x ≠ 0 := fun x hx => by have := hb x hx; omega
  have hskip : substring_skip b b.length start (b.length + 1) 0 0 =
      some (min start.toNat b.length) := by
    simpa using substring_skip_ascii b hb start (b.length + 1) 0 0 (by omega) (by omega)
  have hcopy : substring_copy b b.length length (b.length + 1) (min start.toNat b.length) 0
      { before := [], after := [] } =
      some { before := (b.drop (min start.toNat b.length)).take length.toNat, after := [] } := by
    simpa using substring_copy_ascii b hb length (b.length + 1) (min start.toNat b.length) 0 []
      (by omega) (by omega)
  have hdrop : b.drop (min start.toNat b.length) = b.drop start.toNat := by
    by_cases hlt : start.toNat < b.length
    · congr 1; omega
    · have e : min start.toNat b.length = b.length := by omega
      rw [e, List.drop_eq_nil_of_le (Nat.le_refl b.length),
        List.drop_eq_nil_of_le (show b.length ≤ start.toNat by omega)]
  simp only [my_utf8_substring, substring_input_length_nonzero b hnz, hskip, OutBuf.empty, hcopy]
  rw [finish_eq]
  · simp only [hdrop]
  · intro x hx
    exact hnz x (List.mem_of_mem_drop (List.mem_of_mem_take hx))

theorem substring_ascii_witness :
    my_utf8_substring [0x48, 0x65, 0x6C, 0x6C, 0x6F, 0x20, 0x57, 0x6F, 0x72, 0x6C, 0x64] 6 5 =
        some [0x57, 0x6F, 0x72, 0x6C, 0x64] ∧
      my_utf8_substring [0x48, 0x65, 0x6C, 0x6C, 0x6F] 2 10 = some [0x6C, 0x6C, 0x6F] ∧
      my_utf8_substring [] 0 5 = some [] :=
  ⟨(substring_ascii [0x48, 0x65, 0x6C, 0x6C, 0x6F, 0x20, 0x57, 0x6F, 0x72, 0x6C, 0x64] 6 5
      (by decide) (by decide) (by decide)).trans (by decide),
   (substring_ascii [0x48, 0x65, 0x6C, 0x6C, 0x6F] 2 10 (by decide) (by decide)
      (by decide)).trans (by decide),
   (substring_ascii [] 0 5 (by decide) (by decide) (by decide)).trans (by decide)⟩

/-- C14: on "Hello " followed by E4 BD A0 E5 A5 BD with start 6 and length 2,
`my_utf8_substring` outputs the two lead bytes E4 E5 and not the two sequences
in full. -/
theorem substring_copies_lead_bytes_only :
    my_utf8_substring
        [0x48, 0x65, 0x6C, 0x6C, 0x6F, 0x20, 0xE4, 0xBD, 0xA0, 0xE5, 0xA5, 0xBD] 6 2 =
      some [0xE4, 0xE5] ∧
    my_utf8_substring [0xC3, 0xA9] 0 1 = some [0xC3] := by decide

/-- C15: on "Hello" with start -2 and length 3, `my_utf8_substring` outputs "Hel"
and not the empty string. -/
theorem substring_negative_start_not_empty :
    my_utf8_substring [0x48, 0x65, 0x6C, 0x6C, 0x6F] (-2) 3 = some [0x48, 0x65, 0x6C] := by
  decide

/-! ## Comparison -/

/-- The value `my_utf8_strcmp` receives from `my_utf8_decode` is always 0. -/
theorem decode_into_code_point_bytes (word : List Nat → Nat) (string : List Nat) (bytes : Int)
    (code_point : Nat)
    (h : decode_into_code_point word string = Outcome.returned (bytes, code_point)) :
    bytes = 0 := by
  unfold decode_into_code_point at h
  split at h
  · split at h
    · exact (congrArg Prod.fst (Outcome.returned.inj h)).symm
    · cases h
  · cases h
  · cases h

/-- One iteration of `my_utf8_strcmp` on two strings that are not empty either
returns or leaves both strings where they were. -/
theorem strcmp_run_step (word : List Nat → Nat) (fuel : Nat) (string1 string2 : List Nat)
    (h1 : peek string1 0 ≠ 0) (h2 : peek string2 0 ≠ 0) :
    my_utf8_strcmp_run word (fuel + 1) string1 string2 =
      match decode_into_code_point word string1, decode_into_code_point word string2 with
      | Outcome.returned (_, code_point1), Outcome.returned (_, code_point2) =>
        if code_point1 ≠ code_point2 then
          Outcome.returned (int_of_unsigned ((code_point1 + 2 ^ 32 - code_point2) % 2 ^ 32))
        else my_utf8_strcmp_run word fuel string1 string2
      | Outcome.returned _, Outcome.undefined => Outcome.undefined
      | Outcome.returned _, Outcome.out_of_fuel => Outcome.out_of_fuel
      | Outcome.undefined, _ => Outcome.undefined
      | Outcome.out_of_fuel, _ => Outcome.out_of_fuel := by
  simp only [my_utf8_strcmp_run, h1, h2, ne_eq, not_false_eq_true, and_self, if_true]
  cases hd1 : decode_into_code_point word string1 with
  | returned p1 =>
    obtain ⟨b1, c1⟩ := p1
    have e1 := decode_into_code_point_bytes word string1 b1 c1 hd1
    subst e1
    cases hd2 : decode_into_code_point word string2 with
    | returned p2 =>
      obtain ⟨b2, c2⟩ := p2
      have e2 := decode_into_code_point_bytes word string2 b2 c2 hd2
      subst e2
      simp
    | undefined => rfl
    | out_of_fuel => rfl
  | undefined => rfl
  | out_of_fuel => rfl

/-- Comparing a string that is not empty with itself never returns. -/
theorem strcmp_self_no_return (word : List Nat → Nat) (a : List Nat) (ha : peek a 0 ≠ 0) :
    ∀ (fuel : Nat) (r : Int), my_utf8_strcmp_run word fuel a a ≠ Outcome.returned r := by
  intro fuel
  induction fuel with
  | zero => intro r h; simp [my_utf8_strcmp_run] at h
  | succ fuel ih =>
    intro r h
    rw [strcmp_run_step word fuel a a ha ha] at h
    cases hd : decode_into_code_point word a with
    | returned p =>
      obtain ⟨b, c⟩ := p
      simp only [hd, ne_eq, not_true_eq_false, if_false] at h
      exact ih r h
    | undefined => simp [hd] at h
    | out_of_fuel => simp [hd] at h

/-- When the decoded value of a string that is not empty fits in `code_point`,
comparing the string with itself exhausts every fuel: the loop never ends. -/
theorem strcmp_self_loops (word : List Nat → Nat) (a : List Nat) (ha : peek a 0 ≠ 0) (v : Nat)
    (hd : decode_into_code_point word a = Outcome.returned (0, v)) :
    ∀ fuel, my_utf8_strcmp_run word fuel a a = Outcome.out_of_fuel := by
  intro fuel
  induction fuel with
  | zero => rfl
  | succ fuel ih =>
    rw [strcmp_run_step word fuel a a ha ha]
    simp [hd, ih]

/-- C17: `my_utf8_strcmp` on the valid buffers "A" and "A" never returns, whatever
the byte order; and on a little-endian machine it returns a positive value for
"AB" against "BA", whose first code points are in the opposite order. -/
theorem strcmp_no_lexicographic_order :
    (∀ (word : List Nat → Nat) (fuel : Nat),
        my_utf8_strcmp_run word fuel [0x41] [0x41] = Outcome.out_of_fuel) ∧
      (∀ fuel : Nat, my_utf8_strcmp_run little_endian (fuel + 1) [0x41, 0x42] [0x42, 0x41] =
        Outcome.returned 255) :=
  ⟨fun word fuel => strcmp_self_loops word [0x41] (by decide) (word [0x41, 0, 0, 0]) rfl fuel,
   fun _ => rfl⟩

/-- C18: for every buffer `a` that is not empty, valid UTF-8 or not,
`my_utf8_strcmp(a, a)` never returns, so it does not return 0. -/
theorem strcmp_self_never_returns (word : List Nat → Nat) (a : List Nat) (ha : peek a 0 ≠ 0)
    (fuel : Nat) (r : Int) : my_utf8_strcmp_run word fuel a a ≠ Outcome.returned r :=
  strcmp_self_no_return word a ha fuel r

theorem strcmp_self_never_returns_witness :
    peek [0x48, 0x65, 0x6C, 0x6C, 0x6F] 0 ≠ 0 ∧
      my_utf8_strcmp_run little_endian 7 [0x48, 0x65, 0x6C, 0x6C, 0x6F]
        [0x48, 0x65, 0x6C, 0x6C, 0x6F] ≠ Outcome.returned 0 :=
  ⟨by decide,
   strcmp_self_never_returns little_endian [0x48, 0x65, 0x6C, 0x6C, 0x6F] (by decide) 7 0⟩

/-- C19: on "Hello" against "Hello!" (and the other way round) `my_utf8_decode`
stores more than the four bytes of `code_point1`, so `my_utf8_strcmp` has no
defined result; on "" against "Hello" it returns -1. -/
theorem strcmp_prefix_overflows :
    (∀ (word : List Nat → Nat) (fuel : Nat),
        my_utf8_strcmp_run word (fuel + 1) [0x48, 0x65, 0x6C, 0x6C, 0x6F]
          [0x48, 0x65, 0x6C, 0x6C, 0x6F, 0x21] = Outcome.undefined) ∧
      (∀ (word : List Nat → Nat) (fuel : Nat),
        my_utf8_strcmp_run word (fuel + 1) [0x48, 0x65, 0x6C, 0x6C, 0x6F, 0x21]
          [0x48, 0x65, 0x6C, 0x6C, 0x6F] = Outcome.undefined) ∧
      (∀ (word : List Nat → Nat) (fuel : Nat),
        my_utf8_strcmp_run word (fuel + 1) [] [0x48, 0x65, 0x6C, 0x6C, 0x6F] =
          Outcome.returned (-1)) :=
  ⟨fun _ _ => rfl, fun _ _ => rfl, fun _ _ => rfl⟩

/-- C20: on the buffer FF against "A" `my_utf8_strcmp` returns 190 on a
little-endian machine, an ordering and not -1; on the stray continuation byte 80
against itself it never returns; `my_utf8_decode` returns 0 on both. -/
theorem strcmp_invalid_not_reported :
    (∀ fuel : Nat, my_utf8_strcmp_run little_endian (fuel + 1) [0xFF] [0x41] =
        Outcome.returned 190) ∧
      (∀ (word : List Nat → Nat) (fuel : Nat),
        my_utf8_strcmp_run word fuel [0x80] [0x80] = Outcome.out_of_fuel) ∧
      my_utf8_decode [0xFF] = Outcome.returned (0, [0xFF]) ∧
      my_utf8_decode [0x80] = Outcome.returned (0, [0x80]) :=
  ⟨fun _ => rfl,
   fun word fuel => strcmp_self_loops word [0x80] (by decide) (word [0x80, 0, 0, 0]) rfl fuel,
   by decide, by decide⟩

/-! ## Decoder: bytes copied through, and buffers it can walk -/

set_option maxRecDepth 100000 in
theorem byte_copy_through :
    ∀ x < 256, (0x80 ≤ x ∧ x ≤ 0xBF) ∨ 0xF8 ≤ x →
      (¬ x < 0x80 ∧ ((x &&& 0xE0) == 0xC0) = false ∧ ((x &&& 0xF0) == 0xE0) = false ∧
        ((x &&& 0xF8) == 0xF0) = false) := by decide

set_option maxRecDepth 100000 in
theorem byte_lead_patterns :
    ∀ l < 256,
      ((0xC0 ≤ l ∧ l ≤ 0xDF → ¬ l < 0x80 ∧ ((l &&& 0xE0) == 0xC0) = true) ∧
       (0xE0 ≤ l ∧ l ≤ 0xEF →
          ¬ l < 0x80 ∧ ((l &&& 0xE0) == 0xC0) = false ∧ ((l &&& 0xF0) == 0xE0) = true) ∧
       (0xF0 ≤ l ∧ l ≤ 0xF7 →
          ¬ l < 0x80 ∧ ((l &&& 0xE0) == 0xC0) = false ∧ ((l &&& 0xF0) == 0xE0) = false ∧
            ((l &&& 0xF8) == 0xF0) = true)) := by decide

/-- A byte in 0x01..0xBF or 0xF8..0xFF is copied to the output. -/
theorem decode_step_copy (fuel x : Nat) (rest : List Nat) (o : OutBuf)
    (hx : (1 ≤ x ∧ x ≤ 0xBF) ∨ (0xF8 ≤ x ∧ x ≤ 0xFF)) :
    my_utf8_decode_run (fuel + 1) (x :: rest) o = my_utf8_decode_run fuel rest (o.put x) := by
  have h0 : x ≠ 0 := by omega
  by_cases h1 : x < 0x80
  · simp [my_utf8_decode_run, peek_cons_zero, h0, h1]
  · have hb := byte_copy_through x (by omega) (by omega)
    simp only [my_utf8_decode_run, peek_cons_zero, h0, if_false, h1, hb.2.1, hb.2.2.1, hb.2.2.2,
      Bool.false_eq_true]
    simp

theorem decode_step_lead2 (fuel l a : Nat) (rest : List Nat) (o : OutBuf)
    (hl : 0xC0 ≤ l ∧ l ≤ 0xDF) :
    my_utf8_decode_run (fuel + 1) (l :: a :: rest) o =
      my_utf8_decode_run fuel rest
        (appendUnicodeEscape (((l &&& 0x1F) <<< 6) ||| (a &&& 0x3F)) o) := by
  have h0 : l ≠ 0 := by omega
  have hb := (byte_lead_patterns l (by omega)).1 hl
  simp only [my_utf8_decode_run, peek_cons_zero, peek_cons_succ, h0, if_false, hb.1, hb.2, if_true]
  simp

theorem decode_step_lead3 (fuel l a b : Nat) (rest : List Nat) (o : OutBuf)
    (hl : 0xE0 ≤ l ∧ l ≤ 0xEF) :
    my_utf8_decode_run (fuel + 1) (l :: a :: b :: rest) o =
      my_utf8_decode_run fuel rest
        (appendUnicodeEscape
          (((l &&& 0x0F) <<< 12) ||| ((a &&& 0x3F) <<< 6) ||| (b &&& 0x3F)) o) := by
  have h0 : l ≠ 0 := by omega
  have hb := (byte_lead_patterns l (by omega)).2.1 hl
  simp only [my_utf8_decode_run, peek_cons_zero, peek_cons_succ, h0, if_false, hb.1, hb.2.1,
    hb.2.2, if_true, Bool.false_eq_true]
  simp

theorem decode_step_lead4 (fuel l a b c : Nat) (rest : List Nat) (o : OutBuf)
    (hl : 0xF0 ≤ l ∧ l ≤ 0xF7) :
    my_utf8_decode_run (fuel + 1) (l :: a :: b :: c :: rest) o =
      my_utf8_decode_run fuel rest
        (appendUnicodeEscape
          (((l &&& 0x07) <<< 18) ||| ((a &&& 0x3F) <<< 12) ||| ((b &&& 0x3F) <<< 6)
            ||| (c &&& 0x3F)) o) := by
  have h0 : l ≠ 0 := by omega
  have hb := (byte_lead_patterns l (by omega)).2.2 hl
  simp only [my_utf8_decode_run, peek_cons_zero, peek_cons_succ, h0, if_false, hb.1, hb.2.1,
    hb.2.2.1, hb.2.2.2, if_true, Bool.false_eq_true]
  simp

/-- On a buffer made of pieces the decoder can step over, the loop returns. -/
theorem decode_run_chunks (chunks : List (List Nat))
    (h : ∀ ch ∈ chunks, decode_chunk ch = true) :
    ∀ fuel o, chunks.flatten.length + 1 ≤ fuel →
      ∃ o2, my_utf8_decode_run fuel chunks.flatten o = Outcome.returned o2 := by
  induction chunks with
  | nil =>
    intro fuel o hf
    obtain ⟨f, rfl⟩ : ∃ f, fuel = f + 1 := ⟨fuel - 1, by omega⟩
    exact ⟨o, by simp [my_utf8_decode_run, peek]⟩
  | cons ch chunks ih =>
    intro fuel o hf
    obtain ⟨f, rfl⟩ : ∃ f, fuel = f + 1 := ⟨fuel - 1, by omega⟩
    have hch := h ch (List.mem_cons_self ch chunks)
    have ih2 := ih (fun y hy => h y (List.mem_cons_of_mem ch hy))
    rw [List.flatten_cons] at hf ⊢
    rw [List.length_append] at hf
    rcases ch with _ | ⟨x, _ | ⟨a, _ | ⟨b, _ | ⟨c, _ | ⟨d, t⟩⟩⟩⟩⟩
    · simp [decode_chunk] at hch
    · simp only [decode_chunk, Bool.or_eq_true, Bool.and_eq_true, decide_eq_true_eq] at hch
      rw [List.singleton_append, decode_step_copy f x _ o hch]
      exact ih2 f _ (by simp only [List.length_singleton] at hf; omega)
    · simp only [decode_chunk, Bool.and_eq_true, decide_eq_true_eq] at hch
      rw [show [x, a] ++ chunks.flatten = x :: a :: chunks.flatten from rfl,
        decode_step_lead2 f x a _ o ⟨hch.1.1.1, hch.1.1.2⟩]
      exact ih2 f _ (by simp only [List.length_cons, List.length_nil] at hf; omega)
    · simp only [decode_chunk, Bool.and_eq_true, decide_eq_true_eq] at hch
      rw [show [x, a, b] ++ chunks.flatten = x :: a :: b :: chunks.flatten from rfl,
        decode_step_lead3 f x a b _ o ⟨hch.1.1.1.1.1, hch.1.1.1.1.2⟩]
      exact ih2 f _ (by simp only [List.length_cons, List.length_nil] at hf; omega)
    · simp only [decode_chunk, Bool.and_eq_true, decide_eq_true_eq] at hch
      rw [show [x, a, b, c] ++ chunks.flatten = x :: a :: b :: c :: chunks.flatten from rfl,
        decode_step_lead4 f x a b c _ o ⟨hch.1.1.1.1.1.1.1, hch.1.1.1.1.1.1.2⟩]
      exact ih2 f _ (by simp only [List.length_cons, List.length_nil] at hf; omega)
    · simp [decode_chunk] at hch

/-- C21 (as amended): on every buffer in which each lead byte of a 2-, 3- or
4-byte pattern that the decoder meets is followed by its one, two or three bytes
before the terminator, valid UTF-8 or not, `my_utf8_decode` returns 0 and leaves
an output string. -/
theorem decode_never_rejects (chunks : List (List Nat))
    (h : ∀ ch ∈ chunks, decode_chunk ch = true) :
    ∃ out, my_utf8_decode chunks.flatten = Outcome.returned (0, out) := by
  obtain ⟨o2, hr⟩ := decode_run_chunks chunks h _ OutBuf.empty (Nat.le_refl _)
  refine ⟨o2.finish, ?_⟩
  unfold my_utf8_decode
  rw [hr]
  rfl

theorem decode_never_rejects_witness :
    (∀ ch ∈ [[0x61], [0xFF], [0xC3, 0x28], [0xE2, 0x82, 0xAC], [0x80]], decode_chunk ch = true) ∧
      ∃ out, my_utf8_decode [[0x61], [0xFF], [0xC3, 0x28], [0xE2, 0x82, 0xAC], [0x80]].flatten =
        Outcome.returned (0, out) :=
  ⟨by decide,
   decode_never_rejects [[0x61], [0xFF], [0xC3, 0x28], [0xE2, 0x82, 0xAC], [0x80]] (by decide)⟩

/-- C21 (as stated) fails: on the one-byte buffer C3, and on "A" followed by
E2 82, the lead byte asks for more bytes than the string has and the input
pointer moves beyond the terminator, so the call has no defined result. -/
theorem decode_truncated_undefined :
    my_utf8_decode [0xC3] = Outcome.undefined ∧
      my_utf8_decode [0x41, 0xE2, 0x82] = Outcome.undefined := by decide

/-- C22 fails on the code: on "abc", FF, "xyz" (the source's own test,
main.c:483-487), where FF can occur in no UTF-8 text, `my_utf8_decode` returns 0
and copies the seven bytes to the output; on C0 followed by "A", where C0 can
occur in no UTF-8 text either, it returns 0 with the escape token of the value
1; and there is no buffer at all on which it returns -1. -/
theorem decode_invalid_byte_not_reported :
    never_in_utf8 0xFF = true ∧
      my_utf8_decode [0x61, 0x62, 0x63, 0xFF, 0x78, 0x79, 0x7A] =
        Outcome.returned (0, [0x61, 0x62, 0x63, 0xFF, 0x78, 0x79, 0x7A]) ∧
      never_in_utf8 0xC0 = true ∧
      my_utf8_decode [0xC0, 0x41] = Outcome.returned (0, [0x5C, 0x75, 0x30, 0x30, 0x30, 0x31]) ∧
      ∀ (b out : List Nat), my_utf8_decode b ≠ Outcome.returned (-1, out) := by
  refine ⟨by decide, by decide, by decide, by decide, ?_⟩
  intro b out h
  unfold my_utf8_decode at h
  cases hr : my_utf8_decode_run (b.length + 1) b OutBuf.empty with
  | returned o =>
    rw [hr] at h
    have := congrArg Prod.fst (Outcome.returned.inj h)
    simp at this
  | undefined => rw [hr] at h; cases h
  | out_of_fuel => rw [hr] at h; cases h

/-- On a buffer of bytes that start no multi-byte sequence, the loop appends
the buffer to the output. -/
theorem decode_run_copy (b : List Nat)
    (hb : ∀ x ∈ b, (1 ≤ x ∧ x ≤ 0xBF) ∨ (0xF8 ≤ x ∧ x ≤ 0xFF)) :
    ∀ fuel o, b.length + 1 ≤ fuel →
      ∃ o2, my_utf8_decode_run fuel b o = Outcome.returned o2 ∧ o2.before = o.before ++ b := by
  induction b with
  | nil =>
    intro fuel o hf
    obtain ⟨f, rfl⟩ : ∃ f, fuel = f + 1 := ⟨fuel - 1, by omega⟩
    exact ⟨o, by simp [my_utf8_decode_run, peek], by simp⟩
  | cons x rest ih =>
    intro fuel o hf
    obtain ⟨f, rfl⟩ : ∃ f, fuel = f + 1 := ⟨fuel - 1, by omega⟩
    rw [decode_step_copy f x rest o (hb x (List.mem_cons_self x rest))]
    obtain ⟨o2, hr, hbf⟩ := ih (fun y hy => hb y (List.mem_cons_of_mem x hy)) f (o.put x)
      (by simp only [List.length_cons] at hf; omega)
    exact ⟨o2, hr, by rw [hbf, put_eq]; simp⟩

/-- C23: on every buffer whose bytes are ASCII (0x01..0x7F) or match no
lead-byte pattern (0x80..0xBF, 0xF8..0xFF), `my_utf8_decode` returns 0 and
outputs the buffer unchanged. -/
theorem decode_copies_through (b : List Nat)
    (hb : ∀ x ∈ b, (1 ≤ x ∧ x ≤ 0x7F) ∨ (0x80 ≤ x ∧ x ≤ 0xBF) ∨ (0xF8 ≤ x ∧ x ≤ 0xFF)) :
    my_utf8_decode b = Outcome.returned (0, b) := by
  have hb2 : ∀ x ∈ b, (1 ≤ x ∧ x ≤ 0xBF) ∨ (0xF8 ≤ x ∧ x ≤ 0xFF) := by
    intro x hx
    have := hb x hx
    omega
  obtain ⟨o2, hr, hbf⟩ := decode_run_copy b hb2 _ OutBuf.empty (Nat.le_refl _)
  have hbf2 : o2.before = b := by simpa [OutBuf.empty] using hbf
  have hnz : ∀ x ∈ o2.before, x ≠ 0 := by
    intro x hx
    rw [hbf2] at hx
    have := hb2 x hx
    omega
  simp [my_utf8_decode, hr, Outcome.map, finish_eq o2 hnz, hbf2]

theorem decode_copies_through_witness :
    my_utf8_decode [0x48, 0x65, 0x6C, 0x6C, 0x6F] =
        Outcome.returned (0, [0x48, 0x65, 0x6C, 0x6C, 0x6F]) ∧
      my_utf8_decode [0x61, 0x80, 0xBF, 0xFF, 0xF8, 0x7A] =
        Outcome.returned (0, [0x61, 0x80, 0xBF, 0xFF, 0xF8, 0x7A]) :=
  ⟨decode_copies_through [0x48, 0x65, 0x6C, 0x6C, 0x6F] (by decide),
   decode_copies_through [0x61, 0x80, 0xBF, 0xFF, 0xF8, 0x7A] (by decide)⟩

/-- C24: for every code point `c` in 0x80..0xFFFF, `my_utf8_decode` of its 2- or
3-byte encoding outputs backslash, `u` and the four upper-case hexadecimal
digits of `c`; and in a buffer of encodings of code points in 1..0xFFFF every
such sequence gives its token, in order, ASCII bytes staying as they are. -/
theorem decode_escape_tokens :
    (∀ c, 0x80 ≤ c ∧ c ≤ 0xFFFF →
        my_utf8_decode (minimal_utf8_encoding c) = Outcome.returned (0, escape_token c)) ∧
      (∀ cps : List Nat, (∀ c ∈ cps, 1 ≤ c ∧ c ≤ 0xFFFF) →
        my_utf8_decode (cps.flatMap minimal_utf8_encoding) =
          Outcome.returned (0, escape_form cps)) := by
  have hgen : ∀ cps : List Nat, (∀ c ∈ cps, 1 ≤ c ∧ c ≤ 0xFFFF) →
      my_utf8_decode (cps.flatMap minimal_utf8_encoding) =
        Outcome.returned (0, escape_form cps) := by
    intro cps h
    obtain ⟨o1, hr1, hb1⟩ := decode_run_valid cps h _ OutBuf.empty (Nat.le_refl _)
    have hb1b : o1.before = escape_form cps := by simpa [OutBuf.empty] using hb1
    unfold my_utf8_decode
    rw [hr1]
    simp only [Outcome.map]
    rw [finish_eq o1 (by rw [hb1b]; exact escape_form_ne_zero cps h), hb1b]
  refine ⟨?_, hgen⟩
  intro c hc
  have h1 := hgen [c] (by
    intro x hx
    rw [List.mem_singleton] at hx
    subst hx
    omega)
  have hne : ¬ c ≤ 0x7F := by omega
  simpa [escape_form, hne] using h1

theorem decode_escape_tokens_witness :
    my_utf8_decode (minimal_utf8_encoding 0x20AC) =
        Outcome.returned (0, [0x5C, 0x75, 0x32, 0x30, 0x41, 0x43]) ∧
      my_utf8_decode ([0x41, 0xE9, 0x20AC].flatMap minimal_utf8_encoding) =
        Outcome.returned (0, [0x41, 0x5C, 0x75, 0x30, 0x30, 0x45, 0x39, 0x5C, 0x75, 0x32, 0x30,
          0x41, 0x43]) :=
  ⟨(decode_escape_tokens.1 0x20AC (by decide)).trans (by decide),
   (decode_escape_tokens.2 [0x41, 0xE9, 0x20AC] (by decide)).trans (by decide)⟩

/-! ## Escape decoder: literal text and tokens -/

theorem hex_value_facts (d v : Nat) (h : hex_value d = some v) :
    is_space d = false ∧ d ≠ 0 ∧ d ≠ 0x2D ∧ d ≠ 0x2B ∧ d ≠ 0x78 ∧ d ≠ 0x58 ∧ v < 16 := by
  unfold hex_value at h
  have hsp : ∀ x : Nat, 0x30 ≤ x → is_space x = false := by
    intro x hx
    unfold is_space
    have h1 : (x == 0x20) = false := by simp; omega
    have h2 : decide (x ≤ 13) = false := by simp; omega
    simp [h1, h2]
  split at h
  · rename_i hr
    have hv := Option.some.inj h
    exact ⟨hsp d hr.1, by omega, by omega, by omega, by omega, by omega, by omega⟩
  · split at h
    · rename_i hr
      have hv := Option.some.inj h
      exact ⟨hsp d (by omega), by omega, by omega, by omega, by omega, by omega, by omega⟩
    · split at h
      · rename_i hr
        have hv := Option.some.inj h
        exact ⟨hsp d (by omega), by omega, by omega, by omega, by omega, by omega, by omega⟩
      · cases h

theorem sscanf_four_hex (d1 d2 d3 d4 v1 v2 v3 v4 : Nat) (tail : List Nat)
    (h1 : hex_value d1 = some v1) (h2 : hex_value d2 = some v2) (h3 : hex_value d3 = some v3)
    (h4 : hex_value d4 = some v4) :
    sscanf_4x (d1 :: d2 :: d3 :: d4 :: tail) = some (((v1 * 16 + v2) * 16 + v3) * 16 + v4) := by
  obtain ⟨a1, -, a3, a4, -, -, -⟩ := hex_value_facts d1 v1 h1
  obtain ⟨-, -, -, -, b5, b6, -⟩ := hex_value_facts d2 v2 h2
  simp [sscanf_4x, List.dropWhile, a1, peek_cons_zero, peek, a3, a4, b5, b6, scan_hex, h1, h2,
    h3, h4]

/-- A token of four hexadecimal digits is read as its value and six characters
are consumed. -/
theorem encode_step_hex_token (fuel d1 d2 d3 d4 v1 v2 v3 v4 : Nat) (rest : List Nat)
    (o : OutBuf) (h1 : hex_value d1 = some v1) (h2 : hex_value d2 = some v2)
    (h3 : hex_value d3 = some v3) (h4 : hex_value d4 = some v4) :
    my_utf8_encode_run (fuel + 1) (0x5C :: 0x75 :: d1 :: d2 :: d3 :: d4 :: rest) o =
      my_utf8_encode_run fuel rest
        (encode_code_point (((v1 * 16 + v2) * 16 + v3) * 16 + v4) o) := by
  have f1 := (hex_value_facts d1 v1 h1).2.1
  have f2 := (hex_value_facts d2 v2 h2).2.1
  have f3 := (hex_value_facts d3 v3 h3).2.1
  have f4 := (hex_value_facts d4 v4 h4).2.1
  have hs := sscanf_four_hex d1 d2 d3 d4 v1 v2 v3 v4 (rest.takeWhile (fun b => b != 0))
    h1 h2 h3 h4
  have g1 : (d1 != 0) = true := by simpa using f1
  have g2 : (d2 != 0) = true := by simpa using f2
  have g3 : (d3 != 0) = true := by simpa using f3
  have g4 : (d4 != 0) = true := by simpa using f4
  have hl : ¬ (rest.length + 1 + 1 + 1 + 1 + 1 + 1 < 6) := by omega
  simp only [my_utf8_encode_run, peek_cons_zero, peek_cons_succ]
  simp [List.takeWhile, g1, g2, g3, g4, hs, hl]

/-- For a value up to 0xFFFF the encoder appends its shortest-form encoding. -/
theorem encode_code_point_before (v : Nat) (o : OutBuf) (hv : v ≤ 0xFFFF) :
    (encode_code_point v o).before = o.before ++ minimal_utf8_encoding v := by
  by_cases h1 : v ≤ 0x7F
  · have hm : v % 256 = v := by omega
    simp [encode_code_point, minimal_utf8_encoding, h1, hm, put_eq]
  · by_cases h2 : v ≤ 0x7FF
    · rw [encode_code_point2 v o ⟨by omega, h2⟩]
    · rw [encode_code_point3 v o ⟨by omega, hv⟩]

set_option maxRecDepth 100000 in
theorem byte_or_add :
    (∀ h < 32, 0xC0 ||| h = 0xC0 + h) ∧ (∀ h < 16, 0xE0 ||| h = 0xE0 + h) ∧
      (∀ l < 64, 0x80 ||| l = 0x80 + l) := by decide

/-- The byte sequence by length band, written with masks and shifts, is the
shortest-form encoding written with division and remainder. -/
theorem bytes_by_band_eq_minimal (v : Nat) (hv : v ≤ 0xFFFF) :
    utf8_bytes_by_band v = minimal_utf8_encoding v := by
  unfold utf8_bytes_by_band minimal_utf8_encoding
  by_cases h1 : v ≤ 0x7F
  · simp [h1]
  · by_cases h2 : v ≤ 0x7FF
    · rw [if_neg h1, if_pos h2, if_neg h1, if_pos h2, and_3F, Nat.shiftRight_eq_div_pow,
        byte_or_add.1 _ (by omega), byte_or_add.2.2 _ (by omega)]
    · rw [if_neg h1, if_neg h2, if_neg h1, if_neg h2, if_pos hv, and_3F, and_3F,
        Nat.shiftRight_eq_div_pow, Nat.shiftRight_eq_div_pow,
        byte_or_add.2.1 _ (by omega), byte_or_add.2.2 _ (by omega),
        byte_or_add.2.2 _ (by omega)]

theorem item_value_le (it : EscapeItem) (h : it.well_formed = true) : it.value ≤ 0xFFFF := by
  cases it with
  | literal c =>
    simp only [EscapeItem.well_formed, Bool.and_eq_true, decide_eq_true_eq] at h
    simp only [EscapeItem.value]
    omega
  | token d1 d2 d3 d4 =>
    simp only [EscapeItem.well_formed, Bool.and_eq_true, Option.isSome_iff_exists] at h
    obtain ⟨⟨⟨⟨v1, h1⟩, ⟨v2, h2⟩⟩, ⟨v3, h3⟩⟩, ⟨v4, h4⟩⟩ := h
    have b1 := (hex_value_facts d1 v1 h1).2.2.2.2.2.2
    have b2 := (hex_value_facts d2 v2 h2).2.2.2.2.2.2
    have b3 := (hex_value_facts d3 v3 h3).2.2.2.2.2.2
    have b4 := (hex_value_facts d4 v4 h4).2.2.2.2.2.2
    simp only [EscapeItem.value, h1, h2, h3, h4, Option.getD_some]
    omega

/-- One element of the text is consumed and the shortest-form encoding of its
value is appended. -/
theorem encode_step_item (fuel : Nat) (it : EscapeItem) (rest : List Nat) (o : OutBuf)
    (h : it.well_formed = true)
    (hm : ∀ c, it = EscapeItem.literal c → ¬ (c = 0x5C ∧ peek rest 0 = 0x75)) :
    ∃ o1, my_utf8_encode_run (fuel + 1) (it.text ++ rest) o = my_utf8_encode_run fuel rest o1 ∧
      o1.before = o.before ++ minimal_utf8_encoding it.value := by
  cases it with
  | literal c =>
    simp only [EscapeItem.well_formed, Bool.and_eq_true, decide_eq_true_eq] at h
    refine ⟨o.put c, ?_, ?_⟩
    · exact encode_step_copy fuel c rest o (by omega) (hm c rfl)
    · have h1 : c ≤ 0x7F := h.2
      simp [put_eq, EscapeItem.value, minimal_utf8_encoding, h1]
  | token d1 d2 d3 d4 =>
    have hle := item_value_le _ h
    simp only [EscapeItem.well_formed, Bool.and_eq_true, Option.isSome_iff_exists] at h
    obtain ⟨⟨⟨⟨v1, h1⟩, ⟨v2, h2⟩⟩, ⟨v3, h3⟩⟩, ⟨v4, h4⟩⟩ := h
    have hval : (EscapeItem.token d1 d2 d3 d4).value = ((v1 * 16 + v2) * 16 + v3) * 16 + v4 := by
      simp [EscapeItem.value, h1, h2, h3, h4]
    refine ⟨encode_code_point (((v1 * 16 + v2) * 16 + v3) * 16 + v4) o, ?_, ?_⟩
    · exact encode_step_hex_token fuel d1 d2 d3 d4 v1 v2 v3 v4 rest o h1 h2 h3 h4
    · rw [hval] at hle ⊢
      exact encode_code_point_before _ o hle

theorem item_text_length_pos (it : EscapeItem) : 1 ≤ it.text.length := by
  cases it <;> simp [EscapeItem.text]

/-- A text that starts with `u` starts with the literal `u`. -/
theorem items_head_u (items : List EscapeItem)
    (h : peek (items.flatMap EscapeItem.text) 0 = 0x75) :
    items.head? = some (EscapeItem.literal 0x75) := by
  cases items with
  | nil => exact absurd h (by decide)
  | cons it rest =>
    cases it with
    | literal c =>
      simp only [List.flatMap_cons, EscapeItem.text, List.singleton_append, peek_cons_zero] at h
      simp [h]
    | token d1 d2 d3 d4 =>
      simp only [List.flatMap_cons, EscapeItem.text, List.cons_append, peek_cons_zero] at h
      exact absurd h (by decide)

/-- On an escape-form text the loop returns with the shortest-form encodings of
the values of its elements appended to the output, in order. -/
theorem encode_run_items (items : List EscapeItem)
    (hwf : ∀ it ∈ items, it.well_formed = true) :
    no_literal_marker items = true →
    ∀ fuel o, (items.flatMap EscapeItem.text).length + 1 ≤ fuel →
      ∃ o2, my_utf8_encode_run fuel (items.flatMap EscapeItem.text) o = Outcome.returned o2 ∧
        o2.before = o.before ++ (items.map EscapeItem.value).flatMap minimal_utf8_encoding := by
  induction items with
  | nil =>
    intro _ fuel o hf
    obtain ⟨f, rfl⟩ : ∃ f, fuel = f + 1 := ⟨fuel - 1, by omega⟩
    exact ⟨o, by simp [my_utf8_encode_run, peek], by simp⟩
  | cons it rest ih =>
    intro hnm fuel o hf
    obtain ⟨f, rfl⟩ : ∃ f, fuel = f + 1 := ⟨fuel - 1, by omega⟩
    have hit := hwf it (List.mem_cons_self it rest)
    have hrest : no_literal_marker rest = true := by
      cases it with
      | literal c =>
        simp only [no_literal_marker, Bool.and_eq_true] at hnm
        exact hnm.2
      | token d1 d2 d3 d4 => simpa [no_literal_marker] using hnm
    have hm : ∀ c, it = EscapeItem.literal c →
        ¬ (c = 0x5C ∧ peek (rest.flatMap EscapeItem.text) 0 = 0x75) := by
      rintro c rfl ⟨hc1, hc2⟩
      have hh := items_head_u rest hc2
      simp [no_literal_marker, hc1, hh] at hnm
    rw [List.flatMap_cons] at hf ⊢
    rw [List.length_append] at hf
    have hlen := item_text_length_pos it
    obtain ⟨o1, hstep, hb1⟩ := encode_step_item f it _ o hit hm
    obtain ⟨o2, hr, hb2⟩ := ih (fun y hy => hwf y (List.mem_cons_of_mem it hy)) hrest f o1
      (by omega)
    refine ⟨o2, by rw [hstep, hr], ?_⟩
    rw [hb2, hb1]
    simp

/-- Reading an output that holds encoded code points up to its first NUL keeps
the encodings of the code points before the first code point 0. -/
theorem takeWhile_encoded (cps : List Nat) (tail : List Nat) :
    (cps.flatMap minimal_utf8_encoding ++ 0 :: tail).takeWhile (fun b => b != 0) =
      (cps.takeWhile (fun c => c != 0)).flatMap minimal_utf8_encoding := by
  induction cps with
  | nil => simp
  | cons c cps ih =>
    by_cases hc : c = 0
    · subst hc
      simp [minimal_utf8_encoding]
    · have hne : (c != 0) = true := by simpa using hc
      have hall : ∀ x ∈ minimal_utf8_encoding c, (fun b => b != 0) x = true := by
        intro x hx
        have := minimal_encoding_ne_zero c (by omega) x hx
        simpa using this
      have htw : (c :: cps).takeWhile (fun c => c != 0) = c :: cps.takeWhile (fun c => c != 0) :=
        List.takeWhile_cons_of_pos hne
      rw [List.flatMap_cons, List.append_assoc, List.takeWhile_append_of_pos hall, ih, htw,
        List.flatMap_cons]
/-- On a text without a backslash-`u` pair the loop appends the text to the
output. -/
theorem encode_run_no_marker (text : List Nat) (h0 : ∀ x ∈ text, x ≠ 0) :
    has_escape_marker text = false →
    ∀ fuel o, text.length + 1 ≤ fuel →
      ∃ o2, my_utf8_encode_run fuel text o = Outcome.returned o2 ∧
        o2.before = o.before ++ text := by
  induction text with
  | nil =>
    intro _ fuel o hf
    obtain ⟨f, rfl⟩ : ∃ f, fuel = f + 1 := ⟨fuel - 1, by omega⟩
    exact ⟨o, by simp [my_utf8_encode_run, peek], by simp⟩
  | cons c rest ih =>
    intro hm fuel o hf
    obtain ⟨f, rfl⟩ : ∃ f, fuel = f + 1 := ⟨fuel - 1, by omega⟩
    simp only [has_escape_marker, Bool.or_eq_false_iff, Bool.and_eq_false_iff] at hm
    have hnm : ¬ (c = 0x5C ∧ peek rest 0 = 0x75) := by
      rintro ⟨hc1, hc2⟩
      rcases hm.1 with hx | hx
      · simp [hc1] at hx
      · simp [hc2] at hx
    rw [encode_step_copy f c rest o (h0 c (List.mem_cons_self c rest)) hnm]
    obtain ⟨o2, hr, hb⟩ := ih (fun y hy => h0 y (List.mem_cons_of_mem c hy)) hm.2 f (o.put c)
      (by simp only [List.length_cons] at hf; omega)
    exact ⟨o2, hr, by rw [hb, put_eq]; simp⟩

/-- C25: on every text that holds no backslash immediately followed by `u`,
`my_utf8_encode` outputs the text unchanged. -/
theorem encode_copies_text (text : List Nat) (h0 : ∀ x ∈ text, x ≠ 0)
    (hm : has_escape_marker text = false) :
    my_utf8_encode text = Outcome.returned text := by
  obtain ⟨o2, hr, hb⟩ := encode_run_no_marker text h0 hm _ OutBuf.empty (Nat.le_refl _)
  have hb2 : o2.before = text := by simpa [OutBuf.empty] using hb
  unfold my_utf8_encode
  rw [hr]
  simp only [Outcome.map]
  rw [finish_eq o2 (by rw [hb2]; exact h0), hb2]

theorem encode_copies_text_witness :
    my_utf8_encode [0x48, 0x65, 0x6C, 0x6C, 0x6F] = Outcome.returned [0x48, 0x65, 0x6C, 0x6C, 0x6F] ∧
      my_utf8_encode [] = Outcome.returned [] ∧
      my_utf8_encode [0x5C, 0x6E, 0xC3, 0xA9, 0x75] = Outcome.returned [0x5C, 0x6E, 0xC3, 0xA9, 0x75] :=
  ⟨encode_copies_text [0x48, 0x65, 0x6C, 0x6C, 0x6F] (by decide) (by decide),
   encode_copies_text [] (by decide) (by decide),
   encode_copies_text [0x5C, 0x6E, 0xC3, 0xA9, 0x75] (by decide) (by decide)⟩

theorem items_bytes_eq (items : List EscapeItem) (hwf : ∀ it ∈ items, it.well_formed = true) :
    (items.map EscapeItem.value).flatMap minimal_utf8_encoding =
      items.flatMap EscapeItem.bytes := by
  induction items with
  | nil => rfl
  | cons it rest ih =>
    have hit := hwf it (List.mem_cons_self it rest)
    have hle := item_value_le it hit
    rw [List.map_cons, List.flatMap_cons, List.flatMap_cons,
      ih (fun y hy => hwf y (List.mem_cons_of_mem it hy))]
    congr 1
    cases it with
    | literal c =>
      simp only [EscapeItem.well_formed, Bool.and_eq_true, decide_eq_true_eq] at hit
      have h1 : c ≤ 0x7F := hit.2
      simp [EscapeItem.value, EscapeItem.bytes, minimal_utf8_encoding, h1]
    | token d1 d2 d3 d4 =>
      simp only [EscapeItem.bytes]
      exact (bytes_by_band_eq_minimal _ hle).symm

/-- C26: on a text of literal ASCII bytes and of tokens made of backslash, `u`
and four hexadecimal digits of either case, with values in 1..0xFFFF,
`my_utf8_encode` outputs for each token the byte sequence of its value by
length band (one byte `v`; two bytes `0xC0|(v>>6)`, `0x80|(v&0x3F)`; three
bytes `0xE0|(v>>12)`, `0x80|((v>>6)&0x3F)`, `0x80|(v&0x3F)`), in order. -/
theorem encode_tokens_by_band (items : List EscapeItem)
    (hwf : ∀ it ∈ items, it.well_formed = true) (hnm : no_literal_marker items = true)
    (hv : ∀ it ∈ items, 1 ≤ it.value) :
    my_utf8_encode (items.flatMap EscapeItem.text) =
      Outcome.returned (items.flatMap EscapeItem.bytes) := by
  obtain ⟨o2, hr, hb⟩ := encode_run_items items hwf hnm _ OutBuf.empty (Nat.le_refl _)
  have hb2 : o2.before = (items.map EscapeItem.value).flatMap minimal_utf8_encoding := by
    simpa [OutBuf.empty] using hb
  have hnz : ∀ x ∈ o2.before, x ≠ 0 := by
    intro x hx
    rw [hb2] at hx
    obtain ⟨c, hc, hxc⟩ := List.mem_flatMap.1 hx
    obtain ⟨it, hit, rfl⟩ := List.mem_map.1 hc
    exact minimal_encoding_ne_zero _ (hv it hit) x hxc
  unfold my_utf8_encode
  rw [hr]
  simp only [Outcome.map]
  rw [finish_eq o2 hnz, hb2, items_bytes_eq items hwf]

theorem encode_tokens_by_band_witness :
    my_utf8_encode [0x5C, 0x75, 0x30, 0x30, 0x34, 0x31, 0x5C, 0x75, 0x30, 0x30, 0x34, 0x32,
        0x5C, 0x75, 0x30, 0x30, 0x34, 0x33] = Outcome.returned [0x41, 0x42, 0x43] ∧
      my_utf8_encode [0x48, 0x5C, 0x75, 0x30, 0x30, 0x65, 0x39, 0x5C, 0x75, 0x32, 0x30, 0x41,
        0x43] = Outcome.returned [0x48, 0xC3, 0xA9, 0xE2, 0x82, 0xAC] :=
  ⟨(encode_tokens_by_band
      [EscapeItem.token 0x30 0x30 0x34 0x31, EscapeItem.token 0x30 0x30 0x34 0x32,
        EscapeItem.token 0x30 0x30 0x34 0x33] (by decide) (by decide) (by decide)).trans
      (by decide),
   (encode_tokens_by_band
      [EscapeItem.literal 0x48, EscapeItem.token 0x30 0x30 0x65 0x39,
        EscapeItem.token 0x32 0x30 0x41 0x43] (by decide) (by decide) (by decide)).trans
      (by decide)⟩

/-- C27 (as amended): on every escape-form text (literal ASCII bytes and tokens
of four hexadecimal digits, every backslash-`u` pair starting a token) whose
tokens have no value in the surrogate range, `my_utf8_encode` returns an output
that is valid UTF-8: a concatenation of shortest-form encodings of code points
in `0 .. 0x10FFFF`, none a surrogate. -/
theorem encode_output_valid (items : List EscapeItem)
    (hwf : ∀ it ∈ items, it.well_formed = true) (hnm : no_literal_marker items = true)
    (hs : ∀ it ∈ items, ¬ (0xD800 ≤ it.value ∧ it.value ≤ 0xDFFF)) :
    ∃ out, my_utf8_encode (items.flatMap EscapeItem.text) = Outcome.returned out ∧
      valid_utf8 out := by
  obtain ⟨o2, hr, hb⟩ := encode_run_items items hwf hnm _ OutBuf.empty (Nat.le_refl _)
  have hb2 : o2.before = (items.map EscapeItem.value).flatMap minimal_utf8_encoding := by
    simpa [OutBuf.empty] using hb
  have hfin : o2.finish =
      ((items.map EscapeItem.value).takeWhile (fun c => c != 0)).flatMap
        minimal_utf8_encoding := by
    unfold OutBuf.finish OutBuf.store
    simp only [List.singleton_append, hb2]
    exact takeWhile_encoded _ _
  refine ⟨o2.finish, ?_, ?_⟩
  · unfold my_utf8_encode
    rw [hr]
    rfl
  · refine ⟨(items.map EscapeItem.value).takeWhile (fun c => c != 0), ?_, hfin⟩
    intro c hc
    obtain ⟨it, hit, rfl⟩ := List.mem_map.1 (List.takeWhile_subset _ hc)
    have hle := item_value_le it (hwf it hit)
    exact ⟨by omega, hs it hit⟩

theorem encode_output_valid_witness :
    ∃ out, my_utf8_encode
        ([EscapeItem.literal 0x48, EscapeItem.token 0x30 0x30 0x65 0x39,
          EscapeItem.token 0x32 0x30 0x41 0x43].flatMap EscapeItem.text) =
        Outcome.returned out ∧ valid_utf8 out :=
  encode_output_valid
    [EscapeItem.literal 0x48, EscapeItem.token 0x30 0x30 0x65 0x39,
      EscapeItem.token 0x32 0x30 0x41 0x43] (by decide) (by decide) (by decide)

/-- C27 (as stated) fails: the token made of backslash, `u`, `D800` is encoded
as ED A0 80, which is the encoding of no list of code points outside the
surrogate range. -/
theorem encode_surrogate_token_invalid :
    (EscapeItem.token 0x44 0x38 0x30 0x30).well_formed = true ∧
      my_utf8_encode (EscapeItem.token 0x44 0x38 0x30 0x30).text =
        Outcome.returned [0xED, 0xA0, 0x80] ∧
      ¬ valid_utf8 [0xED, 0xA0, 0x80] := by
  refine ⟨by decide, by decide, ?_⟩
  rintro ⟨cps, hc, he⟩
  cases cps with
  | nil => simp at he
  | cons c rest =>
    have hcc := hc c (List.mem_cons_self c rest)
    rw [List.flatMap_cons] at he
    unfold minimal_utf8_encoding at he
    split at he
    · simp at he; omega
    · split at he
      · simp at he; omega
      · split at he
        · simp at he; omega
        · simp at he

/-- C28: after the marker the characters `-001` are read as the value
0xFFFFFFFF, above 0xFFFF, and `my_utf8_encode` takes its 4-byte branch: the
text backslash, `u`, `-001` gives the four bytes FF BF BF BF. -/
theorem encode_signed_token_four_bytes :
    sscanf_4x [0x2D, 0x30, 0x30, 0x31] = some 0xFFFFFFFF ∧
      my_utf8_encode [0x5C, 0x75, 0x2D, 0x30, 0x30, 0x31] =
        Outcome.returned [0xFF, 0xBF, 0xBF, 0xBF] ∧
      (encode_code_point 0xFFFFFFFF OutBuf.empty).before = [0xFF, 0xBF, 0xBF, 0xBF] := by
  decide

/-- C29: `is_overlong_encoding` is false for the 3-byte lead byte E0 with the
value 0x400, whose shortest form has 2 bytes, and for the 4-byte lead byte F0
with the values 0x400 and 0x800, whose shortest forms have 2 and 3 bytes. -/
theorem overlong_not_flagged :
    check_num_bytes 0xE0 = some 3 ∧ (minimal_utf8_encoding 0x400).length = 2 ∧
      is_overlong_encoding 0xE0 0x400 = false ∧
      check_num_bytes 0xF0 = some 4 ∧ (minimal_utf8_encoding 0x800).length = 3 ∧
      is_overlong_encoding 0xF0 0x800 = false ∧ is_overlong_encoding 0xF0 0x400 = false := by
  decide

/-! ## Validator: composition over accepted prefixes -/

/-- One iteration of the validator loop, in terms of what it finds at the head
of the string. -/
theorem check_run_succ (fuel : Nat) (s : List Nat) :
    my_utf8_check_run (fuel + 1) s =
      if peek s 0 = 0 then some (0, 0)
      else
        match check_first_sequence s with
        | Except.error e => some (e, 0)
        | Except.ok n =>
          match my_utf8_check_run fuel (s.drop n) with
          | some (r, steps) => some (r, steps + 1)
          | none => none := by
  simp only [my_utf8_check_run, check_first_sequence]
  by_cases h0 : peek s 0 = 0
  · simp [h0]
  · simp only [h0, if_false]
    by_cases h1 : is_start_byte (peek s 0) = true
    · simp only [h1, if_true]
      cases h2 : check_num_bytes (peek s 0) with
      | none => rfl
      | some n =>
        simp only
        by_cases h3 : (!check_continuation s 1 (n - 1)) = true
        · simp [h3]
        · by_cases h4 : is_overlong_encoding (peek s 0) (check_code_point s 0 n 0) = true
          · simp [h3, h4]
          · by_cases h5 : (!is_valid_code_point (check_code_point s 0 n 0)) = true
            · simp [h3, h4, h5]
            · simp [h3, h4, h5]
    · simp [h1]

theorem check_first_error_ne_zero (s : List Nat) (e : Int)
    (h : check_first_sequence s = Except.error e) : e ≠ 0 := by
  unfold check_first_sequence at h
  split at h
  · split at h
    · cases h; decide
    · split at h
      · cases h; decide
      · split at h
        · cases h; decide
        · split at h
          · cases h; decide
          · cases h
  · cases h; decide

theorem peek_lt_length (s : List Nat) (j : Nat) (h : peek s j ≠ 0) : j < s.length := by
  by_contra hge
  apply h
  unfold peek
  rw [List.getD_eq_getElem?_getD, List.getElem?_eq_none (by omega)]
  rfl

/-- A sequence the validator steps over lies inside the string. -/
theorem check_first_ok_bounds (s : List Nat) (n : Nat) (h0 : peek s 0 ≠ 0)
    (h : check_first_sequence s = Except.ok n) :
    check_num_bytes (peek s 0) = some n ∧ 1 ≤ n ∧ n ≤ s.length := by
  unfold check_first_sequence at h
  split at h
  · split at h
    · cases h
    · rename_i m hnum
      split at h
      · cases h
      · rename_i hcont
        split at h
        · cases h
        · split at h
          · cases h
          · have hmn : m = n := by injection h
            subst hmn
            have hpos := check_num_bytes_pos _ _ hnum
            refine ⟨hnum, hpos, ?_⟩
            have hc : check_continuation s 1 (m - 1) = true := by
              cases hcc : check_continuation s 1 (m - 1) with
              | true => rfl
              | false => simp [hcc] at hcont
            have hall := (check_continuation_iff s (m - 1) 1).1 hc
            by_cases h1 : m = 1
            · have := peek_lt_length s 0 h0
              omega
            · have hlast := hall (m - 1) (by omega) (by omega)
              have := peek_lt_length s (m - 1) (continuation_ne_zero _ hlast)
              omega
  · cases h

theorem check_continuation_congr (s t : List Nat) (k : Nat) :
    ∀ i, (∀ j, i ≤ j → j < i + k → peek s j = peek t j) →
      check_continuation s i k = check_continuation t i k := by
  induction k with
  | zero => intro i _; rfl
  | succ k ih =>
    intro i h
    simp only [check_continuation]
    rw [h i (Nat.le_refl i) (by omega), ih (i + 1) (fun j h1 h2 => h j (by omega) (by omega))]

theorem check_code_point_congr (s t : List Nat) (k : Nat) :
    ∀ i acc, (∀ j, i ≤ j → j < i + k → peek s j = peek t j) →
      check_code_point s i k acc = check_code_point t i k acc := by
  induction k with
  | zero => intro i acc _; rfl
  | succ k ih =>
    intro i acc h
    simp only [check_code_point]
    rw [h i (Nat.le_refl i) (by omega),
      ih (i + 1) _ (fun j h1 h2 => h j (by omega) (by omega))]

/-- What the validator finds at the head of a string depends only on the bytes
of the sequence the lead byte declares. -/
theorem check_first_congr (s t : List Nat) (n : Nat)
    (hnum : check_num_bytes (peek s 0) = some n) (hn : 1 ≤ n)
    (h : ∀ j, j < n → peek s j = peek t j) :
    check_first_sequence s = check_first_sequence t := by
  have h0 : peek t 0 = peek s 0 := (h 0 (by omega)).symm
  unfold check_first_sequence
  rw [h0, hnum]
  simp only
  rw [check_continuation_congr s t (n - 1) 1 (fun j h1 h2 => h j (by omega)),
    check_code_point_congr s t n 0 0 (fun j _ h2 => h j (by omega))]

theorem peek_append_left (p s : List Nat) (j : Nat) (h : j < p.length) :
    peek (p ++ s) j = peek p j := by
  unfold peek
  exact List.getD_append p s 0 j h

theorem check_run_mono (fuel : Nat) :
    ∀ (s : List Nat) (r : Int × Nat), my_utf8_check_run fuel s = some r →
      my_utf8_check_run (fuel + 1) s = some r := by
  induction fuel with
  | zero => intro s r h; simp [my_utf8_check_run] at h
  | succ fuel ih =>
    intro s r h
    rw [check_run_succ] at h ⊢
    by_cases h0 : peek s 0 = 0
    · simpa [h0] using h
    · simp only [h0, if_false] at h ⊢
      cases hf : check_first_sequence s with
      | error e => simpa [hf] using h
      | ok n =>
        simp only [hf] at h ⊢
        cases hr : my_utf8_check_run fuel (s.drop n) with
        | none => simp [hr] at h
        | some q =>
          rw [ih (s.drop n) q hr]
          simpa [hr] using h

theorem check_run_mono_add (fuel k : Nat) (s : List Nat) (r : Int × Nat)
    (h : my_utf8_check_run fuel s = some r) : my_utf8_check_run (fuel + k) s = some r := by
  induction k with
  | zero => exact h
  | succ k ih => exact check_run_mono (fuel + k) s r ih

/-- With one iteration more than the bytes of the string, the validator loop
returns. -/
theorem check_run_total (fuel : Nat) :
    ∀ s : List Nat, s.length + 1 ≤ fuel → ∃ r, my_utf8_check_run fuel s = some r := by
  induction fuel with
  | zero => intro s h; omega
  | succ fuel ih =>
    intro s h
    rw [check_run_succ]
    by_cases h0 : peek s 0 = 0
    · exact ⟨(0, 0), by simp [h0]⟩
    · simp only [h0, if_false]
      cases hf : check_first_sequence s with
      | error e => exact ⟨(e, 0), rfl⟩
      | ok n =>
        have hb := check_first_ok_bounds s n h0 hf
        obtain ⟨q, hq⟩ := ih (s.drop n) (by rw [List.length_drop]; omega)
        exact ⟨(q.1, q.2 + 1), by simp [hq]⟩

/-- After a prefix the validator accepts, the loop goes on as on the rest. -/
theorem check_run_append (fuel : Nat) :
    ∀ (p : List Nat) (k : Nat), (∀ x ∈ p, x ≠ 0) → my_utf8_check_run fuel p = some (0, k) →
      ∀ (s : List Nat) (fuel2 : Nat) (r : Int) (j : Nat),
        my_utf8_check_run fuel2 s = some (r, j) →
        my_utf8_check_run (fuel2 + fuel) (p ++ s) = some (r, j + k) := by
  induction fuel with
  | zero => intro p k _ h; simp [my_utf8_check_run] at h
  | succ fuel ih =>
    intro p k hp h s fuel2 r j hs
    rw [check_run_succ] at h
    by_cases h0 : peek p 0 = 0
    · have hnil : p = [] := by
        cases p with
        | nil => rfl
        | cons c rest => exact absurd h0 (hp c (List.mem_cons_self c rest))
      subst hnil
      have hk : k = 0 := by
        simp only [h0, if_true] at h
        exact (congrArg Prod.snd (Option.some.inj h)).symm
      subst hk
      simpa using check_run_mono_add fuel2 (fuel + 1) s (r, j) hs
    · simp only [h0, if_false] at h
      cases hf : check_first_sequence p with
      | error e =>
        simp only [hf] at h
        have he : e = 0 := congrArg Prod.fst (Option.some.inj h)
        exact absurd he (check_first_error_ne_zero p e hf)
      | ok n =>
        simp only [hf] at h
        have hb := check_first_ok_bounds p n h0 hf
        cases hr : my_utf8_check_run fuel (p.drop n) with
        | none => simp [hr] at h
        | some q =>
          obtain ⟨r1, k1⟩ := q
          simp only [hr] at h
          have hr1 : r1 = 0 := congrArg Prod.fst (Option.some.inj h)
          have hk1 : k1 + 1 = k := congrArg Prod.snd (Option.some.inj h)
          subst hr1
          have hrec := ih (p.drop n) k1 (fun x hx => hp x (List.mem_of_mem_drop hx)) hr s fuel2
            r j hs
          have hpeek : ∀ i, i < n → peek p i = peek (p ++ s) i :=
            fun i hi => (peek_append_left p s i (by omega)).symm
          have hfs : check_first_sequence (p ++ s) = Except.ok n := by
            rw [← check_first_congr p (p ++ s) n hb.1 hb.2.1 hpeek]
            exact hf
          have h0s : peek (p ++ s) 0 ≠ 0 := by
            rw [← hpeek 0 (by omega)]
            exact h0
          have hdrop : (p ++ s).drop n = p.drop n ++ s := List.drop_append_of_le_length hb.2.2
          have hfuel : fuel2 + (fuel + 1) = (fuel2 + fuel) + 1 := by omega
          rw [hfuel, check_run_succ]
          simp only [h0s, if_false, hfs, hdrop, hrec]
          congr 2
          omega

/-- C30: for every buffer `p` on which `my_utf8_check` returns 0 and every buffer
`s`, `my_utf8_check(p ++ s) = my_utf8_check(s)`: validation goes on after an
accepted prefix exactly as on the rest alone. -/
theorem check_append_valid (p s : List Nat) (hp : ∀ x ∈ p, x ≠ 0)
    (h : my_utf8_check p = some 0) : my_utf8_check (p ++ s) = my_utf8_check s := by
  unfold my_utf8_check at h ⊢
  cases hrp : my_utf8_check_run (p.length + 1) p with
  | none => simp [hrp] at h
  | some q =>
    obtain ⟨r0, k⟩ := q
    have hr0 : r0 = 0 := by simpa [hrp] using h
    subst hr0
    obtain ⟨⟨r, j⟩, hrs⟩ := check_run_total (s.length + 1) s (Nat.le_refl _)
    obtain ⟨q2, hrps⟩ := check_run_total ((p ++ s).length + 1) (p ++ s) (Nat.le_refl _)
    have h1 := check_run_append (p.length + 1) p k hp hrp s (s.length + 1) r j hrs
    have h2 := check_run_mono_add ((p ++ s).length + 1) 1 (p ++ s) q2 hrps
    have hfuel : (p ++ s).length + 1 + 1 = s.length + 1 + (p.length + 1) := by
      rw [List.length_append]; omega
    rw [hfuel, h1] at h2
    have hq2 : q2 = (r, j + k) := (Option.some.inj h2).symm
    rw [hrps, hrs, hq2]
    rfl

theorem check_append_valid_witness :
    my_utf8_check ([0x41, 0xC3, 0xA9] ++ [0x42, 0xFF]) = my_utf8_check [0x42, 0xFF] ∧
      my_utf8_check [0x42, 0xFF] = some (-1) ∧
      my_utf8_check ([0x41, 0xC3, 0xA9] ++ [0x42]) = my_utf8_check [0x42] :=
  ⟨check_append_valid [0x41, 0xC3, 0xA9] [0x42, 0xFF] (by decide) (by decide), by decide,
   check_append_valid [0x41, 0xC3, 0xA9] [0x42] (by decide) (by decide)⟩

/-! ## Escape decoder: tokens with fewer than four digits -/

theorem sscanf_short_digits (ds : List Nat) (c : Nat) (tail : List Nat)
    (hk : 1 ≤ ds.length ∧ ds.length ≤ 3) (hds : ∀ d ∈ ds, (hex_value d).isSome = true)
    (hc : hex_value c = none) (hx : ¬ (ds = [0x30] ∧ (c = 0x78 ∨ c = 0x58))) :
    sscanf_4x (ds ++ c :: tail) = some (hex_digits_value ds) := by
  rcases ds with _ | ⟨d1, _ | ⟨d2, _ | ⟨d3, _ | ⟨d4, t⟩⟩⟩⟩
  · simp at hk
  · obtain ⟨v1, h1⟩ := Option.isSome_iff_exists.1 (hds d1 (by simp))
    obtain ⟨a1, -, a3, a4, -, -, -⟩ := hex_value_facts d1 v1 h1
    have hx2 : ¬ (d1 = 0x30 ∧ (c = 0x78 ∨ c = 0x58)) := by
      intro h
      exact hx ⟨by rw [h.1], h.2⟩
    simp [sscanf_4x, List.dropWhile, a1, peek, a3, a4, scan_hex, h1, hc, hex_digits_value, hx2]
  · obtain ⟨v1, h1⟩ := Option.isSome_iff_exists.1 (hds d1 (by simp))
    obtain ⟨v2, h2⟩ := Option.isSome_iff_exists.1 (hds d2 (by simp))
    obtain ⟨a1, -, a3, a4, -, -, -⟩ := hex_value_facts d1 v1 h1
    obtain ⟨-, -, -, -, b5, b6, -⟩ := hex_value_facts d2 v2 h2
    simp [sscanf_4x, List.dropWhile, a1, peek, a3, a4, b5, b6, scan_hex, h1, h2, hc,
      hex_digits_value]
  · obtain ⟨v1, h1⟩ := Option.isSome_iff_exists.1 (hds d1 (by simp))
    obtain ⟨v2, h2⟩ := Option.isSome_iff_exists.1 (hds d2 (by simp))
    obtain ⟨v3, h3⟩ := Option.isSome_iff_exists.1 (hds d3 (by simp))
    obtain ⟨a1, -, a3, a4, -, -, -⟩ := hex_value_facts d1 v1 h1
    obtain ⟨-, -, -, -, b5, b6, -⟩ := hex_value_facts d2 v2 h2
    simp [sscanf_4x, List.dropWhile, a1, peek, a3, a4, b5, b6, scan_hex, h1, h2, h3, hc,
      hex_digits_value]
  · simp at hk

/-- A marker followed by one, two or three hexadecimal digits and a character
that is not one, other than `0x` and `0X`: the value of the digits is encoded
and the scan resumes six characters after the backslash. -/
theorem encode_step_short_token (fuel : Nat) (ds : List Nat) (c : Nat) (rest : List Nat)
    (o : OutBuf) (hk : 1 ≤ ds.length ∧ ds.length ≤ 3)
    (hds : ∀ d ∈ ds, (hex_value d).isSome = true) (hc : hex_value c = none) (hc0 : c ≠ 0)
    (hlen : 4 ≤ (ds ++ c :: rest).length)
    (hx : ¬ (ds = [0x30] ∧ (c = 0x78 ∨ c = 0x58))) :
    my_utf8_encode_run (fuel + 1) (0x5C :: 0x75 :: (ds ++ c :: rest)) o =
      my_utf8_encode_run fuel ((ds ++ c :: rest).drop 4)
        (encode_code_point (hex_digits_value ds) o) := by
  have hnz : ∀ d ∈ ds, (fun b => b != 0) d = true := by
    intro d hd
    obtain ⟨v, hv⟩ := Option.isSome_iff_exists.1 (hds d hd)
    simpa using (hex_value_facts d v hv).2.1
  have hc1 : (c != 0) = true := by simpa using hc0
  have htw : (ds ++ c :: rest).takeWhile (fun b => b != 0) =
      ds ++ c :: rest.takeWhile (fun b => b != 0) := by
    have hcons : (c :: rest).takeWhile (fun b => b != 0) =
        c :: rest.takeWhile (fun b => b != 0) := List.takeWhile_cons_of_pos hc1
    rw [List.takeWhile_append_of_pos hnz, hcons]
  have hs := sscanf_short_digits ds c (rest.takeWhile (fun b => b != 0)) hk hds hc hx
  have hl : ¬ ((0x5C :: 0x75 :: (ds ++ c :: rest)).length < 6) := by
    simp only [List.length_cons] at hlen ⊢
    omega
  simp only [my_utf8_encode_run, peek_cons_zero, peek_cons_succ]
  simp only [List.drop_succ_cons, List.drop_zero, htw, hs, Option.getD_some, hl, if_false]
  simp

/-- C31: after the marker, the digit `0` followed by `x` and `41` is read by
`%4x` as the value 0x41, not as the value 0 of its single digit: the text
backslash, `u`, `0x41` gives the byte `A`, so the characters after the digit do
reach the output.  With other characters after the digits the value of the
digits is encoded: backslash, `u`, `41zz`, `A` gives `AA`. -/
theorem encode_short_token_hex_marker :
    sscanf_4x [0x30, 0x78, 0x34, 0x31] = some 0x41 ∧
      hex_digits_value [0x30] = 0 ∧ hex_value 0x78 = none ∧ is_space 0x78 = false ∧
      my_utf8_encode [0x5C, 0x75, 0x30, 0x78, 0x34, 0x31] = Outcome.returned [0x41] ∧
      my_utf8_encode [0x5C, 0x75, 0x30, 0x7A, 0x34, 0x31] = Outcome.returned [] ∧
      my_utf8_encode [0x5C, 0x75, 0x34, 0x31, 0x7A, 0x7A, 0x41] =
        Outcome.returned [0x41, 0x41] := by decide

/-! ## Decoder: what every piece contributes -/

theorem format_04X_five (v : Nat) (h1 : 0xFFFF < v) (h2 : v ≤ 0xFFFFF) :
    format_04X v = [hex_char_upper (v / 65536 % 16), hex_char_upper (v / 4096 % 16),
      hex_char_upper (v / 256 % 16), hex_char_upper (v / 16 % 16), hex_char_upper (v % 16)] := by
  unfold format_04X
  have a1 : ¬ v < 16 := by omega
  have a2 : ¬ v / 16 < 16 := by omega
  have a3 : ¬ v / 16 / 16 < 16 := by omega
  have a4 : ¬ v / 16 / 16 / 16 < 16 := by omega
  have a5 : v / 16 / 16 / 16 / 16 < 16 := by omega
  have e1 : v / 65536 % 16 = v / 16 / 16 / 16 / 16 := by omega
  have e2 : v / 4096 % 16 = v / 16 / 16 / 16 % 16 := by omega
  have e3 : v / 256 % 16 = v / 16 / 16 % 16 := by omega
  simp [hex_digits, a1, a2, a3, a4, a5, e1, e2, e3, List.replicate]

theorem format_04X_six (v : Nat) (h1 : 0xFFFFF < v) (h2 : v ≤ 0xFFFFFF) :
    format_04X v = [hex_char_upper (v / 1048576 % 16), hex_char_upper (v / 65536 % 16),
      hex_char_upper (v / 4096 % 16), hex_char_upper (v / 256 % 16),
      hex_char_upper (v / 16 % 16), hex_char_upper (v % 16)] := by
  unfold format_04X
  have a1 : ¬ v < 16 := by omega
  have a2 : ¬ v / 16 < 16 := by omega
  have a3 : ¬ v / 16 / 16 < 16 := by omega
  have a4 : ¬ v / 16 / 16 / 16 < 16 := by omega
  have a5 : ¬ v / 16 / 16 / 16 / 16 < 16 := by omega
  have a6 : v / 16 / 16 / 16 / 16 / 16 < 16 := by omega
  have e0 : v / 1048576 % 16 = v / 16 / 16 / 16 / 16 / 16 := by omega
  have e1 : v / 65536 % 16 = v / 16 / 16 / 16 / 16 % 16 := by omega
  have e2 : v / 4096 % 16 = v / 16 / 16 / 16 % 16 := by omega
  have e3 : v / 256 % 16 = v / 16 / 16 % 16 := by omega
  simp [hex_digits, a1, a2, a3, a4, a5, a6, e0, e1, e2, e3, List.replicate]

/-- After `appendUnicodeEscape` the bytes below the output pointer end with
backslash, `u` and the four most significant digits of the value. -/
theorem appendUnicodeEscape_before (v : Nat) (hv : v ≤ 0xFFFFFF) (o : OutBuf) :
    (appendUnicodeEscape v o).before = o.before ++ escape_token (top_four_hex v) := by
  by_cases h1 : v ≤ 0xFFFF
  · rw [appendUnicodeEscape_bmp v h1]
    simp [top_four_hex, h1]
  · by_cases h2 : v ≤ 0xFFFFF
    · have e1 : v / 16 / 4096 % 16 = v / 65536 % 16 := by omega
      have e2 : v / 16 / 256 % 16 = v / 4096 % 16 := by omega
      have e3 : v / 16 / 16 % 16 = v / 256 % 16 := by omega
      simp [appendUnicodeEscape, OutBuf.store, OutBuf.advance, format_04X_five v (by omega) h2,
        escape_token, top_four_hex, h1, h2, e1, e2, e3]
    · have e1 : v / 256 / 4096 % 16 = v / 1048576 % 16 := by omega
      have e2 : v / 256 / 256 % 16 = v / 65536 % 16 := by omega
      have e3 : v / 256 / 16 % 16 = v / 4096 % 16 := by omega
      have e4 : v / 256 % 16 = v / 256 % 16 := rfl
      simp [appendUnicodeEscape, OutBuf.store, OutBuf.advance, format_04X_six v (by omega) hv,
        escape_token, top_four_hex, h1, h2, e1, e2, e3]

theorem masked_shift_lt (x m k n : Nat) (hm : (m + 1) * 2 ^ k ≤ 2 ^ n) :
    (x &&& m) <<< k < 2 ^ n := by
  rw [Nat.shiftLeft_eq]
  have h1 : x &&& m ≤ m := Nat.and_le_right
  have h2 : (x &&& m) * 2 ^ k ≤ m * 2 ^ k := Nat.mul_le_mul_right _ h1
  have h3 : m * 2 ^ k < (m + 1) * 2 ^ k :=
    Nat.mul_lt_mul_of_pos_right (Nat.lt_succ_self m) (Nat.two_pow_pos k)
  omega

theorem masked_lt (x m n : Nat) (hm : m < 2 ^ n) : x &&& m < 2 ^ n :=
  Nat.lt_of_le_of_lt Nat.and_le_right hm

/-- The value reconstructed from any piece is below `2^21`. -/
theorem decode_chunk_value_lt (ch : List Nat) : decode_chunk_value ch < 2 ^ 21 := by
  rcases ch with _ | ⟨x, _ | ⟨a, _ | ⟨b, _ | ⟨c, _ | ⟨d, t⟩⟩⟩⟩⟩
  · simp [decode_chunk_value]
  · simp [decode_chunk_value]
  · exact Nat.or_lt_two_pow (masked_shift_lt x 0x1F 6 21 (by decide))
      (masked_lt a 0x3F 21 (by decide))
  · exact Nat.or_lt_two_pow
      (Nat.or_lt_two_pow (masked_shift_lt x 0x0F 12 21 (by decide))
        (masked_shift_lt a 0x3F 6 21 (by decide)))
      (masked_lt b 0x3F 21 (by decide))
  · exact Nat.or_lt_two_pow
      (Nat.or_lt_two_pow
        (Nat.or_lt_two_pow (masked_shift_lt x 0x07 18 21 (by decide))
          (masked_shift_lt a 0x3F 12 21 (by decide)))
        (masked_shift_lt b 0x3F 6 21 (by decide)))
      (masked_lt c 0x3F 21 (by decide))
  · simp [decode_chunk_value]

/-- One piece of the buffer is stepped over and its contribution is appended
below the output pointer. -/
theorem decode_step_chunk (fuel : Nat) (ch rest : List Nat) (o : OutBuf)
    (h : decode_chunk ch = true) :
    ∃ o1, my_utf8_decode_run (fuel + 1) (ch ++ rest) o = my_utf8_decode_run fuel rest o1 ∧
      o1.before = o.before ++ decode_chunk_output ch := by
  have hv := decode_chunk_value_lt ch
  have hv2 : decode_chunk_value ch ≤ 0xFFFFFF := by
    have : (2 : Nat) ^ 21 = 2097152 := by decide
    omega
  rcases ch with _ | ⟨x, _ | ⟨a, _ | ⟨b, _ | ⟨c, _ | ⟨d, t⟩⟩⟩⟩⟩
  · simp [decode_chunk] at h
  · simp only [decode_chunk, Bool.or_eq_true, Bool.and_eq_true, decide_eq_true_eq] at h
    exact ⟨o.put x, decode_step_copy fuel x rest o h, by simp [put_eq, decode_chunk_output]⟩
  · simp only [decode_chunk, Bool.and_eq_true, decide_eq_true_eq] at h
    exact ⟨_, decode_step_lead2 fuel x a rest o ⟨h.1.1.1, h.1.1.2⟩,
      appendUnicodeEscape_before _ hv2 o⟩
  · simp only [decode_chunk, Bool.and_eq_true, decide_eq_true_eq] at h
    exact ⟨_, decode_step_lead3 fuel x a b rest o ⟨h.1.1.1.1.1, h.1.1.1.1.2⟩,
      appendUnicodeEscape_before _ hv2 o⟩
  · simp only [decode_chunk, Bool.and_eq_true, decide_eq_true_eq] at h
    exact ⟨_, decode_step_lead4 fuel x a b c rest o ⟨h.1.1.1.1.1.1.1, h.1.1.1.1.1.1.2⟩,
      appendUnicodeEscape_before _ hv2 o⟩
  · simp [decode_chunk] at h

theorem decode_chunk_length_pos (ch : List Nat) (h : decode_chunk ch = true) :
    1 ≤ ch.length := by
  cases ch with
  | nil => simp [decode_chunk] at h
  | cons x t => simp

theorem decode_chunk_output_ne_zero (ch : List Nat) (h : decode_chunk ch = true) :
    ∀ y ∈ decode_chunk_output ch, y ≠ 0 := by
  rcases ch with _ | ⟨x, _ | ⟨a, _ | ⟨b, _ | ⟨c, _ | ⟨d, t⟩⟩⟩⟩⟩
  · simp [decode_chunk] at h
  · simp only [decode_chunk, Bool.or_eq_true, Bool.and_eq_true, decide_eq_true_eq] at h
    intro y hy
    simp only [decode_chunk_output, List.mem_singleton] at hy
    omega
  · exact escape_token_ne_zero _
  · exact escape_token_ne_zero _
  · exact escape_token_ne_zero _
  · simp [decode_chunk] at h

/-- On a buffer made of pieces the decoder can step over, the loop returns with
the contributions of the pieces below the output pointer, in order. -/
theorem decode_run_chunk_outputs (chunks : List (List Nat))
    (h : ∀ ch ∈ chunks, decode_chunk ch = true) :
    ∀ fuel o, chunks.flatten.length + 1 ≤ fuel →
      ∃ o2, my_utf8_decode_run fuel chunks.flatten o = Outcome.returned o2 ∧
        o2.before = o.before ++ chunks.flatMap decode_chunk_output := by
  induction chunks with
  | nil =>
    intro fuel o hf
    obtain ⟨f, rfl⟩ : ∃ f, fuel = f + 1 := ⟨fuel - 1, by omega⟩
    exact ⟨o, by simp [my_utf8_decode_run, peek], by simp⟩
  | cons ch chunks ih =>
    intro fuel o hf
    obtain ⟨f, rfl⟩ : ∃ f, fuel = f + 1 := ⟨fuel - 1, by omega⟩
    have hch := h ch (List.mem_cons_self ch chunks)
    rw [List.flatten_cons] at hf ⊢
    rw [List.length_append] at hf
    have hlen := decode_chunk_length_pos ch hch
    obtain ⟨o1, hstep, hb1⟩ := decode_step_chunk f ch chunks.flatten o hch
    obtain ⟨o2, hr, hb2⟩ := ih (fun y hy => h y (List.mem_cons_of_mem ch hy)) f o1 (by omega)
    refine ⟨o2, by rw [hstep, hr], ?_⟩
    rw [hb2, hb1]
    simp

/-- The final output of `my_utf8_decode` on a buffer made of pieces it can step
over is the concatenation of what the pieces contribute. -/
theorem decode_chunk_outputs (chunks : List (List Nat))
    (h : ∀ ch ∈ chunks, decode_chunk ch = true) :
    my_utf8_decode chunks.flatten =
      Outcome.returned (0, chunks.flatMap decode_chunk_output) := by
  obtain ⟨o2, hr, hb⟩ := decode_run_chunk_outputs chunks h _ OutBuf.empty (Nat.le_refl _)
  have hb2 : o2.before = chunks.flatMap decode_chunk_output := by
    simpa [OutBuf.empty] using hb
  have hnz : ∀ y ∈ o2.before, y ≠ 0 := by
    intro y hy
    rw [hb2] at hy
    obtain ⟨ch, hch, hych⟩ := List.mem_flatMap.1 hy
    exact decode_chunk_output_ne_zero ch (h ch hch) y hych
  unfold my_utf8_decode
  rw [hr]
  simp only [Outcome.map]
  rw [finish_eq o2 hnz, hb2]

/-- C32: in a buffer made of pieces the decoder can step over, a 4-byte piece
(lead byte 0xF0..0xF7 and three bytes) whose reconstructed value `v` exceeds
0xFFFF contributes to the final output of `my_utf8_decode` exactly six
characters, between what the pieces before it and after it contribute:
backslash, `u` and the four most significant upper-case hexadecimal digits of
`v`; the lower digits that `sprintf` stored are not in the output. -/
theorem decode_four_byte_keeps_four_digits (before after : List (List Nat)) (l a b c : Nat)
    (hb : ∀ ch ∈ before, decode_chunk ch = true) (ha : ∀ ch ∈ after, decode_chunk ch = true)
    (hch : decode_chunk [l, a, b, c] = true)
    (hv : 0xFFFF < decode_chunk_value [l, a, b, c]) :
    my_utf8_decode (before ++ [[l, a, b, c]] ++ after).flatten =
      Outcome.returned (0,
        before.flatMap decode_chunk_output ++
          [0x5C, 0x75,
            hex_char_upper (top_four_hex (decode_chunk_value [l, a, b, c]) / 4096 % 16),
            hex_char_upper (top_four_hex (decode_chunk_value [l, a, b, c]) / 256 % 16),
            hex_char_upper (top_four_hex (decode_chunk_value [l, a, b, c]) / 16 % 16),
            hex_char_upper (top_four_hex (decode_chunk_value [l, a, b, c]) % 16)] ++
          after.flatMap decode_chunk_output) ∧
      top_four_hex (decode_chunk_value [l, a, b, c]) =
        (if decode_chunk_value [l, a, b, c] ≤ 0xFFFFF then decode_chunk_value [l, a, b, c] / 16
          else decode_chunk_value [l, a, b, c] / 256) := by
  have hall : ∀ ch ∈ before ++ [[l, a, b, c]] ++ after, decode_chunk ch = true := by
    intro ch hmem
    simp only [List.mem_append, List.mem_singleton] at hmem
    rcases hmem with (h1 | h1) | h1
    · exact hb ch h1
    · rw [h1]; exact hch
    · exact ha ch h1
  refine ⟨?_, ?_⟩
  · rw [decode_chunk_outputs _ hall]
    simp [List.flatMap_append, decode_chunk_output, escape_token]
  · have hn : ¬ decode_chunk_value [l, a, b, c] ≤ 0xFFFF := by omega
    simp [top_four_hex, hn]

theorem decode_four_byte_keeps_four_digits_witness :
    my_utf8_decode ([[0x41]] ++ [[0xF0, 0x9F, 0x98, 0x8A]] ++ [[0x42]]).flatten =
        Outcome.returned (0, [0x41, 0x5C, 0x75, 0x31, 0x46, 0x36, 0x30, 0x42]) ∧
      decode_chunk_value [0xF0, 0x9F, 0x98, 0x8A] = 0x1F60A ∧
      my_utf8_decode ([] ++ [[0xF4, 0x8F, 0xBF, 0xBF]] ++ []).flatten =
        Outcome.returned (0, [0x5C, 0x75, 0x31, 0x30, 0x46, 0x46]) :=
  ⟨(decode_four_byte_keeps_four_digits [[0x41]] [[0x42]] 0xF0 0x9F 0x98 0x8A (by decide)
      (by decide) (by decide) (by decide)).1.trans (by decide),
   by decide,
   (decode_four_byte_keeps_four_digits [] [] 0xF4 0x8F 0xBF 0xBF (by decide) (by decide)
      (by decide) (by decide)).1.trans (by decide)⟩

/-! ## Validator: what it reconstructs from 3- and 4-byte sequences -/

set_option maxRecDepth 100000 in
theorem byte_lead_masked :
    ∀ l < 256, 0xE0 ≤ l → l ≤ 0xF7 → ((0 <<< 6) ||| (l &&& 0x3F)) = l - 0xC0 := by decide

/-- The value the validator reconstructs from a sequence of three bytes. -/
theorem check_value_three (l a b : Nat) (rest : List Nat) (hl : 0xE0 ≤ l ∧ l ≤ 0xEF) :
    check_code_point (l :: a :: b :: rest) 0 3 0 = ((l - 0xC0) * 64 + a % 64) * 64 + b % 64 := by
  simp only [check_code_point, peek_cons_zero, peek_cons_succ]
  rw [byte_lead_masked l (by omega) hl.1 (by omega), and_3F, and_3F,
    shl_or _ _ 6 (by omega), shl_or _ _ 6 (by omega)]
  norm_num

/-- The value the validator reconstructs from a sequence of four bytes. -/
theorem check_value_four (l a b c : Nat) (rest : List Nat) (hl : 0xF0 ≤ l ∧ l ≤ 0xF7) :
    check_code_point (l :: a :: b :: c :: rest) 0 4 0 =
      (((l - 0xC0) * 64 + a % 64) * 64 + b % 64) * 64 + c % 64 := by
  simp only [check_code_point, peek_cons_zero, peek_cons_succ]
  rw [byte_lead_masked l (by omega) (by omega) hl.2, and_3F, and_3F, and_3F,
    shl_or _ _ 6 (by omega), shl_or _ _ 6 (by omega), shl_or _ _ 6 (by omega)]
  norm_num

theorem overlong_false_above (byte cp : Nat) (h : 0xFFFF < cp) :
    is_overlong_encoding byte cp = false := by
  unfold is_overlong_encoding
  rw [if_neg (by omega), if_neg (by omega), if_neg (by omega)]
  have : decide (cp ≤ 0xFFFF) = false := by simp; omega
  simp [this]

/-- A lead byte in 0xE0..0xEF with two continuation bytes is stepped over. -/
theorem check_first_three (l a b : Nat) (rest : List Nat) (hl : 0xE0 ≤ l ∧ l ≤ 0xEF)
    (ha : 0x80 ≤ a ∧ a ≤ 0xBF) (hb : 0x80 ≤ b ∧ b ≤ 0xBF) :
    check_first_sequence (l :: a :: b :: rest) = Except.ok 3 := by
  have hstart : is_start_byte l = true := (byte_start_iff l (by omega)).2 (by omega)
  have hnum : check_num_bytes l = some 3 := (byte_num_bytes l (by omega)).2.2.1 hl
  have hca : is_continuation_byte a = true := (byte_continuation_iff a (by omega)).2 ha
  have hcb : is_continuation_byte b = true := (byte_continuation_iff b (by omega)).2 hb
  have hval := check_value_three l a b rest hl
  have hov : is_overlong_encoding l (check_code_point (l :: a :: b :: rest) 0 3 0) = false :=
    overlong_false_above _ _ (by rw [hval]; omega)
  have hvalid : is_valid_code_point (check_code_point (l :: a :: b :: rest) 0 3 0) = true := by
    rw [hval]
    unfold is_valid_code_point is_surrogate
    have h1 : decide (((l - 0xC0) * 64 + a % 64) * 64 + b % 64 ≤ 0xDFFF) = false := by
      simp; omega
    have h2 : decide (((l - 0xC0) * 64 + a % 64) * 64 + b % 64 ≤ 0x10FFFF) = true := by
      simp; omega
    simp [h1, h2]
  simp [check_first_sequence, peek_cons_zero, hstart, hnum, check_continuation, peek_cons_succ,
    hca, hcb, hov, hvalid]

/-- A lead byte in 0xF0..0xF7 with three continuation bytes is reported as an
invalid code point. -/
theorem check_first_four (l a b c : Nat) (rest : List Nat) (hl : 0xF0 ≤ l ∧ l ≤ 0xF7)
    (ha : 0x80 ≤ a ∧ a ≤ 0xBF) (hb : 0x80 ≤ b ∧ b ≤ 0xBF) (hc : 0x80 ≤ c ∧ c ≤ 0xBF) :
    check_first_sequence (l :: a :: b :: c :: rest) = Except.error (-4) := by
  have hstart : is_start_byte l = true := (byte_start_iff l (by omega)).2 (by omega)
  have hnum : check_num_bytes l = some 4 := (byte_num_bytes l (by omega)).2.2.2.1 hl
  have hca : is_continuation_byte a = true := (byte_continuation_iff a (by omega)).2 ha
  have hcb : is_continuation_byte b = true := (byte_continuation_iff b (by omega)).2 hb
  have hcc : is_continuation_byte c = true := (byte_continuation_iff c (by omega)).2 hc
  have hval := check_value_four l a b c rest hl
  have hov : is_overlong_encoding l (check_code_point (l :: a :: b :: c :: rest) 0 4 0) =
      false := overlong_false_above _ _ (by rw [hval]; omega)
  have hvalid : is_valid_code_point (check_code_point (l :: a :: b :: c :: rest) 0 4 0) =
      false := by
    rw [hval]
    unfold is_valid_code_point
    have h2 : decide ((((l - 0xC0) * 64 + a % 64) * 64 + b % 64) * 64 + c % 64 ≤ 0x10FFFF) =
        false := by
      simp; omega
    simp [h2]
  simp [check_first_sequence, peek_cons_zero, hstart, hnum, check_continuation, peek_cons_succ,
    hca, hcb, hcc, hov, hvalid]

theorem check_four_byte_rejected (l a b c : Nat) (rest : List Nat) (hl : 0xF0 ≤ l ∧ l ≤ 0xF7)
    (ha : 0x80 ≤ a ∧ a ≤ 0xBF) (hb : 0x80 ≤ b ∧ b ≤ 0xBF) (hc : 0x80 ≤ c ∧ c ≤ 0xBF) :
    my_utf8_check (l :: a :: b :: c :: rest) = some (-4) := by
  have h0 : ¬ l = 0 := by omega
  unfold my_utf8_check
  rw [check_run_succ]
  simp [peek_cons_zero, h0, check_first_four l a b c rest hl ha hb hc]

/-- C33: for every lead byte in 0xE0..0xEF followed by two continuation bytes,
`my_utf8_check` returns 0 on the sequence as the whole buffer, the value it
reconstructs lying in [0x20000, 0x2FFFF]; so it does on the overlong form
E0 80 80 and on ED A0 80, which encodes a surrogate. -/
theorem check_three_byte_accepted (l a b : Nat) (hl : 0xE0 ≤ l ∧ l ≤ 0xEF)
    (ha : 0x80 ≤ a ∧ a ≤ 0xBF) (hb : 0x80 ≤ b ∧ b ≤ 0xBF) :
    my_utf8_check [l, a, b] = some 0 ∧
      0x20000 ≤ check_code_point [l, a, b] 0 3 0 ∧ check_code_point [l, a, b] 0 3 0 ≤ 0x2FFFF := by
  have h0 : ¬ l = 0 := by omega
  have hval := check_value_three l a b [] hl
  refine ⟨?_, by rw [hval]; omega, by rw [hval]; omega⟩
  unfold my_utf8_check
  rw [check_run_succ]
  simp [peek_cons_zero, h0, check_first_three l a b [] hl ha hb, my_utf8_check_run, peek]

theorem check_three_byte_accepted_witness :
    (my_utf8_check [0xE0, 0x80, 0x80] = some 0 ∧
        0x20000 ≤ check_code_point [0xE0, 0x80, 0x80] 0 3 0 ∧
        check_code_point [0xE0, 0x80, 0x80] 0 3 0 ≤ 0x2FFFF) ∧
      (my_utf8_check [0xED, 0xA0, 0x80] = some 0 ∧
        0x20000 ≤ check_code_point [0xED, 0xA0, 0x80] 0 3 0 ∧
        check_code_point [0xED, 0xA0, 0x80] 0 3 0 ≤ 0x2FFFF) :=
  ⟨check_three_byte_accepted 0xE0 0x80 0x80 (by decide) (by decide) (by decide),
   check_three_byte_accepted 0xED 0xA0 0x80 (by decide) (by decide) (by decide)⟩

/-- C34: on every buffer that starts with a lead byte in 0xF0..0xF7 followed by
three continuation bytes `my_utf8_check` returns -4, the value it reconstructs
being at least 0xC00000; in particular on the shortest-form encoding of every
code point in 0x10000..0x10FFFF. -/
theorem check_four_byte_invalid :
    (∀ (l a b c : Nat) (rest : List Nat), 0xF0 ≤ l ∧ l ≤ 0xF7 → 0x80 ≤ a ∧ a ≤ 0xBF →
        0x80 ≤ b ∧ b ≤ 0xBF → 0x80 ≤ c ∧ c ≤ 0xBF →
        my_utf8_check (l :: a :: b :: c :: rest) = some (-4) ∧
          0xC00000 ≤ check_code_point (l :: a :: b :: c :: rest) 0 4 0) ∧
      (∀ cp, 0x10000 ≤ cp ∧ cp ≤ 0x10FFFF →
        my_utf8_check (minimal_utf8_encoding cp) = some (-4)) := by
  constructor
  · intro l a b c rest hl ha hb hc
    refine ⟨check_four_byte_rejected l a b c rest hl ha hb hc, ?_⟩
    rw [check_value_four l a b c rest hl]
    omega
  · intro cp hcp
    have e : minimal_utf8_encoding cp =
        [0xF0 + cp / 262144, 0x80 + cp / 4096 % 64, 0x80 + cp / 64 % 64, 0x80 + cp % 64] := by
      unfold minimal_utf8_encoding
      rw [if_neg (by omega), if_neg (by omega), if_neg (by omega)]
    rw [e]
    exact check_four_byte_rejected _ _ _ _ [] (by omega) (by omega) (by omega) (by omega)

theorem check_four_byte_invalid_witness :
    (my_utf8_check (0xF0 :: 0x90 :: 0x80 :: 0x80 :: [0x41]) = some (-4) ∧
        0xC00000 ≤ check_code_point (0xF0 :: 0x90 :: 0x80 :: 0x80 :: [0x41]) 0 4 0) ∧
      my_utf8_check (minimal_utf8_encoding 0x1F60A) = some (-4) :=
  ⟨check_four_byte_invalid.1 0xF0 0x90 0x80 0x80 [0x41] (by decide) (by decide) (by decide)
      (by decide),
   check_four_byte_invalid.2 0x1F60A (by decide)⟩

/-! ## Comparison: no progress -/

/-- C35 (as amended): when both calls of `my_utf8_decode` of an iteration
return, the byte counts they give are 0, so an iteration on two strings that
are not empty either returns the difference of the two `code_point` values or
goes on with both strings unchanged; hence the function either returns during
the first iteration or never terminates. -/
theorem strcmp_no_progress (word : List Nat → Nat) (a b : List Nat) (bytes1 bytes2 : Int)
    (cp1 cp2 : Nat) (ha : peek a 0 ≠ 0) (hb : peek b 0 ≠ 0)
    (h1 : decode_into_code_point word a = Outcome.returned (bytes1, cp1))
    (h2 : decode_into_code_point word b = Outcome.returned (bytes2, cp2)) :
    bytes1 = 0 ∧ bytes2 = 0 ∧
      (∀ fuel, my_utf8_strcmp_run word (fuel + 1) a b =
        if cp1 ≠ cp2 then
          Outcome.returned (int_of_unsigned ((cp1 + 2 ^ 32 - cp2) % 2 ^ 32))
        else my_utf8_strcmp_run word fuel a b) ∧
      ((∃ r, ∀ fuel, my_utf8_strcmp_run word (fuel + 1) a b = Outcome.returned r) ∨
        (∀ fuel, my_utf8_strcmp_run word fuel a b = Outcome.out_of_fuel)) := by
  have hstep : ∀ fuel, my_utf8_strcmp_run word (fuel + 1) a b =
      if cp1 ≠ cp2 then
        Outcome.returned (int_of_unsigned ((cp1 + 2 ^ 32 - cp2) % 2 ^ 32))
      else my_utf8_strcmp_run word fuel a b := by
    intro fuel
    rw [strcmp_run_step word fuel a b ha hb, h1, h2]
  refine ⟨decode_into_code_point_bytes word a bytes1 cp1 h1,
    decode_into_code_point_bytes word b bytes2 cp2 h2, hstep, ?_⟩
  by_cases hcp : cp1 = cp2
  · right
    intro fuel
    induction fuel with
    | zero => rfl
    | succ fuel ih => rw [hstep fuel]; simp [hcp, ih]
  · left
    exact ⟨int_of_unsigned ((cp1 + 2 ^ 32 - cp2) % 2 ^ 32),
      fun fuel => by rw [hstep fuel, if_pos hcp]⟩

theorem strcmp_no_progress_witness :
    (0 : Int) = 0 ∧ (0 : Int) = 0 ∧
      (∀ fuel, my_utf8_strcmp_run little_endian (fuel + 1) [0x41] [0x42] =
        if little_endian [0x41, 0, 0, 0] ≠ little_endian [0x42, 0, 0, 0] then
          Outcome.returned (int_of_unsigned
            ((little_endian [0x41, 0, 0, 0] + 2 ^ 32 - little_endian [0x42, 0, 0, 0]) % 2 ^ 32))
        else my_utf8_strcmp_run little_endian fuel [0x41] [0x42]) ∧
      ((∃ r, ∀ fuel, my_utf8_strcmp_run little_endian (fuel + 1) [0x41] [0x42] =
          Outcome.returned r) ∨
        (∀ fuel, my_utf8_strcmp_run little_endian fuel [0x41] [0x42] = Outcome.out_of_fuel)) :=
  strcmp_no_progress little_endian [0x41] [0x42] 0 0 (little_endian [0x41, 0, 0, 0])
    (little_endian [0x42, 0, 0, 0]) (by decide) (by decide) rfl rfl

/-- C35 (as stated) fails: on "Hello" against "World" the first call of
`my_utf8_decode` stores six bytes from the first byte of the 4-byte
`code_point1`, so the call neither returns nor loops in a defined way; and
`my_utf8_decode` does not return 0 on the one-byte buffer E2, where its input
pointer passes the terminator. -/
theorem strcmp_first_iteration_undefined :
    (∀ (word : List Nat → Nat) (fuel : Nat),
        my_utf8_strcmp_run word (fuel + 1) [0x48, 0x65, 0x6C, 0x6C, 0x6F]
          [0x57, 0x6F, 0x72, 0x6C, 0x64] = Outcome.undefined) ∧
      (∀ word : List Nat → Nat,
        decode_into_code_point word [0x48, 0x65, 0x6C, 0x6C, 0x6F] = Outcome.undefined) ∧
      my_utf8_decode [0xE2] = Outcome.undefined ∧
      (∀ (word : List Nat → Nat) (fuel : Nat),
        my_utf8_strcmp_run word (fuel + 1) [0xE2] [0x41] = Outcome.undefined) :=
  ⟨fun _ _ => rfl, fun _ => rfl, by decide, fun _ _ => rfl⟩

/-! ## Reverse round trip on canonical escape text -/

theorem upper_hex_facts (d : Nat)
    (h : (0x30 ≤ d ∧ d ≤ 0x39) ∨ (0x41 ≤ d ∧ d ≤ 0x46)) :
    ∃ v, hex_value d = some v ∧ v < 16 ∧ hex_char_upper v = d := by
  rcases h with h | h
  · refine ⟨d - 0x30, ?_, by omega, ?_⟩
    · unfold hex_value
      rw [if_pos h]
    · unfold hex_char_upper
      rw [if_pos (by omega)]
      omega
  · refine ⟨d - 0x37, ?_, by omega, ?_⟩
    · unfold hex_value
      rw [if_neg (by omega), if_pos h]
    · unfold hex_char_upper
      rw [if_neg (by omega)]
      omega

/-- A canonical element is well formed, its value is in 1..0xFFFF, and the
escape form of its value is its own text. -/
theorem canonical_item_facts (it : EscapeItem) (h : it.canonical = true) :
    it.well_formed = true ∧ 1 ≤ it.value ∧ it.value ≤ 0xFFFF ∧
      (if it.value ≤ 0x7F then [it.value] else escape_token it.value) = it.text := by
  cases it with
  | literal c =>
    simp only [EscapeItem.canonical, Bool.and_eq_true, decide_eq_true_eq] at h
    have h1 : c ≤ 0x7F := h.2
    refine ⟨by simp [EscapeItem.well_formed, h.1, h.2], h.1, by simp only [EscapeItem.value]; omega,
      by simp [EscapeItem.value, EscapeItem.text, h1]⟩
  | token d1 d2 d3 d4 =>
    simp only [EscapeItem.canonical, List.all_cons, List.all_nil, Bool.and_true, Bool.and_eq_true,
      Bool.or_eq_true, decide_eq_true_eq] at h
    obtain ⟨⟨u1, u2, u3, u4⟩, hval⟩ := h
    obtain ⟨v1, e1, b1, c1⟩ := upper_hex_facts d1 u1
    obtain ⟨v2, e2, b2, c2⟩ := upper_hex_facts d2 u2
    obtain ⟨v3, e3, b3, c3⟩ := upper_hex_facts d3 u3
    obtain ⟨v4, e4, b4, c4⟩ := upper_hex_facts d4 u4
    have hv : (EscapeItem.token d1 d2 d3 d4).value = ((v1 * 16 + v2) * 16 + v3) * 16 + v4 := by
      simp [EscapeItem.value, e1, e2, e3, e4]
    rw [hv] at hval ⊢
    have g1 : (((v1 * 16 + v2) * 16 + v3) * 16 + v4) / 4096 % 16 = v1 := by omega
    have g2 : (((v1 * 16 + v2) * 16 + v3) * 16 + v4) / 256 % 16 = v2 := by omega
    have g3 : (((v1 * 16 + v2) * 16 + v3) * 16 + v4) / 16 % 16 = v3 := by omega
    have g4 : (((v1 * 16 + v2) * 16 + v3) * 16 + v4) % 16 = v4 := by omega
    refine ⟨by simp [EscapeItem.well_formed, e1, e2, e3, e4], by omega, by omega, ?_⟩
    rw [if_neg (by omega)]
    simp only [escape_token, g1, g2, g3, g4, c1, c2, c3, c4, EscapeItem.text]

theorem canonical_escape_form (items : List EscapeItem)
    (h : ∀ it ∈ items, it.canonical = true) :
    escape_form (items.map EscapeItem.value) = items.flatMap EscapeItem.text := by
  induction items with
  | nil => rfl
  | cons it rest ih =>
    have hit := canonical_item_facts it (h it (List.mem_cons_self it rest))
    have ihr := ih (fun y hy => h y (List.mem_cons_of_mem it hy))
    unfold escape_form at ihr ⊢
    rw [List.map_cons, List.flatMap_cons, List.flatMap_cons, ihr, hit.2.2.2]

/-- C36: for every text made of literal ASCII bytes 0x01..0x7F and of tokens of
backslash, `u` and four upper-case hexadecimal digits with value in
0x0080..0xFFFF, every backslash-`u` pair starting a token, `my_utf8_encode`
returns a buffer on which `my_utf8_decode` returns 0 and the text itself. -/
theorem escape_reverse_round_trip (items : List EscapeItem)
    (hc : ∀ it ∈ items, it.canonical = true) (hnm : no_literal_marker items = true) :
    ∃ e, my_utf8_encode (items.flatMap EscapeItem.text) = Outcome.returned e ∧
      my_utf8_decode e = Outcome.returned (0, items.flatMap EscapeItem.text) := by
  have hwf : ∀ it ∈ items, it.well_formed = true :=
    fun it hit => (canonical_item_facts it (hc it hit)).1
  have hvals : ∀ c ∈ items.map EscapeItem.value, 1 ≤ c ∧ c ≤ 0xFFFF := by
    intro c hcm
    obtain ⟨it, hit, rfl⟩ := List.mem_map.1 hcm
    have := canonical_item_facts it (hc it hit)
    exact ⟨this.2.1, this.2.2.1⟩
  obtain ⟨o2, hr, hb⟩ := encode_run_items items hwf hnm _ OutBuf.empty (Nat.le_refl _)
  have hb2 : o2.before = (items.map EscapeItem.value).flatMap minimal_utf8_encoding := by
    simpa [OutBuf.empty] using hb
  obtain ⟨o3, hr3, hb3⟩ := decode_run_valid (items.map EscapeItem.value) hvals _ OutBuf.empty
    (Nat.le_refl _)
  have hb3b : o3.before = escape_form (items.map EscapeItem.value) := by
    simpa [OutBuf.empty] using hb3
  refine ⟨(items.map EscapeItem.value).flatMap minimal_utf8_encoding, ?_, ?_⟩
  · unfold my_utf8_encode
    rw [hr]
    simp only [Outcome.map]
    rw [finish_eq o2 (by rw [hb2]; exact encoded_ne_zero _ hvals), hb2]
  · unfold my_utf8_decode
    rw [hr3]
    simp only [Outcome.map]
    rw [finish_eq o3 (by rw [hb3b]; exact escape_form_ne_zero _ hvals), hb3b,
      canonical_escape_form items hc]

theorem escape_reverse_round_trip_witness :
    ∃ e, my_utf8_encode
        ([EscapeItem.literal 0x48, EscapeItem.literal 0x5C, EscapeItem.token 0x30 0x30 0x45 0x39,
          EscapeItem.token 0x32 0x30 0x41 0x43, EscapeItem.literal 0x75].flatMap
            EscapeItem.text) = Outcome.returned e ∧
      my_utf8_decode e = Outcome.returned (0,
        [EscapeItem.literal 0x48, EscapeItem.literal 0x5C, EscapeItem.token 0x30 0x30 0x45 0x39,
          EscapeItem.token 0x32 0x30 0x41 0x43, EscapeItem.literal 0x75].flatMap
            EscapeItem.text) :=
  escape_reverse_round_trip
    [EscapeItem.literal 0x48, EscapeItem.literal 0x5C, EscapeItem.token 0x30 0x30 0x45 0x39,
      EscapeItem.token 0x32 0x30 0x41 0x43, EscapeItem.literal 0x75] (by decide) (by decide)

/-! ## Sub-range extraction: one byte per sequence -/

theorem substring_next_gt (ch i : Nat) : i + 1 ≤ substring_next ch i := by
  unfold substring_next
  split
  · omega
  · split
    · omega
    · split
      · omega
      · split <;> omega

/-- With fuel for the rest of the buffer, the list of first bytes does not
depend on the fuel. -/
theorem sequence_heads_fuel (b : List Nat) (L : Nat) :
    ∀ (F i : Nat), L ≤ F + i → ∀ F2, L ≤ F2 + i →
      sequence_heads b L F i = sequence_heads b L F2 i := by
  intro F
  induction F with
  | zero =>
    intro i h F2 _
    cases F2 with
    | zero => rfl
    | succ F2 => simp [sequence_heads, show ¬ i < L by omega]
  | succ F ih =>
    intro i h F2 h2
    cases F2 with
    | zero => simp [sequence_heads, show ¬ i < L by omega]
    | succ F2 =>
      simp only [sequence_heads]
      by_cases hi : i < L
      · have hn := substring_next_gt (peek b i) i
        rw [if_pos hi, if_pos hi, ih _ (by omega) F2 (by omega)]
      · rw [if_neg hi, if_neg hi]

theorem sequence_heads_succ (b : List Nat) (L F i : Nat) :
    sequence_heads b L (F + 1) i =
      if i < L then peek b i :: sequence_heads b L F (substring_next (peek b i) i) else [] :=
  rfl

/-- The list of first bytes from index `i`: the byte at `i` and the list from
the next sequence on, or nothing at the end of the buffer. -/
theorem sequence_heads_unfold (b : List Nat) (L i : Nat) :
    sequence_heads b L L i =
      if i < L then peek b i :: sequence_heads b L L (substring_next (peek b i) i) else [] := by
  cases L with
  | zero => simp [sequence_heads]
  | succ L =>
    have hn := substring_next_gt (peek b i) i
    rw [sequence_heads_succ b (L + 1) L i]
    by_cases hi : i < L + 1
    · rw [if_pos hi, if_pos hi,
        sequence_heads_fuel b (L + 1) L _ (by omega) (L + 1) (by omega)]
    · rw [if_neg hi, if_neg hi]

/-- The skipping loop stops at the index from which the first bytes are those
left after dropping `start - currentIndex` of them. -/
theorem substring_skip_heads (b : List Nat) (L : Nat) (start : Int) :
    ∀ (fuel i : Nat) (cur : Int), L + 1 ≤ fuel + min i L →
      ∃ i2, substring_skip b L start fuel i cur = some i2 ∧
        sequence_heads b L L i2 = (sequence_heads b L L i).drop (start - cur).toNat := by
  intro fuel
  induction fuel with
  | zero => intro i cur h; omega
  | succ fuel ih =>
    intro i cur h
    simp only [substring_skip]
    by_cases hcond : i < L ∧ cur < start
    · have hn := substring_next_gt (peek b i) i
      obtain ⟨i2, hr, hh⟩ := ih (substring_next (peek b i) i) (cur + 1) (by omega)
      refine ⟨i2, by rw [if_pos hcond, hr], ?_⟩
      have ht : (start - cur).toNat = (start - (cur + 1)).toNat + 1 := by omega
      rw [hh, sequence_heads_unfold b L i, if_pos hcond.1, ht, List.drop_succ_cons]
    · refine ⟨i, by rw [if_neg hcond], ?_⟩
      by_cases hi : i < L
      · have ht : (start - cur).toNat = 0 := by
          have : ¬ cur < start := fun hc => hcond ⟨hi, hc⟩
          omega
        rw [ht, List.drop_zero]
      · rw [sequence_heads_unfold b L i, if_neg hi, List.drop_nil]

/-- The extraction loop appends the first bytes of the next `length - j`
sequences, or of those that are left. -/
theorem substring_copy_heads (b : List Nat) (L : Nat) (length : Int) :
    ∀ (fuel i : Nat) (j : Int) (before : List Nat), L + 1 ≤ fuel + min i L →
      substring_copy b L length fuel i j { before := before, after := [] } =
        some { before := before ++ (sequence_heads b L L i).take (length - j).toNat,
               after := [] } := by
  intro fuel
  induction fuel with
  | zero => intro i j before h; omega
  | succ fuel ih =>
    intro i j before h
    simp only [substring_copy]
    by_cases hcond : j < length ∧ i < L
    · have hn := substring_next_gt (peek b i) i
      have ht : (length - j).toNat = (length - (j + 1)).toNat + 1 := by omega
      rw [if_pos hcond, put_eq]
      simp only [List.drop_nil]
      rw [ih (substring_next (peek b i) i) (j + 1) (before ++ [peek b i]) (by omega),
        sequence_heads_unfold b L i, if_pos hcond.2, ht, List.take_succ_cons]
      simp
    · rw [if_neg hcond]
      by_cases hi : i < L
      · have ht : (length - j).toNat = 0 := by
          have : ¬ j < length := fun hc => hcond ⟨hc, hi⟩
          omega
        rw [ht]
        simp
      · rw [sequence_heads_unfold b L i, if_neg hi]
        simp

theorem sequence_heads_mem (b : List Nat) :
    ∀ (F i : Nat), ∀ x ∈ sequence_heads b b.length F i, x ∈ b := by
  intro F
  induction F with
  | zero => intro i x hx; simp [sequence_heads] at hx
  | succ F ih =>
    intro i x hx
    simp only [sequence_heads] at hx
    by_cases hi : i < b.length
    · rw [if_pos hi] at hx
      rcases List.mem_cons.1 hx with e | m
      · rw [e]; exact peek_mem b i hi
      · exact ih _ x m
    · rw [if_neg hi] at hx
      simp at hx

set_option maxRecDepth 100000 in
/-- On a byte, the chain of masks of `my_utf8_substring` moves the index by the
length that the byte announces in the UTF-8 table. -/
theorem substring_next_announced (x i : Nat) (hx : x < 256) :
    substring_next x i = i + announced_length x := by
  have h0 : ∀ y < 256, substring_next y 0 = announced_length y := by decide
  have hi : substring_next x i = i + substring_next x 0 := by
    unfold substring_next
    split
    · rfl
    · split
      · rfl
      · split
        · rfl
        · split <;> rfl
  rw [hi, h0 x hx]

theorem announced_length_pos (x : Nat) : 1 ≤ announced_length x := by
  unfold announced_length
  split
  · omega
  · split
    · omega
    · split <;> omega

theorem first_bytes_zero_cons (x : Nat) (rest : List Nat) :
    first_bytes 0 (x :: rest) = x :: first_bytes (announced_length x - 1) rest :=
  rfl

theorem first_bytes_skip : ∀ (k : Nat) (l : List Nat),
    first_bytes k l = first_bytes 0 (l.drop k) := by
  intro k
  induction k with
  | zero => intro l; rfl
  | succ k ih =>
    intro l
    cases l with
    | nil => rfl
    | cons x rest => simp only [first_bytes, List.drop_succ_cons]; exact ih rest

/-- The first bytes that the walk of `my_utf8_substring` visits from index `i`
are the first bytes of the sequences of the rest of the buffer. -/
theorem sequence_heads_first_bytes (b : List Nat) (hb : ∀ x ∈ b, x < 256) :
    ∀ (m i : Nat), b.length ≤ m + i →
      sequence_heads b b.length b.length i = first_bytes 0 (b.drop i) := by
  intro m
  induction m with
  | zero =>
    intro i h
    rw [sequence_heads_unfold, if_neg (by omega), List.drop_eq_nil_of_le (by omega)]
    rfl
  | succ m ih =>
    intro i h
    by_cases hi : i < b.length
    · have hp := announced_length_pos (peek b i)
      have hpk : peek b i = b[i] := by
        simp [peek, List.getD_eq_getElem?_getD, List.getElem?_eq_getElem hi]
      have hd : b.drop i = peek b i :: b.drop (i + 1) := by
        rw [hpk]
        exact List.drop_eq_getElem_cons hi
      rw [sequence_heads_unfold, if_pos hi,
        substring_next_announced _ i (hb _ (peek_mem b i hi)),
        ih (i + announced_length (peek b i)) (by omega), hd]
      rw [first_bytes_zero_cons, first_bytes_skip (announced_length (peek b i) - 1),
        List.drop_drop]
      have e1 : announced_length (peek b i) - 1 + (i + 1) = i + announced_length (peek b i) := by
        omega
      have e2 : i + 1 + (announced_length (peek b i) - 1) = i + announced_length (peek b i) := by
        omega
      first
        | rw [e1]
        | rw [e2]
    · rw [sequence_heads_unfold, if_neg hi, List.drop_eq_nil_of_le (by omega)]
      rfl

/-- The first byte of the shortest-form encoding of a code point announces the
length of that encoding and is no continuation byte. -/
theorem minimal_encoding_first_byte (c : Nat) (hc : c ≤ 0x10FFFF) :
    ∃ x tail, minimal_utf8_encoding c = x :: tail ∧
      announced_length x - 1 = tail.length ∧ ¬ (0x80 ≤ x ∧ x ≤ 0xBF) := by
  unfold minimal_utf8_encoding
  by_cases h1 : c ≤ 0x7F
  · refine ⟨c, [], by rw [if_pos h1], ?_, by omega⟩
    unfold announced_length
    rw [if_neg (by omega), if_neg (by omega), if_neg (by omega)]
    rfl
  · by_cases h2 : c ≤ 0x7FF
    · refine ⟨0xC0 + c / 64, [0x80 + c % 64], by rw [if_neg h1, if_pos h2], ?_, by omega⟩
      unfold announced_length
      rw [if_pos (by omega)]
      rfl
    · by_cases h3 : c ≤ 0xFFFF
      · refine ⟨0xE0 + c / 4096, [0x80 + c / 64 % 64, 0x80 + c % 64],
          by rw [if_neg h1, if_neg h2, if_pos h3], ?_, by omega⟩
        unfold announced_length
        rw [if_neg (by omega), if_pos (by omega)]
        rfl
      · refine ⟨0xF0 + c / 262144, [0x80 + c / 4096 % 64, 0x80 + c / 64 % 64, 0x80 + c % 64],
          by rw [if_neg h1, if_neg h2, if_neg h3], ?_, by omega⟩
        unfold announced_length
        rw [if_neg (by omega), if_neg (by omega), if_pos (by omega)]
        rfl

/-- The first bytes of the sequences of a concatenation of shortest-form
encodings are the first bytes of the encodings, one for each code point. -/
theorem first_bytes_encodings : ∀ cps : List Nat, (∀ c ∈ cps, c ≤ 0x10FFFF) →
    first_bytes 0 (cps.flatMap minimal_utf8_encoding) =
      cps.map (fun c => (minimal_utf8_encoding c).headD 0) := by
  intro cps
  induction cps with
  | nil => intro _; rfl
  | cons c rest ih =>
    intro h
    obtain ⟨x, tail, he, hl, _⟩ := minimal_encoding_first_byte c (h c (List.mem_cons_self c rest))
    rw [List.flatMap_cons, List.map_cons, he, List.cons_append]
    rw [first_bytes_zero_cons, List.headD_cons, first_bytes_skip, hl, List.drop_left, ih (fun d hd => h d (List.mem_cons_of_mem c hd))]

theorem encoding_first_bytes_not_continuation (cps : List Nat) (h : ∀ c ∈ cps, c ≤ 0x10FFFF) :
    ∀ x ∈ cps.map (fun c => (minimal_utf8_encoding c).headD 0), ¬ (0x80 ≤ x ∧ x ≤ 0xBF) := by
  intro x hx
  obtain ⟨c, hc, rfl⟩ := List.mem_map.1 hx
  obtain ⟨y, tail, he, _, hn⟩ := minimal_encoding_first_byte c (h c hc)
  rw [he]
  exact hn

/-- C37 (as amended): `my_utf8_substring` copies one byte per sequence.  For
every buffer `b` of bytes 0x01..0xFF and every `start` and `length`, the output
is the list of first bytes of the sequences of `b` (each as long as its first
byte announces) left after skipping `start` of them, `length` of them at most;
its byte length is `min(max(length, 0), number of sequences left after the
skip)`, so it never exceeds `length` (counted as 0 when negative).  When `b` is
the concatenation of the shortest-form encodings of code points, the output is
the first byte of the encoding of each selected code point and holds no
continuation byte 0x80..0xBF. -/
theorem substring_one_byte_per_sequence (b : List Nat) (start length : Int)
    (hb : ∀ x ∈ b, 1 ≤ x ∧ x ≤ 0xFF) :
    my_utf8_substring b start length =
        some (((first_bytes 0 b).drop start.toNat).take length.toNat) ∧
      (((first_bytes 0 b).drop start.toNat).take length.toNat).length =
        min length.toNat ((first_bytes 0 b).length - start.toNat) ∧
      (((first_bytes 0 b).drop start.toNat).take length.toNat).length ≤ length.toNat ∧
      ∀ cps : List Nat, (∀ c ∈ cps, c ≤ 0x10FFFF) → b = cps.flatMap minimal_utf8_encoding →
        my_utf8_substring b start length =
            some (((cps.map (fun c => (minimal_utf8_encoding c).headD 0)).drop
              start.toNat).take length.toNat) ∧
          ∀ out, my_utf8_substring b start length = some out →
            ∀ x ∈ out, ¬ (0x80 ≤ x ∧ x ≤ 0xBF) := by
  have hnz : ∀ x ∈ b, x ≠ 0 := fun x hx => by have := hb x hx; omega
  have hfb : sequence_heads b b.length b.length 0 = first_bytes 0 b :=
    sequence_heads_first_bytes b (fun x hx => by have := hb x hx; omega) b.length 0 (by omega)
  have hmain : my_utf8_substring b start length =
      some (((first_bytes 0 b).drop start.toNat).take length.toNat) := by
    obtain ⟨i2, hskip, hheads⟩ :=
      substring_skip_heads b b.length start (b.length + 1) 0 0 (by omega)
    have hcopy := substring_copy_heads b b.length length (b.length + 1) i2 0 [] (by omega)
    simp only [Int.sub_zero, List.nil_append] at hheads hcopy
    simp only [my_utf8_substring, substring_input_length_nonzero b hnz, hskip, OutBuf.empty,
      hcopy]
    rw [finish_eq]
    · simp only [hheads, hfb]
    · intro x hx
      simp only [hheads] at hx
      exact hnz x (sequence_heads_mem b _ _ x (List.mem_of_mem_drop (List.mem_of_mem_take hx)))
  refine ⟨hmain, by simp [List.length_take, List.length_drop], ?_, ?_⟩
  · rw [List.length_take]
    exact Nat.min_le_left _ _
  · intro cps hc he
    have hf : first_bytes 0 b = cps.map (fun c => (minimal_utf8_encoding c).headD 0) := by
      rw [he]
      exact first_bytes_encodings cps hc
    refine ⟨by rw [hmain, hf], ?_⟩
    intro out ho x hx
    rw [hmain, hf] at ho
    rw [← Option.some.inj ho] at hx
    exact encoding_first_bytes_not_continuation cps hc x
      (List.mem_of_mem_drop (List.mem_of_mem_take hx))

theorem substring_one_byte_per_sequence_witness :
    (my_utf8_substring [0x48, 0x65, 0x6C, 0x6C, 0x6F, 0x20, 0xE4, 0xBD, 0xA0, 0xE5, 0xA5, 0xBD] 6 2 =
        some [0xE4, 0xE5] ∧
      ∀ out, my_utf8_substring
          [0x48, 0x65, 0x6C, 0x6C, 0x6F, 0x20, 0xE4, 0xBD, 0xA0, 0xE5, 0xA5, 0xBD] 6 2 = some out →
        ∀ x ∈ out, ¬ (0x80 ≤ x ∧ x ≤ 0xBF)) ∧
      first_bytes 0 [0x48, 0x65, 0x6C, 0x6C, 0x6F, 0x20, 0xE4, 0xBD, 0xA0, 0xE5, 0xA5, 0xBD] =
        [0x48, 0x65, 0x6C, 0x6C, 0x6F, 0x20, 0xE4, 0xE5] ∧
      my_utf8_substring [0xC3, 0xA9, 0x41, 0xF0, 0x9F, 0x98, 0x8A, 0x42] 1 (-3) = some [] ∧
      my_utf8_substring [0xC3, 0xA9, 0x41, 0xF0, 0x9F, 0x98, 0x8A, 0x42] (-1) 9 =
        some [0xC3, 0x41, 0xF0, 0x42] ∧
      my_utf8_substring [0x41, 0xFF, 0xE4, 0xBD] 1 5 = some [0xFF, 0xE4] :=
  ⟨(((substring_one_byte_per_sequence
      [0x48, 0x65, 0x6C, 0x6C, 0x6F, 0x20, 0xE4, 0xBD, 0xA0, 0xE5, 0xA5, 0xBD] 6 2
      (by decide)).2.2.2 [0x48, 0x65, 0x6C, 0x6C, 0x6F, 0x20, 0x4F60, 0x597D]
        (by decide) (by decide)).imp_left (fun h => h.trans (by decide))),
   by decide,
   (substring_one_byte_per_sequence [0xC3, 0xA9, 0x41, 0xF0, 0x9F, 0x98, 0x8A, 0x42] 1 (-3)
      (by decide)).1.trans (by decide),
   (substring_one_byte_per_sequence [0xC3, 0xA9, 0x41, 0xF0, 0x9F, 0x98, 0x8A, 0x42] (-1) 9
      (by decide)).1.trans (by decide),
   (substring_one_byte_per_sequence [0x41, 0xFF, 0xE4, 0xBD] 1 5 (by decide)).1.trans (by decide)⟩

/-- C37 (as stated) fails in its last clause: on the buffer C3 C3 A9 the walk
takes C3 C3 for a two-byte sequence and next copies A9, the continuation byte of
the character C3 A9; on "A" followed by A9 the continuation byte is copied as
well. -/
theorem substring_copies_continuation_byte :
    my_utf8_substring [0xC3, 0xC3, 0xA9] 0 2 = some [0xC3, 0xA9] ∧
      my_utf8_substring [0x41, 0xA9] 0 2 = some [0x41, 0xA9] ∧
      is_continuation_byte 0xA9 = true := by decide

end Utf8Project
